import Mathlib

/-!
# ScraperAgent crawl-coordination core: a shallow embedding

This file embeds the coordination core of the ScraperAgent web crawler
(`src/core/crawler.py`, `src/middlewares/rate_limiter.py`,
`src/middlewares/proxy_middleware.py`, `src/utils/cache_manager.py`,
`src/utils/url_utils.py`) into Lean and proves properties of it.

Modelling conventions:
* Python `str` is modelled as `List Char` (wrapped into `String` at the API
  boundary); `float` time and delay values are modelled as `ℚ`;
  Python `dict` is modelled as an insertion-ordered association list.
* Network I/O (HTTP requests, robots.txt fetches, proxy probes) is passed in
  as explicit oracle functions; `time.time()` and `random` samples are
  explicit parameters.
* `str.lower` is modelled as the ASCII lowercase map (CPython maps the full
  Unicode table; the two agree on ASCII input, to which general theorems
  restrict themselves).
-/

namespace ScraperAgent

/-! ## Python string primitives (over `List Char`) -/

/-- Python `str.lower`, restricted to the ASCII mapping (`Char.toLower`). -/
def pyLower (l : List Char) : List Char := l.map Char.toLower

/-- Index of the first occurrence of `c` (Python `str.find`, `none` for -1). -/
def findChar (c : Char) : List Char → Option ℕ
  | [] => none
  | a :: t => if a = c then some 0 else (findChar c t).map (· + 1)

/-- Index of the last occurrence of `c` (Python `str.rfind`, `none` for -1). -/
def rfindChar (c : Char) (l : List Char) : Option ℕ :=
  (findChar c l.reverse).map (fun i => l.length - 1 - i)

/-- First occurrence of `c` at index ≥ `start` (Python `str.find(c, start)`). -/
def findCharFrom (c : Char) (l : List Char) (start : ℕ) : Option ℕ :=
  (findChar c (l.drop start)).map (· + start)

/-- Python `s.split(c, 1)`: split at the first occurrence of `c`, if any. -/
def splitOnceChar (c : Char) (l : List Char) : Option (List Char × List Char) :=
  (findChar c l).map (fun i => (l.take i, l.drop (i + 1)))

/-- Python `s.split(c)` (for nonempty `s`): all chunks, empties preserved. -/
def splitAllChar (c : Char) : List Char → List (List Char)
  | [] => [[]]
  | a :: t =>
    if a = c then [] :: splitAllChar c t
    else match splitAllChar c t with
      | [] => [[a]]
      | h :: r => (a :: h) :: r

/-- Python `s.rstrip('/')`. -/
def rstripSlash (l : List Char) : List Char :=
  (l.reverse.dropWhile (· = '/')).reverse

/-- Python `str.startswith`. -/
def pyStartsWith (s p : String) : Bool := p.data.isPrefixOf s.data

/-- Python `s.endswith('/')` for a single character. -/
def endsWithSlash (l : List Char) : Bool :=
  match l.getLast? with
  | some c => c = '/'
  | none => false

/-! ## Association lists standing for Python `dict` (insertion-ordered) -/

/-- `d[k]` lookup (first match; keys are kept unique by `dictSet`). -/
def dictGet {κ α : Type} [DecidableEq κ] (d : List (κ × α)) (k : κ) : Option α :=
  match d with
  | [] => none
  | p :: t => if p.1 = k then some p.2 else dictGet t k

/-- `d[k] = v`: update in place if present, else append (Python dict order). -/
def dictSet {κ α : Type} [DecidableEq κ] (d : List (κ × α)) (k : κ) (v : α) :
    List (κ × α) :=
  match d with
  | [] => [(k, v)]
  | p :: t => if p.1 = k then (k, v) :: t else p :: dictSet t k v

/-- `del d[k]`. -/
def dictErase {κ α : Type} [DecidableEq κ] (d : List (κ × α)) (k : κ) :
    List (κ × α) :=
  d.filter (fun p => ¬ p.1 = k)

/-- The key set of a dict. -/
def dictKeys {κ α : Type} (d : List (κ × α)) : List κ := d.map (·.1)

/-! ## `urllib.parse`: `urlsplit` / `urlparse`

Modelled after CPython's `Lib/urllib/parse.py`: tab/CR/LF characters are
removed, then the scheme is recognised (first `:` preceded by an ASCII letter
and scheme characters), `//…` introduces the netloc (up to the first `/?#`),
the fragment is split at the first `#` and the query at the first `?`.
The `ValueError` CPython raises on unbalanced `[`/`]` in the netloc is not
modelled; general theorems restrict to bracket-free input. -/

def isAsciiAlpha (c : Char) : Bool :=
  ('a' ≤ c ∧ c ≤ 'z') ∨ ('A' ≤ c ∧ c ≤ 'Z')

def isAsciiDigit (c : Char) : Bool := '0' ≤ c ∧ c ≤ '9'

/-- CPython `scheme_chars`: letters, digits and `+-.`. -/
def isSchemeChar (c : Char) : Bool :=
  isAsciiAlpha c ∨ isAsciiDigit c ∨ c = '+' ∨ c = '-' ∨ c = '.'

structure SplitResult where
  scheme : List Char
  netloc : List Char
  path : List Char
  query : List Char
  fragment : List Char
deriving DecidableEq, Repr

/-- `_splitnetloc(url, 2)` with the `url[2:]` already applied: the netloc runs
up to the first `/`, `?` or `#`. -/
def splitNetloc (l : List Char) : List Char × List Char :=
  match l.findIdx? (fun c => c = '/' ∨ c = '?' ∨ c = '#') with
  | some i => (l.take i, l.drop i)
  | none => (l, [])

/-- The scheme-recognition step of `urlsplit` (on the cleaned url). -/
def splitScheme (url : List Char) : List Char × List Char :=
  match findChar ':' url with
  | some i =>
    if decide (0 < i) && (match url.head? with
                          | some c => isAsciiAlpha c
                          | none => false)
       && ((url.take i).drop 1).all isSchemeChar
    then (pyLower (url.take i), url.drop (i + 1))
    else ([], url)
  | none => ([], url)

/-- Split the fragment off at the first `#`. -/
def splitFragmentQ (rest : List Char) : List Char × List Char :=
  match splitOnceChar '#' rest with
  | some p => p
  | none => (rest, [])

/-- Split the query off at the first `?`. -/
def splitQueryQ (rest : List Char) : List Char × List Char :=
  match splitOnceChar '?' rest with
  | some p => p
  | none => (rest, [])

/-- `urlsplit` after the scheme has been split off. -/
def urlsplitCore (scheme rest : List Char) : SplitResult :=
  ⟨scheme,
   (if rest.take 2 = ['/', '/'] then splitNetloc (rest.drop 2)
    else ([], rest)).1,
   (splitQueryQ (splitFragmentQ (if rest.take 2 = ['/', '/']
      then splitNetloc (rest.drop 2) else ([], rest)).2).1).1,
   (splitQueryQ (splitFragmentQ (if rest.take 2 = ['/', '/']
      then splitNetloc (rest.drop 2) else ([], rest)).2).1).2,
   (splitFragmentQ (if rest.take 2 = ['/', '/']
      then splitNetloc (rest.drop 2) else ([], rest)).2).2⟩

def urlsplitL (url0 : List Char) : SplitResult :=
  urlsplitCore
    (splitScheme
      (url0.filter (fun c => ¬ (c = '\t' ∨ c = '\r' ∨ c = '\n')))).1
    (splitScheme
      (url0.filter (fun c => ¬ (c = '\t' ∨ c = '\r' ∨ c = '\n')))).2

/-- CPython `uses_params`: schemes whose last path segment may carry
`;parameters`. -/
def usesParams : List (List Char) :=
  [[], ("ftp").data, ("hdl").data, ("prospero").data, ("http").data,
   ("imap").data, ("https").data, ("shttp").data, ("rtsp").data,
   ("rtspu").data, ("sip").data, ("sips").data, ("mms").data,
   ("sftp").data, ("tel").data]

/-- CPython `_splitparams`: split `;params` off the last path segment. -/
def splitparamsL (url : List Char) : List Char × List Char :=
  if '/' ∈ url then
    match rfindChar '/' url with
    | some j =>
      match findCharFrom ';' url j with
      | some i => (url.take i, url.drop (i + 1))
      | none => (url, [])
    | none => (url, [])
  else
    match findChar ';' url with
    | some i => (url.take i, url.drop (i + 1))
    | none => (url, [])

structure ParseResult where
  scheme : List Char
  netloc : List Char
  path : List Char
  params : List Char
  query : List Char
  fragment : List Char
deriving DecidableEq, Repr

def urlparseL (url : List Char) : ParseResult :=
  if (urlsplitL url).scheme ∈ usesParams ∧ ';' ∈ (urlsplitL url).path then
    ⟨(urlsplitL url).scheme, (urlsplitL url).netloc,
     (splitparamsL (urlsplitL url).path).1,
     (splitparamsL (urlsplitL url).path).2,
     (urlsplitL url).query, (urlsplitL url).fragment⟩
  else
    ⟨(urlsplitL url).scheme, (urlsplitL url).netloc, (urlsplitL url).path,
     [], (urlsplitL url).query, (urlsplitL url).fragment⟩

/-! ## `urllib.parse`: percent-encoding, `parse_qs`, `urlencode`

`quote_plus` keeps CPython's always-safe characters (letters, digits,
`_.-~`), maps space to `+` and percent-encodes everything else with
uppercase hex.  CPython encodes the UTF-8 bytes of a character; the model
encodes the codepoint, which agrees with CPython exactly for codepoints
below 128 — the general theorems restrict to ASCII input, where the two
coincide (likewise for decoding). -/

def isAlwaysSafe (c : Char) : Bool :=
  isAsciiAlpha c ∨ isAsciiDigit c ∨ c = '_' ∨ c = '.' ∨ c = '-' ∨ c = '~'

def hexDigitUpper (n : ℕ) : Char :=
  if n < 10 then Char.ofNat (48 + n) else Char.ofNat (55 + n)

def quotePlusChar (c : Char) : List Char :=
  if isAlwaysSafe c then [c]
  else if c = ' ' then ['+']
  else ['%', hexDigitUpper (c.toNat / 16 % 16), hexDigitUpper (c.toNat % 16)]

/-- `urllib.parse.quote_plus` with `safe=''`. -/
def quotePlusL (l : List Char) : List Char := (l.map quotePlusChar).flatten

def hexVal (c : Char) : Option ℕ :=
  if '0' ≤ c ∧ c ≤ '9' then some (c.toNat - 48)
  else if 'a' ≤ c ∧ c ≤ 'f' then some (c.toNat - 87)
  else if 'A' ≤ c ∧ c ≤ 'F' then some (c.toNat - 55)
  else none

/-- `urllib.parse.unquote`: decode `%XY` hex pairs, leave malformed escapes
alone. -/
def unquoteL : List Char → List Char
  | [] => []
  | '%' :: c1 :: c2 :: rest2 =>
    (match hexVal c1, hexVal c2 with
     | some hi, some lo => Char.ofNat (16 * hi + lo) :: unquoteL rest2
     | _, _ => '%' :: unquoteL (c1 :: c2 :: rest2))
  | c :: rest => c :: unquoteL rest

def plusToSpace (l : List Char) : List Char :=
  l.map (fun c => if c = '+' then ' ' else c)

/-- The name/value decoding done inside `parse_qsl`:
`.replace('+', ' ')` then `unquote`. -/
def unquotePlusL (l : List Char) : List Char := unquoteL (plusToSpace l)

/-- `urllib.parse.parse_qsl(qs)` with default arguments: split on `&`,
skip empty chunks, skip chunks without `=` and chunks with a blank value
(`keep_blank_values=False`), decode names and values. -/
def parseQslL (qs : List Char) : List (List Char × List Char) :=
  let chunks := if qs = [] then [] else splitAllChar '&' qs
  chunks.foldr
    (fun chunk acc =>
      if chunk = [] then acc
      else match splitOnceChar '=' chunk with
        | none => acc
        | some nv =>
          if nv.2 = [] then acc
          else (unquotePlusL nv.1, unquotePlusL nv.2) :: acc)
    []

/-- The per-pair grouping step of `parse_qs`. -/
def qsStep (d : List (List Char × List (List Char)))
    (nv : List Char × List Char) : List (List Char × List (List Char)) :=
  match dictGet d nv.1 with
  | some vs => dictSet d nv.1 (vs ++ [nv.2])
  | none => d ++ [(nv.1, [nv.2])]

/-- `urllib.parse.parse_qs(qs)`: group `parse_qsl` pairs by name, keeping
first-appearance order of names and appearance order of values. -/
def parseQsL (qs : List Char) : List (List Char × List (List Char)) :=
  (parseQslL qs).foldl qsStep []

/-- Lexicographic `≤` on `List Char` by codepoint — Python string
comparison. -/
def listLeB : List Char → List Char → Bool
  | [], _ => true
  | _ :: _, [] => false
  | a :: as, b :: bs => if a < b then true else if a = b then listLeB as bs else false

/-- The composite query rewrite in `normalize_url`:
`urlencode({k: sorted(v) for k, v in sorted(parse_qs(q).items())}, doseq=True)`.
Keys are compared as strings (Python compares the `(key, values)` tuples,
but keys in a dict are distinct, so only the key matters). -/
def normQuery (q : List Char) : List Char :=
  if q = [] then []
  else
    let params := parseQsL q
    let sortedParams :=
      (List.insertionSort (fun a b => listLeB a.1 b.1 = true) params).map
        (fun p => (p.1, List.insertionSort (fun a b => listLeB a b = true) p.2))
    let parts :=
      (sortedParams.map
        (fun p => p.2.map (fun v => quotePlusL p.1 ++ '=' :: quotePlusL v))).flatten
    List.intercalate ['&'] parts

/-- The sorted, value-sorted parameter dict built inside `normQuery`. -/
def sortedParamsOf (q : List Char) : List (List Char × List (List Char)) :=
  (List.insertionSort (fun a b => listLeB a.1 b.1 = true) (parseQsL q)).map
    (fun p => (p.1, List.insertionSort (fun a b => listLeB a b = true) p.2))

/-! ## `urllib.parse`: `urlunparse` -/

/-- The `;params` re-attachment of `urlunparse`. -/
def unparseBase (c : ParseResult) : List Char :=
  if c.params = [] then c.path else c.path ++ ';' :: c.params

/-- The netloc stage of `urlunsplit`. -/
def unparseWithNetloc (c : ParseResult) : List Char :=
  if ¬ c.netloc = [] ∨ (unparseBase c).take 2 = ['/', '/'] then
    '/' :: '/' :: (c.netloc ++
      (if ¬ unparseBase c = [] ∧ ¬ (unparseBase c).head? = some '/'
       then '/' :: unparseBase c else unparseBase c))
  else unparseBase c

/-- The scheme stage of `urlunsplit`. -/
def unparseWithScheme (c : ParseResult) : List Char :=
  if c.scheme = [] then unparseWithNetloc c
  else c.scheme ++ ':' :: unparseWithNetloc c

/-- The query stage of `urlunsplit`. -/
def unparseWithQuery (c : ParseResult) : List Char :=
  if c.query = [] then unparseWithScheme c
  else unparseWithScheme c ++ '?' :: c.query

/-- CPython `urlunsplit` composed with the `;params` re-attachment of
`urlunparse`. -/
def urlunparseL (c : ParseResult) : List Char :=
  if c.fragment = [] then unparseWithQuery c
  else unparseWithQuery c ++ '#' :: c.fragment

/-! ## `src/utils/url_utils.py` -/

/-- The netloc rewrite in `normalize_url`: remove a default port
(80 for http, 443 for https); `netloc.split(':', 1)`. -/
def stripDefaultPort (scheme netloc : List Char) : List Char :=
  if ':' ∈ netloc then
    match splitOnceChar ':' netloc with
    | some hp =>
      if (scheme = ("http").data ∧ hp.2 = ("80").data)
         ∨ (scheme = ("https").data ∧ hp.2 = ("443").data)
      then hp.1 else netloc
    | none => netloc
  else netloc

/-- The path rewrite in `normalize_url`: strip trailing slashes off a
non-root path; an empty path becomes `/`. -/
def normPath (p : List Char) : List Char :=
  let p := if ¬ p = ['/'] ∧ endsWithSlash p then rstripSlash p else p
  if p = [] then ['/'] else p

/-- `url_utils.normalize_url`, on `List Char`. -/
def normalizeUrlL (url : List Char) : List Char :=
  urlunparseL
    ⟨pyLower (urlparseL url).scheme,
     stripDefaultPort (pyLower (urlparseL url).scheme)
       (pyLower (urlparseL url).netloc),
     normPath (urlparseL url).path,
     (urlparseL url).params,
     normQuery (urlparseL url).query, []⟩

/-- `url_utils.normalize_url`. -/
def normalize_url (url : String) : String := ⟨normalizeUrlL url.data⟩

/-- `url_utils.get_domain`: lowercased netloc with any `:port` removed. -/
def getDomainL (url : List Char) : List Char :=
  let d := pyLower (urlparseL url).netloc
  if ':' ∈ d then
    match splitOnceChar ':' d with
    | some hp => hp.1
    | none => d
  else d

/-- `url_utils.get_domain`. -/
def get_domain (url : String) : String := ⟨getDomainL url.data⟩

/-! ## `src/middlewares/rate_limiter.py`

Delays and timestamps are `ℚ`.  `consecutive_failures` is a
`defaultdict(int)`: an absent key behaves as `0` everywhere it is read, and
`_get_delay_for_domain` guards its adaptive branch with `failures > 0`, so it
is modelled as a total function with default `0`.  `random` draws are
explicit parameters. -/

structure RateLimiter where
  base_delay : ℚ
  per_domain_rules : String → Option ℚ
  min_delay : ℚ
  max_delay : ℚ
  random_delay_range : ℚ
  adaptive_rate_limiting : Bool
  retry_delay_factor : ℚ
  last_request_time : String → Option ℚ
  consecutive_failures : String → ℕ
  temporary_delays : String → Option ℚ

/-- `RateLimiter.__init__`: `base_delay = max(base_delay, min_delay)`, empty
per-domain state. -/
def RateLimiter.mk0 (base_delay min_delay max_delay random_delay_range
    retry_delay_factor : ℚ) (per_domain_rules : String → Option ℚ)
    (adaptive : Bool) : RateLimiter :=
  { base_delay := max base_delay min_delay
    per_domain_rules := per_domain_rules
    min_delay := min_delay
    max_delay := max_delay
    random_delay_range := random_delay_range
    adaptive_rate_limiting := adaptive
    retry_delay_factor := retry_delay_factor
    last_request_time := fun _ => none
    consecutive_failures := fun _ => 0
    temporary_delays := fun _ => none }

/-- `RateLimiter._get_delay_for_domain`. -/
def getDelayForDomain (rl : RateLimiter) (domain : String) : ℚ :=
  let delay := rl.base_delay
  let delay := match rl.per_domain_rules domain with
    | some d => d
    | none => delay
  let delay := match rl.temporary_delays domain with
    | some t => max delay t
    | none => delay
  let delay :=
    if rl.adaptive_rate_limiting then
      let failures := rl.consecutive_failures domain
      if 0 < failures then
        min (delay * rl.retry_delay_factor ^ (min failures 4)) rl.max_delay
      else delay
    else delay
  max rl.min_delay (min delay rl.max_delay)

/-- `RateLimiter.wait_for_rate_limit`.  `now` is `time.time()`; `jitter` is
the `random.uniform(0, random_delay_range)` draw and `firstFactor` the
`random.uniform(0.2, 0.5)` draw used for the first request to a domain.
Returns the computed wait and the updated limiter (the actual
`time.sleep(wait_time)` happens outside the lock). -/
def waitForRateLimit (rl : RateLimiter) (domain : String) (now jitter
    firstFactor : ℚ) : ℚ × RateLimiter :=
  let delay := getDelayForDomain rl domain
  let randomized_delay :=
    if 0 < rl.random_delay_range then delay * (1 + jitter) else delay
  let wait_time := match rl.last_request_time domain with
    | some last => max 0 (randomized_delay - (now - last))
    | none => randomized_delay * firstFactor
  (wait_time,
   { rl with last_request_time := fun d =>
      if d = domain then some (now + wait_time) else rl.last_request_time d })

/-- `RateLimiter.report_success`. -/
def rlReportSuccess (rl : RateLimiter) (domain : String) : RateLimiter :=
  { rl with
    consecutive_failures := fun d =>
      if d = domain then 0 else rl.consecutive_failures d
    temporary_delays := fun d =>
      if d = domain then none else rl.temporary_delays d }

/-- `RateLimiter.report_failure`. -/
def rlReportFailure (rl : RateLimiter) (domain : String)
    (status_code : Option ℕ) : RateLimiter :=
  let rl := { rl with consecutive_failures := fun d =>
    if d = domain then rl.consecutive_failures d + 1
    else rl.consecutive_failures d }
  if status_code = some 429 then
    { rl with temporary_delays := fun d =>
        if d = domain then
          some (min (getDelayForDomain rl d * rl.retry_delay_factor * 2)
                    rl.max_delay)
        else rl.temporary_delays d }
  else rl

/-! ## `src/utils/cache_manager.py`

The memory cache and the on-disk pickle files are insertion-ordered dicts
from cache key to entry.  `_get_cache_key` hashes the URL with MD5; the
model uses the URL itself as the key — the only property of `_get_cache_key`
used anywhere is that equal URLs give equal keys.  Pickle corruption is an
I/O failure mode outside the model. -/

structure PyResponse where
  status_code : ℕ
  cache_control : String
  is_html : Bool
  body : ℕ
deriving DecidableEq, Repr

structure CacheEntry where
  url : String
  timestamp : ℚ
  response : PyResponse
deriving DecidableEq, Repr

structure CacheManager where
  enabled : Bool
  expiry : ℚ
  max_size : ℕ
  memory_cache : List (String × CacheEntry)
  disk_cache : List (String × CacheEntry)
deriving DecidableEq, Repr

def getCacheKey (url : String) : String := url

/-- `CacheManager._manage_cache_size`: when over `max_size`, drop the
oldest-timestamp entries until the bound is met (survivors keep their dict
order). -/
def manageCacheSize (cm : CacheManager) : CacheManager :=
  if cm.memory_cache.length ≤ cm.max_size then cm
  else
    let entries := List.insertionSort
      (fun a b => a.2.timestamp ≤ b.2.timestamp) cm.memory_cache
    let to_remove := entries.take (entries.length - cm.max_size)
    { cm with memory_cache :=
        cm.memory_cache.filter (fun p => ¬ (dictKeys to_remove).contains p.1) }

/-- The disk-lookup half of `CacheManager.get_response` (lines 113-136). -/
def diskLookup (cm : CacheManager) (key : String) (now : ℚ) :
    Option PyResponse × CacheManager :=
  match dictGet cm.disk_cache key with
  | some e =>
    if now - e.timestamp ≤ cm.expiry then
      let cm := manageCacheSize
        { cm with memory_cache := dictSet cm.memory_cache key e }
      (some e.response, cm)
    else (none, { cm with disk_cache := dictErase cm.disk_cache key })
  | none => (none, cm)

/-- `CacheManager.get_response`. -/
def getResponse (cm : CacheManager) (url : String) (now : ℚ) :
    Option PyResponse × CacheManager :=
  if ¬ cm.enabled then (none, cm)
  else
    let key := getCacheKey url
    match dictGet cm.memory_cache key with
    | some e =>
      if now - e.timestamp ≤ cm.expiry then (some e.response, cm)
      else diskLookup { cm with memory_cache := dictErase cm.memory_cache key }
             key now
    | none => diskLookup cm key now

/-- Substring test (Python `in` on strings). -/
def pyContains (needle hay : String) : Prop := needle.data <:+: hay.data

instance (needle hay : String) : Decidable (pyContains needle hay) :=
  inferInstanceAs (Decidable (needle.data <:+: hay.data))

/-- `CacheManager.cache_response`: only HTTP-200 responses without a
`no-store`/`no-cache` directive are stored, in memory and on disk. -/
def cacheResponse (cm : CacheManager) (url : String) (resp : PyResponse)
    (now : ℚ) : CacheManager :=
  if ¬ cm.enabled then cm
  else if ¬ resp.status_code = 200 then cm
  else if pyContains "no-store" ⟨pyLower resp.cache_control.data⟩
          ∨ pyContains "no-cache" ⟨pyLower resp.cache_control.data⟩ then cm
  else
    let key := getCacheKey url
    let e : CacheEntry := ⟨url, now, resp⟩
    let cm := manageCacheSize
      { cm with memory_cache := dictSet cm.memory_cache key e }
    { cm with disk_cache := dictSet cm.disk_cache key e }

/-- An empty, enabled cache with the crawler's defaults. -/
def emptyCache (expiry : ℚ) : CacheManager :=
  { enabled := true, expiry := expiry, max_size := 1000
    memory_cache := [], disk_cache := [] }

/-! ## `src/middlewares/proxy_middleware.py`

`_test_proxy` issues a network probe; it is passed in as an oracle
`probe : String → Option ℚ` returning `some response_time` on success (HTTP
200 inside the timeout) and `none` on failure.  `time.time()` is the
explicit `now`.  Python raises `IndexError`/`ValueError` when round-robin
or fastest selection indexes an impossible position; the model returns no
proxy there.  The unbounded retry recursion inside `get_proxy` is driven by
a fuel parameter (each recursive call strictly increases some failure
count, so the source recursion terminates; `fuel` makes that explicit). -/

structure ProxyMiddleware where
  max_failures : ℕ
  retry_delay : ℚ
  always_test_before_use : Bool
  proxies : List String
  active_proxies : List String
  dead_proxies : List (String × ℚ)
  failure_counts : List (String × ℕ)
  last_used : List (String × ℚ)
  proxy_speeds : List (String × ℚ)
  current_index : ℕ
deriving Repr

/-- `self.failure_counts[p]` (a `defaultdict(int)` read). -/
def fcGet (pm : ProxyMiddleware) (p : String) : ℕ :=
  (dictGet pm.failure_counts p).getD 0

/-- The shared failure-count/kill step (lines 263-271 and 330-337): bump
the consecutive-failure count and, at the `max_failures` threshold, remove
the proxy from the active list and record it dead at `now`. -/
def pmCountFail (pm : ProxyMiddleware) (p : String) (now : ℚ) :
    ProxyMiddleware :=
  if pm.max_failures ≤ fcGet pm p + 1 then
    { pm with
      failure_counts := dictSet pm.failure_counts p (fcGet pm p + 1)
      active_proxies := pm.active_proxies.erase p
      dead_proxies := dictSet pm.dead_proxies p now }
  else
    { pm with
      failure_counts := dictSet pm.failure_counts p (fcGet pm p + 1) }

/-- `ProxyMiddleware.report_failure`. -/
def pmReportFailure (pm : ProxyMiddleware) (proxy : String) (now : ℚ) :
    ProxyMiddleware :=
  if proxy = "" then pm else pmCountFail pm proxy now

/-- `ProxyMiddleware.report_success`. -/
def pmReportSuccess (pm : ProxyMiddleware) (proxy : String) :
    ProxyMiddleware :=
  if proxy = "" then pm
  else
    match dictGet pm.failure_counts proxy with
    | some _ => { pm with failure_counts := dictSet pm.failure_counts proxy 0 }
    | none => pm

/-- The per-proxy body of the active-proxy loop of
`ProxyMiddleware._check_all_proxies` (lines 168-186): a failed probe runs
the failure-count/kill step, a successful one resets the count and updates
the response-time moving average. -/
def checkActiveStep (probe : String → Option ℚ) (now : ℚ)
    (pm : ProxyMiddleware) (p : String) : ProxyMiddleware :=
  match probe p with
  | none => pmCountFail pm p now
  | some rt =>
    { pm with
      failure_counts := dictSet pm.failure_counts p 0
      proxy_speeds :=
        match dictGet pm.proxy_speeds p with
        | some old => dictSet pm.proxy_speeds p (7/10 * old + 3/10 * rt)
        | none => dictSet pm.proxy_speeds p rt }

/-- The dead-retry probe body of `_check_all_proxies` (lines 199-208):
re-activate a cooled-down dead proxy whose probe succeeds, mark it dead
again otherwise. -/
def retryDeadStep (now : ℚ) (probe : String → Option ℚ)
    (pm : ProxyMiddleware) (p : String) : ProxyMiddleware :=
  match probe p with
  | some rt =>
    { pm with
      active_proxies := pm.active_proxies ++ [p]
      failure_counts := dictSet pm.failure_counts p 0
      proxy_speeds := dictSet pm.proxy_speeds p rt }
  | none => { pm with dead_proxies := dictSet pm.dead_proxies p now }

/-- The dead-retry phase of `_check_all_proxies` (lines 188-208): collect
the cooled-down dead proxies, delete them from the dead dict, then probe
each. -/
def checkDeadPhase (now : ℚ) (probe : String → Option ℚ)
    (pm : ProxyMiddleware) : ProxyMiddleware :=
  ((pm.dead_proxies.filter
      (fun q => decide (pm.retry_delay < now - q.2))).map
    (fun q => q.1)).foldl (retryDeadStep now probe)
    { pm with dead_proxies := pm.dead_proxies.filter (fun q => ¬ decide (pm.retry_delay < now - q.2)) }

/-- `ProxyMiddleware._check_all_proxies`: probe a snapshot of the active
list, then move cooled-down dead proxies out, re-probe them and either
re-activate them or mark them dead again. -/
def checkAllProxies (pm : ProxyMiddleware) (probe : String → Option ℚ)
    (now : ℚ) : ProxyMiddleware :=
  checkDeadPhase now probe
    (pm.active_proxies.foldl (checkActiveStep probe now) pm)

/-- The per-entry body of `ProxyMiddleware._recover_dead_proxies`: for a
dead proxy past its cool-down, remove it from the dead dict, reset its
failure count, probe it, and either append it to the active list or mark it
dead again at `now`. -/
def recoverStep (now : ℚ) (probe : String → Option ℚ)
    (pm : ProxyMiddleware) (q : String × ℚ) : ProxyMiddleware :=
  if pm.retry_delay < now - q.2 then
    match probe q.1 with
    | some rt =>
      { pm with
        dead_proxies := dictErase pm.dead_proxies q.1
        failure_counts := dictSet pm.failure_counts q.1 0
        active_proxies := pm.active_proxies ++ [q.1]
        proxy_speeds := dictSet pm.proxy_speeds q.1 rt }
    | none =>
      { pm with
        dead_proxies := dictSet (dictErase pm.dead_proxies q.1) q.1 now
        failure_counts := dictSet pm.failure_counts q.1 0 }
  else pm

/-- `ProxyMiddleware._recover_dead_proxies`: iterate `recoverStep` over a
snapshot of the dead dict. -/
def recoverDeadProxies (pm : ProxyMiddleware) (now : ℚ)
    (probe : String → Option ℚ) : ProxyMiddleware :=
  pm.dead_proxies.foldl (recoverStep now probe) pm

inductive Strategy where
  | roundRobin
  | random (choice : ℕ)
  | fastest
deriving DecidableEq, Repr

/-- Python `min(pairs, key=lambda x: x[1])`: the first pair with minimal
second component; `none` on an empty list (`ValueError`). -/
def pyMinBySnd : List (String × ℚ) → Option (String × ℚ)
  | [] => none
  | x :: t => some (t.foldl (fun acc y => if y.2 < acc.2 then y else acc) x)

/-- The strategy dispatch of `ProxyMiddleware.get_proxy` (lines 233-247). -/
def selectProxy (pm : ProxyMiddleware) (strat : Strategy) :
    Option (String × ProxyMiddleware) :=
  match strat with
  | .random choice =>
    (pm.active_proxies.get? (choice % pm.active_proxies.length)).map (·, pm)
  | .fastest =>
    if pm.proxy_speeds = [] then (pm.active_proxies.get? 0).map (·, pm)
    else
      (pyMinBySnd (pm.proxy_speeds.filter
        (fun q => pm.active_proxies.contains q.1))).map (fun q => (q.1, pm))
  | .roundRobin =>
    match pm.active_proxies.get? pm.current_index with
    | some p =>
      some (p, { pm with current_index :=
        (pm.current_index + 1) % pm.active_proxies.length })
    | none => none

/-- The pre-use test of `get_proxy` (lines 254-271): on a successful probe
hand the proxy out, on a failed one run the failure-count/kill step and ask
for a retry (the tail call `return self.get_proxy(strategy)`). -/
def gpTest (now : ℚ) (pm2 : ProxyMiddleware) (p : String) :
    Option ℚ → (Option String × ProxyMiddleware) ⊕ ProxyMiddleware
  | some _ =>
    .inl (some p, { pm2 with last_used := dictSet pm2.last_used p now })
  | none =>
    .inr (pmCountFail
      { pm2 with last_used := dictSet pm2.last_used p now } p now)

/-- After strategy dispatch: update `last_used` and hand out, testing
first when `always_test_before_use` is set or the proxy has been unused
for over 300 seconds. -/
def gpAfterSelect (now : ℚ) (probe : String → Option ℚ)
    (pm : ProxyMiddleware) :
    Option (String × ProxyMiddleware) →
      (Option String × ProxyMiddleware) ⊕ ProxyMiddleware
  | none => .inl (none, pm)
  | some (p, pm2) =>
    if pm2.always_test_before_use
       || (match dictGet pm2.last_used p with
           | some t => decide (300 < now - t)
           | none => false) then
      gpTest now pm2 p (probe p)
    else
      .inl (some p, { pm2 with last_used := dictSet pm2.last_used p now })

/-- One pass of `ProxyMiddleware.get_proxy` after the empty-active recovery
attempt: select a proxy, update `last_used`, and either hand the proxy out
(`Sum.inl`) or — when the pre-use test fails — run the failure-count/kill
step and ask for a retry (`Sum.inr`). -/
def gpSelectPhase (now : ℚ) (probe : String → Option ℚ)
    (pm : ProxyMiddleware) (strat : Strategy) :
    (Option String × ProxyMiddleware) ⊕ ProxyMiddleware :=
  if pm.active_proxies = [] then .inl (none, pm)
  else gpAfterSelect now probe pm (selectProxy pm strat)

/-- One full iteration of `ProxyMiddleware.get_proxy`: recover dead proxies
when the active list is empty, then run the selection phase. -/
def getProxyOnce (pm : ProxyMiddleware) (strat : Strategy) (now : ℚ)
    (probe : String → Option ℚ) :
    (Option String × ProxyMiddleware) ⊕ ProxyMiddleware :=
  if pm.active_proxies = [] then
    gpSelectPhase now probe (recoverDeadProxies pm now probe) strat
  else gpSelectPhase now probe pm strat

/-- `ProxyMiddleware.get_proxy`.  The source recursion (`return
self.get_proxy(strategy)` after a failed pre-use test) is driven by `fuel`;
every recursive call in the source strictly increases a failure count, so
the source recursion terminates and enough fuel makes the model agree. -/
def getProxy : ℕ → ProxyMiddleware → Strategy → ℚ →
    (String → Option ℚ) → Option String × ProxyMiddleware
  | 0, pm, _, _, _ => (none, pm)
  | fuel + 1, pm, strat, now, probe =>
    match getProxyOnce pm strat now probe with
    | .inl res => res
    | .inr pm' => getProxy fuel pm' strat now probe

/-- `ProxyMiddleware.add_proxy`; `probeResult` is the `_test_proxy` outcome. -/
def addProxy (pm : ProxyMiddleware) (proxy : String)
    (probeResult : Option ℚ) : Bool × ProxyMiddleware :=
  if pm.active_proxies.contains proxy
     || (dictKeys pm.dead_proxies).contains proxy then (false, pm)
  else
    match probeResult with
    | some rt =>
      (true,
       { pm with
         proxies := pm.proxies ++ [proxy]
         active_proxies := pm.active_proxies ++ [proxy]
         proxy_speeds := dictSet pm.proxy_speeds proxy rt })
    | none => (false, pm)

/-- `ProxyMiddleware.remove_proxy`. -/
def removeProxy (pm : ProxyMiddleware) (proxy : String) :
    Bool × ProxyMiddleware :=
  if pm.proxies.contains proxy then
    (true,
     { pm with
       proxies := pm.proxies.erase proxy
       active_proxies := pm.active_proxies.erase proxy
       dead_proxies := dictErase pm.dead_proxies proxy
       failure_counts := dictErase pm.failure_counts proxy
       proxy_speeds := dictErase pm.proxy_speeds proxy
       last_used := dictErase pm.last_used proxy })
  else (false, pm)

/-! ## Robots policy: `Crawler._is_allowed_by_robots`

`urllib.robotparser.RobotFileParser.can_fetch` returns `False` for every
URL while the parser has never been fed a robots.txt (`last_checked` is
still 0 and neither `allow_all` nor `disallow_all` is set); once
`parse(lines)` has run, the decision function of the parsed rule set
applies.  The rule set obtained from a 200 response is abstracted as an
oracle-provided decision function. -/

structure RobotsParserState where
  parsed : Bool
  rules : String → Bool

/-- `RobotFileParser.can_fetch`. -/
def canFetch (p : RobotsParserState) (url : String) : Bool :=
  if p.parsed then p.rules url else false

inductive RobotsFetchResult where
  | ok (rules : String → Bool)
  | badStatus (code : ℕ)
  | failed (msg : String)

structure RobotsCheckResult where
  allowed : Bool
  parsers : List (String × RobotsParserState)
  fetched : List String

/-- `Crawler._is_allowed_by_robots`: `fetched` records the domains for which
a `robots.txt` request was issued during this call.  On a 200 response the
parser is parsed and cached; on a non-200 response the *unparsed* parser is
cached; on a fetch exception the method returns `True` early and caches
nothing. -/
def isAllowedByRobots (respect : Bool) (fetch : String → RobotsFetchResult)
    (parsers : List (String × RobotsParserState)) (url : String) :
    RobotsCheckResult :=
  if ¬ respect then ⟨true, parsers, []⟩
  else
    let domain := get_domain url
    match dictGet parsers domain with
    | some p => ⟨canFetch p url, parsers, []⟩
    | none =>
      match fetch domain with
      | .ok rules =>
        let p : RobotsParserState := ⟨true, rules⟩
        ⟨canFetch p url, dictSet parsers domain p, [domain]⟩
      | .badStatus _ =>
        let p : RobotsParserState := ⟨false, fun _ => false⟩
        ⟨canFetch p url, dictSet parsers domain p, [domain]⟩
      | .failed _ => ⟨true, parsers, [domain]⟩

/-! ## `Crawler._make_request`

The per-attempt outcome of `requests.get` is an oracle indexed by the
attempt number (`retry` value).  The rate-limiter wait and proxy selection
that happen between the cache check and the request are modelled separately
(`waitForRateLimit`, `getProxy`) and do not influence the retry or caching
behaviour embedded here.  `sleeps` records the `time.sleep` calls made
between attempts, in order; `network_calls` counts `requests.get`
invocations. -/

inductive RequestOutcome where
  | ok (resp : PyResponse)
  | exn (err : String)

structure RequestResult where
  response : Option PyResponse
  error : Option String
  sleeps : List ℚ
  network_calls : ℕ
  cache : CacheManager
deriving Repr

/-- `Crawler._make_request(url, retry)`: check the cache, otherwise attempt
the request; on an exception, sleep `retry_delay * (retry + 1)` and recurse
with `retry + 1` while `retry < retry_count`. -/
def makeRequest (retry_count : ℕ) (retry_delay : ℚ) (cache_enabled : Bool)
    (attempt : ℕ → RequestOutcome) (url : String) (now : ℚ)
    (cm : CacheManager) (retry : ℕ) : RequestResult :=
  let cached := bif cache_enabled then getResponse cm url now else (none, cm)
  match cached with
  | (some resp, cm) =>
    { response := some resp, error := none, sleeps := [],
      network_calls := 0, cache := cm }
  | (none, cm) =>
    match attempt retry with
    | .ok resp =>
      let cm := if cache_enabled ∧ resp.status_code = 200 then
          cacheResponse cm url resp now
        else cm
      { response := some resp, error := none, sleeps := [],
        network_calls := 1, cache := cm }
    | .exn err =>
      if retry < retry_count then
        let rest := makeRequest retry_count retry_delay cache_enabled attempt
          url now cm (retry + 1)
        { rest with
          sleeps := retry_delay * (retry + 1) :: rest.sleeps
          network_calls := rest.network_calls + 1 }
      else
        { response := none, error := some err, sleeps := [],
          network_calls := 1, cache := cm }
  termination_by retry_count - retry
  decreasing_by omega

/-! ## Crawl coordination: `Crawler._is_valid_url`, `_process_url`,
`_worker` and the sequential path of `Crawler.crawl`

The Fetcher/Parser collaborators (§6 of the design) are abstracted by
`page : String → PageOutcome`: `ok links` stands for a successful fetch and
parse whose extracted (already absolutised and normalised) links are
`links`; `err msg` for any fetch or parse failure (`_process_page_*`
returning an error).  Compiled regex patterns are abstracted as predicates.
The model covers the sequential execution path of `crawl()` (lines
623-631, taken when `max_workers == 1` or in Playwright mode); the
`ThreadPoolExecutor` path interleaves the same `_worker` body. -/

inductive PageOutcome where
  | ok (links : List String)
  | err (msg : String)

structure CrawlConfig where
  max_depth : ℕ
  max_pages : ℕ
  respect_robots_txt : Bool
  allowed_domains : Option (List String)
  url_patterns : Option (List (String → Bool))
  exclude_patterns : Option (List (String → Bool))
  robots_fetch : String → RobotsFetchResult
  page : String → PageOutcome

structure CrawlResult where
  url : String
  depth : ℕ
  status : String
  links : List String
deriving DecidableEq, Repr

structure CrawlState where
  visited : List String
  robots_parsers : List (String × RobotsParserState)
  queue : List (String × ℕ)
  results : List CrawlResult
  pages_crawled : ℕ

/-- `Crawler._is_valid_url`: scheme prefix, exclude patterns, required
patterns, allowed domains, visited set, robots — in source order.  The
robots check may fetch and cache a robots.txt parser, so the state is
threaded. -/
def isValidUrl (cfg : CrawlConfig) (st : CrawlState) (url : String) :
    Bool × CrawlState :=
  if ¬ (pyStartsWith url "http://" || pyStartsWith url "https://") then
    (false, st)
  else if (match cfg.exclude_patterns with
           | some ps => ps.any (fun f => f url)
           | none => false) then (false, st)
  else if (match cfg.url_patterns with
           | some ps => ! ps.any (fun f => f url)
           | none => false) then (false, st)
  else if (match cfg.allowed_domains with
           | some ds => ! ds.contains (get_domain url)
           | none => false) then (false, st)
  else if st.visited.contains url then (false, st)
  else
    let r := isAllowedByRobots cfg.respect_robots_txt cfg.robots_fetch
      st.robots_parsers url
    (r.allowed, { st with robots_parsers := r.parsers })

/-- `self.visited_urls.add(url)`: a Python set add, on the list model. -/
def markVisited (v : List String) (url : String) : List String :=
  if v.contains url then v else v ++ [url]

/-- The per-link admission step inside `_process_url` (lines 526-529):
check `_is_valid_url` and enqueue the link at `depth + 1` if it passes. -/
def admitLink (cfg : CrawlConfig) (depth : ℕ) (s : CrawlState)
    (link : String) : CrawlState :=
  if (isValidUrl cfg s link).1 then
    { (isValidUrl cfg s link).2 with
      queue := (isValidUrl cfg s link).2.queue ++ [(link, depth + 1)] }
  else (isValidUrl cfg s link).2

/-- The tail of the `_process_url` success path: increment the page counter
and append the success result (the append itself is done by `_worker`). -/
def appendSuccess (st : CrawlState) (url : String) (depth : ℕ)
    (links : List String) : CrawlState :=
  { st with
    results := st.results ++ [⟨url, depth, "success", links⟩]
    pages_crawled := st.pages_crawled + 1 }

/-- The `_process_url` success path: admit children when
`depth < max_depth`, then count and record the page. -/
def processUrlSuccess (cfg : CrawlConfig) (st : CrawlState) (url : String)
    (depth : ℕ) (links : List String) : CrawlState :=
  if depth < cfg.max_depth then
    appendSuccess (links.foldl (admitLink cfg depth) st) url depth links
  else appendSuccess st url depth links

/-- `Crawler._process_url` followed by the result append the caller
(`_worker`) performs: mark the URL visited, run the collaborator pipeline,
on failure append an error result (the page counter is *not* incremented),
on success enqueue the admissible children at `depth + 1` when
`depth < max_depth`, increment the page counter and append a success
result. -/
def processUrl (cfg : CrawlConfig) (st : CrawlState) (url : String)
    (depth : ℕ) : CrawlState :=
  match cfg.page url with
  | .err _ =>
    { st with
      visited := markVisited st.visited url
      results := st.results ++ [⟨url, depth, "error", []⟩] }
  | .ok links =>
    processUrlSuccess cfg { st with visited := markVisited st.visited url }
      url depth links

/-- `Crawler._worker` on a batch: stop at the page budget, skip visited
URLs, process the rest. -/
def runWorker (cfg : CrawlConfig) : CrawlState → List (String × ℕ) →
    CrawlState
  | st, [] => st
  | st, (url, depth) :: rest =>
    if cfg.max_pages ≤ st.pages_crawled then st
    else if st.visited.contains url then runWorker cfg st rest
    else runWorker cfg (processUrl cfg st url depth) rest

/-- The drain loop of the sequential path of `Crawler.crawl` (lines
628-631): while the queue is nonempty and the budget is not reached,
dequeue and hand unvisited URLs to `_worker`.  `fuel` bounds the number of
iterations (the source loop can run unboundedly long on an unbounded link
graph). -/
def crawlLoop (cfg : CrawlConfig) : ℕ → CrawlState → CrawlState
  | 0, st => st
  | fuel + 1, st =>
    match st.queue with
    | [] => st
    | (url, depth) :: rest =>
      if st.pages_crawled < cfg.max_pages then
        if st.visited.contains url then
          crawlLoop cfg fuel { st with queue := rest }
        else
          crawlLoop cfg fuel
            (runWorker cfg { st with queue := rest } [(url, depth)])
      else st

/-- The sequential path of `Crawler.crawl`: normalise the seeds
(`__init__`), reset the state, enqueue the seeds, run `_worker` over them,
then drain the queue. -/
def crawlSeq (cfg : CrawlConfig) (start_urls : List String) (fuel : ℕ) :
    CrawlState :=
  crawlLoop cfg fuel
    (runWorker cfg
      { visited := [], robots_parsers := [],
        queue := (start_urls.map normalize_url).map (·, 0), results := [],
        pages_crawled := 0 }
      ((start_urls.map normalize_url).map (·, 0)))

/-! ## Auxiliary definitions used by the theorems below -/

/-- The delay formula as the specification words it: the per-domain override
if one exists else the base delay, raised to at least any active temporary
delay, multiplied by `retryFactor ^ min(consecutiveFailures, 4)` when there
are consecutive failures, capped at `maxDelay` and floored at `minDelay`. -/
def specEffectiveDelay (rl : RateLimiter) (domain : String) : ℚ :=
  let base := (rl.per_domain_rules domain).getD rl.base_delay
  let raised := match rl.temporary_delays domain with
    | some t => max base t
    | none => base
  let failures := rl.consecutive_failures domain
  let scaled :=
    if 0 < failures then raised * rl.retry_delay_factor ^ (min failures 4)
    else raised
  max rl.min_delay (min scaled rl.max_delay)

/-- The disjointness invariant of the proxy pool: the active list is
duplicate-free, the dead dict has pairwise-distinct keys, and no proxy is
simultaneously active and dead. -/
def pmInv (pm : ProxyMiddleware) : Prop :=
  pm.active_proxies.Nodup ∧
  (dictKeys pm.dead_proxies).Nodup ∧
  ∀ p ∈ pm.active_proxies, p ∉ dictKeys pm.dead_proxies

/-- No proxy is simultaneously in the active list and the dead dict. -/
def pmDisjoint (pm : ProxyMiddleware) : Prop :=
  ∀ p ∈ pm.active_proxies, p ∉ dictKeys pm.dead_proxies

/-- A robots.txt fetch oracle in which every fetch raises an exception. -/
def robotsExn : String → RobotsFetchResult := fun _ => .failed "timeout"

/-- A crawl configuration whose Fetcher collaborator fails on every URL. -/
def errorPageCfg : CrawlConfig :=
  { max_depth := 0, max_pages := 1, respect_robots_txt := false,
    allowed_domains := none, url_patterns := none, exclude_patterns := none,
    robots_fetch := robotsExn, page := fun _ => .err "Connection Error" }

/-- A crawl configuration in which the seed page links to one child. -/
def oneLinkCfg : CrawlConfig :=
  { max_depth := 1, max_pages := 100, respect_robots_txt := false,
    allowed_domains := none, url_patterns := none, exclude_patterns := none,
    robots_fetch := robotsExn,
    page := fun u =>
      if u = "http://a.test/" then .ok ["http://a.test/x"] else .ok [] }

/-- A crawl configuration in which the first seed fails and every other
page succeeds with no links. -/
def mixedPageCfg : CrawlConfig :=
  { max_depth := 0, max_pages := 100, respect_robots_txt := false,
    allowed_domains := none, url_patterns := none, exclude_patterns := none,
    robots_fetch := robotsExn,
    page := fun u =>
      if u = "http://err.test/" then .err "Timeout Error" else .ok [] }

/-- A concrete rate limiter with one recorded request, for witnesses. -/
def rlW : RateLimiter :=
  { RateLimiter.mk0 1 (1/2) 60 (1/2) 2 (fun _ => none) true with
    last_request_time := fun d => if d = "a.test" then some 0 else none
    consecutive_failures := fun d => if d = "a.test" then 2 else 0 }

/-- A concrete proxy pool with one active and one dead proxy, for
witnesses. -/
def pmW : ProxyMiddleware :=
  { max_failures := 3, retry_delay := 60, always_test_before_use := false,
    proxies := ["http://p1:8080", "http://p2:8080"],
    active_proxies := ["http://p1:8080"],
    dead_proxies := [("http://p2:8080", 0)],
    failure_counts := [("http://p1:8080", 2)],
    last_used := [], proxy_speeds := [], current_index := 0 }

/-- A pool with no active proxies and one cooled-down dead proxy, for
witnesses. -/
def pmW2 : ProxyMiddleware :=
  { max_failures := 3, retry_delay := 60, always_test_before_use := false,
    proxies := ["http://p2:8080"], active_proxies := [],
    dead_proxies := [("http://p2:8080", 0)], failure_counts := [],
    last_used := [], proxy_speeds := [], current_index := 0 }

/-- The crawl state `Crawler.crawl` resets to before seeding (lines
584-587). -/
def emptyCrawlState : CrawlState :=
  { visited := [], robots_parsers := [], queue := [], results := [],
    pages_crawled := 0 }

/-- The inductive invariant behind the page budget and result-uniqueness
property of the sequential crawl: the page counter counts exactly the
success results and stays within the budget, result URLs are pairwise
distinct, and every result URL has been marked visited. -/
def crawlInv (cfg : CrawlConfig) (st : CrawlState) : Prop :=
  st.pages_crawled = st.results.countP (fun r => r.status == "success") ∧
  (st.results.map (fun r => r.url)).Nodup ∧
  (∀ r ∈ st.results, r.url ∈ st.visited) ∧
  st.pages_crawled ≤ cfg.max_pages

/-- A concrete cacheable response, for witnesses. -/
def respW : PyResponse :=
  { status_code := 200, cache_control := "", is_html := true, body := 7 }

/-- A cache holding one stale entry (timestamp 0), for witnesses. -/
def cmOld : CacheManager :=
  { enabled := true, expiry := 3600, max_size := 1000,
    memory_cache := [("http://a.test/", ⟨"http://a.test/", 0, respW⟩)],
    disk_cache := [("http://a.test/", ⟨"http://a.test/", 0, respW⟩)] }

/-! # Theorems

Each claim of the specification audit is settled by one named theorem
below; general list/dict lemmas come first. -/

theorem dictGet_dictSet_self {κ α : Type} [DecidableEq κ]
    (d : List (κ × α)) (k : κ) (v : α) :
    dictGet (dictSet d k v) k = some v := by
  induction d with
  | nil => simp [dictSet, dictGet]
  | cons p t ih => by_cases h : p.1 = k <;> simp [dictSet, dictGet, h, ih]

theorem dictGet_eq_none_of_forall {κ α : Type} [DecidableEq κ]
    {d : List (κ × α)} {k : κ} (h : ∀ p ∈ d, ¬ p.1 = k) :
    dictGet d k = none := by
  induction d with
  | nil => rfl
  | cons p t ih =>
    have hp := h p (by simp)
    simp only [dictGet, if_neg hp]
    exact ih (fun q hq => h q (by simp [hq]))

theorem dictGet_dictErase_self {κ α : Type} [DecidableEq κ]
    (d : List (κ × α)) (k : κ) : dictGet (dictErase d k) k = none := by
  apply dictGet_eq_none_of_forall
  intro p hp
  have := List.of_mem_filter hp
  simpa using this

theorem mem_of_dictGet {κ α : Type} [DecidableEq κ]
    {d : List (κ × α)} {k : κ} {v : α} (h : dictGet d k = some v) :
    (k, v) ∈ d := by
  induction d with
  | nil => simp [dictGet] at h
  | cons p t ih =>
    by_cases hp : p.1 = k
    · simp only [dictGet, if_pos hp] at h
      cases h
      subst hp
      simp
    · simp only [dictGet, if_neg hp] at h
      exact List.mem_cons_of_mem _ (ih h)

theorem dictGet_of_mem_nodup {κ α : Type} [DecidableEq κ]
    {d : List (κ × α)} {k : κ} {v : α}
    (hn : (dictKeys d).Nodup) (hm : (k, v) ∈ d) : dictGet d k = some v := by
  induction d with
  | nil => simp at hm
  | cons p t ih =>
    rcases List.mem_cons.mp hm with h | h
    · subst h
      simp [dictGet]
    · have hp : ¬ p.1 = k := by
        intro hk
        have : k ∈ dictKeys t := by
          simpa [dictKeys] using List.mem_map_of_mem Prod.fst h
        rw [dictKeys] at hn
        simp only [List.map_cons] at hn
        exact (List.nodup_cons.mp hn).1 (hk ▸ this)
      simp only [dictGet, if_neg hp]
      exact ih (by
        rw [dictKeys] at hn ⊢
        simp only [List.map_cons] at hn
        exact (List.nodup_cons.mp hn).2) h

theorem dictKeys_dictSet {κ α : Type} [DecidableEq κ]
    (d : List (κ × α)) (k : κ) (v : α) :
    dictKeys (dictSet d k v) =
      if k ∈ dictKeys d then dictKeys d else dictKeys d ++ [k] := by
  induction d with
  | nil => simp [dictSet, dictKeys]
  | cons p t ih =>
    by_cases hp : p.1 = k
    · subst hp
      simp [dictSet, dictKeys]
    · have hk : ¬ k = p.1 := fun h => hp h.symm
      rw [dictSet, if_neg hp, dictKeys, List.map_cons]
      rw [show dictKeys (p :: t) = p.1 :: dictKeys t from rfl]
      rw [dictKeys] at ih
      rw [ih]
      by_cases hm : k ∈ dictKeys t
      · rw [if_pos hm, if_pos (List.mem_cons.mpr (Or.inr hm))]
      · rw [if_neg hm, if_neg (fun hc => (List.mem_cons.mp hc).elim hk hm),
          List.cons_append]

theorem dictKeys_nodup_dictSet {κ α : Type} [DecidableEq κ]
    {d : List (κ × α)} (k : κ) (v : α) (hn : (dictKeys d).Nodup) :
    (dictKeys (dictSet d k v)).Nodup := by
  rw [dictKeys_dictSet]
  by_cases hm : k ∈ dictKeys d
  · simpa [hm] using hn
  · simp only [hm, if_false]
    exact List.Nodup.append hn (List.nodup_singleton k)
      (fun a ha hak => hm ((List.mem_singleton.mp hak) ▸ ha))

/-- C4: for every domain, the effective delay computed by
`RateLimiter._get_delay_for_domain` equals the per-domain override if one
exists else the base delay, raised to at least any active temporary delay,
multiplied by `retryFactor ^ min(consecutiveFailures, 4)` when there are
consecutive failures, capped at `maxDelay` and floored at `minDelay`
(`specEffectiveDelay`); and `wait_for_rate_limit` then waits out that delay
multiplied by `1 + jitter` for a jitter factor drawn from
`[0, randomRange]`. -/
theorem C4_rate_limiter_delay_formula (rl : RateLimiter) (domain : String)
    (now jitter firstFactor last : ℚ)
    (had : rl.adaptive_rate_limiting = true)
    (hj0 : 0 ≤ jitter) (hj1 : jitter ≤ rl.random_delay_range)
    (hlast : rl.last_request_time domain = some last) :
    getDelayForDomain rl domain = specEffectiveDelay rl domain ∧
    (waitForRateLimit rl domain now jitter firstFactor).1 =
      max 0 (getDelayForDomain rl domain * (1 + jitter) - (now - last)) := by
  constructor
  · unfold getDelayForDomain specEffectiveDelay
    rw [had]
    cases hpd : rl.per_domain_rules domain <;>
      cases htd : rl.temporary_delays domain <;>
      by_cases hf : 0 < rl.consecutive_failures domain <;>
      simp [hf, min_assoc, min_self, Option.getD]
  · unfold waitForRateLimit
    rw [hlast]
    by_cases hr : 0 < rl.random_delay_range
    · simp [hr]
    · have hj : jitter = 0 := le_antisymm (le_trans hj1 (not_lt.mp hr)) hj0
      simp [hr, hj]

/-- Witness for C4 at a concrete rate limiter. -/
theorem C4_witness :
    getDelayForDomain rlW "a.test" = specEffectiveDelay rlW "a.test" ∧
    (waitForRateLimit rlW "a.test" 5 (1/4) (1/4)).1 =
      max 0 (getDelayForDomain rlW "a.test" * (1 + 1/4) - (5 - 0)) :=
  C4_rate_limiter_delay_formula rlW "a.test" 5 (1/4) (1/4) 0 rfl
    (by norm_num) (by norm_num [rlW, RateLimiter.mk0]) rfl

/-- C3: the claim says a failed or non-200 robots.txt fetch yields an
*allow* decision that is *cached* so no second fetch happens.  The code
disagrees twice: a non-200 status caches an unparsed `RobotFileParser`,
whose `can_fetch` denies every URL; and a fetch exception returns allow
*without caching anything*, so the next query for the same domain fetches
robots.txt again. -/
theorem C3_robots_failure_behaviour :
    (isAllowedByRobots true (fun _ => .badStatus 404) [] "http://h/page").allowed
      = false ∧
    (isAllowedByRobots true robotsExn [] "http://h/page").allowed = true ∧
    (isAllowedByRobots true robotsExn [] "http://h/page").parsers = [] ∧
    (isAllowedByRobots true robotsExn
        (isAllowedByRobots true robotsExn [] "http://h/page").parsers
        "http://h/page").fetched = ["h"] :=
  ⟨rfl, rfl, rfl, rfl⟩

theorem manageCacheSize_enabled (cm : CacheManager) :
    (manageCacheSize cm).enabled = cm.enabled := by
  unfold manageCacheSize
  split <;> rfl

theorem manageCacheSize_expiry (cm : CacheManager) :
    (manageCacheSize cm).expiry = cm.expiry := by
  unfold manageCacheSize
  split <;> rfl

theorem manageCacheSize_disk (cm : CacheManager) :
    (manageCacheSize cm).disk_cache = cm.disk_cache := by
  unfold manageCacheSize
  split <;> rfl

theorem manageCacheSize_mem_memory {cm : CacheManager}
    {p : String × CacheEntry} (h : p ∈ (manageCacheSize cm).memory_cache) :
    p ∈ cm.memory_cache := by
  unfold manageCacheSize at h
  split at h
  · exact h
  · exact List.mem_of_mem_filter h

/-- C7: a response cached at time `t` and re-queried at any `now` within
the TTL window is served from the cache and the network fetcher is not
invoked (`network_calls = 0`); and when every cache entry for a URL is
older than the expiry, the next `get_response` returns `None` and the
expired entries are removed from both the memory and the disk cache. -/
theorem C7_cache_ttl_behaviour
    (cm : CacheManager) (url : String) (resp : PyResponse)
    (t now : ℚ) (retry_count : ℕ) (retry_delay : ℚ)
    (attempt : ℕ → RequestOutcome) :
    (cm.enabled = true → resp.status_code = 200 →
     ¬ (pyContains "no-store" ⟨pyLower resp.cache_control.data⟩
        ∨ pyContains "no-cache" ⟨pyLower resp.cache_control.data⟩) →
     (dictKeys cm.memory_cache).Nodup →
     now - t ≤ cm.expiry →
     (getResponse (cacheResponse cm url resp t) url now).1 = some resp ∧
     (makeRequest retry_count retry_delay true attempt url now
        (cacheResponse cm url resp t) 0).response = some resp ∧
     (makeRequest retry_count retry_delay true attempt url now
        (cacheResponse cm url resp t) 0).network_calls = 0) ∧
    (cm.enabled = true →
     (∀ e, dictGet cm.memory_cache (getCacheKey url) = some e →
        cm.expiry < now - e.timestamp) →
     (∀ e, dictGet cm.disk_cache (getCacheKey url) = some e →
        cm.expiry < now - e.timestamp) →
     (getResponse cm url now).1 = none ∧
     dictGet (getResponse cm url now).2.memory_cache (getCacheKey url) = none ∧
     dictGet (getResponse cm url now).2.disk_cache (getCacheKey url) = none)
    := by
  constructor
  · intro hen h200 hcc hnd hfresh
    have c1 : ¬ ¬ cm.enabled = true := by simp [hen]
    have c2 : ¬ ¬ resp.status_code = 200 := by simp [h200]
    set e0 : CacheEntry := ⟨url, t, resp⟩ with he0
    set mid := manageCacheSize
      { cm with memory_cache := dictSet cm.memory_cache (getCacheKey url) e0 }
      with hmid
    have hc1 : cacheResponse cm url resp t =
        { mid with disk_cache := dictSet mid.disk_cache (getCacheKey url) e0 } := by
      unfold cacheResponse
      rw [if_neg c1, if_neg c2, if_neg hcc]
    set cm1 := cacheResponse cm url resp t with hcm1
    have hen1 : cm1.enabled = true := by
      rw [hc1]
      show mid.enabled = true
      rw [hmid, manageCacheSize_enabled]
      exact hen
    have hex1 : cm1.expiry = cm.expiry := by
      rw [hc1]
      show mid.expiry = cm.expiry
      rw [hmid, manageCacheSize_expiry]
    have hdisk1 : dictGet cm1.disk_cache (getCacheKey url) = some e0 := by
      rw [hc1]
      exact dictGet_dictSet_self _ _ _
    have hmemeq : cm1.memory_cache = mid.memory_cache := by rw [hc1]
    have hmem1 : ∀ e, dictGet cm1.memory_cache (getCacheKey url) = some e →
        e = e0 := by
      intro e he
      rw [hmemeq] at he
      have hmem : ((getCacheKey url), e) ∈ mid.memory_cache :=
        mem_of_dictGet he
      have hmem' : ((getCacheKey url), e) ∈
          dictSet cm.memory_cache (getCacheKey url) e0 := by
        rw [hmid] at hmem
        exact manageCacheSize_mem_memory hmem
      have := dictGet_of_mem_nodup
        (dictKeys_nodup_dictSet (getCacheKey url) e0 hnd) hmem'
      rw [dictGet_dictSet_self] at this
      exact (Option.some_injective _ this).symm
    have hval : (getResponse cm1 url now).1 = some resp := by
      unfold getResponse
      rw [if_neg (by simp [hen1])]
      cases hg : dictGet cm1.memory_cache (getCacheKey url) with
      | some e =>
        have he : e = e0 := hmem1 e hg
        subst he
        dsimp only
        rw [hg]
        dsimp only
        rw [if_pos (by rw [hex1]; exact hfresh)]
      | none =>
        dsimp only
        rw [hg]
        dsimp only
        unfold diskLookup
        rw [hdisk1]
        dsimp only
        rw [if_pos (by rw [hex1]; exact hfresh)]
    refine ⟨hval, ?_, ?_⟩ <;>
    · rcases hg : getResponse cm1 url now with ⟨r, cmz⟩
      rw [hg] at hval
      simp only at hval
      subst hval
      rw [makeRequest]
      simp [hg]
  · intro hen hm hd
    unfold getResponse
    rw [if_neg (by simp [hen])]
    cases hg : dictGet cm.memory_cache (getCacheKey url) with
    | some e =>
      dsimp only
      rw [hg]
      dsimp only
      rw [if_neg (fun hle => absurd (hm e hg) (not_lt.mpr hle))]
      unfold diskLookup
      cases hgd : dictGet cm.disk_cache (getCacheKey url) with
      | some e2 =>
        dsimp only
        rw [if_neg (fun hle => absurd (hd e2 hgd) (not_lt.mpr hle))]
        exact ⟨rfl, dictGet_dictErase_self _ _, dictGet_dictErase_self _ _⟩
      | none =>
        exact ⟨rfl, dictGet_dictErase_self _ _, hgd⟩
    | none =>
      dsimp only
      rw [hg]
      dsimp only
      unfold diskLookup
      cases hgd : dictGet cm.disk_cache (getCacheKey url) with
      | some e2 =>
        dsimp only
        rw [if_neg (fun hle => absurd (hd e2 hgd) (not_lt.mpr hle))]
        exact ⟨rfl, hg, dictGet_dictErase_self _ _⟩
      | none =>
        exact ⟨rfl, hg, hgd⟩

/-- Witness for C7 at a fresh cache (part one) and a stale cache (part
two). -/
theorem C7_witness :
    (getResponse (cacheResponse (emptyCache 3600) "http://a.test/" respW 0)
        "http://a.test/" 100).1 = some respW ∧
    (getResponse cmOld "http://a.test/" 99999).1 = none := by
  have h1 := (C7_cache_ttl_behaviour (emptyCache 3600) "http://a.test/" respW
    0 100 3 2 (fun _ => .exn "e")).1 rfl rfl (by decide) (by decide)
    (by norm_num [emptyCache])
  have h2 := (C7_cache_ttl_behaviour cmOld "http://a.test/" respW
    0 99999 3 2 (fun _ => .exn "e")).2 rfl
    (by
      intro e he
      have : e = (⟨"http://a.test/", 0, respW⟩ : CacheEntry) := by
        have : dictGet cmOld.memory_cache (getCacheKey "http://a.test/") =
            some (⟨"http://a.test/", 0, respW⟩ : CacheEntry) := rfl
        rw [this] at he
        exact (Option.some_injective _ he).symm
      rw [this]
      norm_num [cmOld])
    (by
      intro e he
      have : e = (⟨"http://a.test/", 0, respW⟩ : CacheEntry) := by
        have : dictGet cmOld.disk_cache (getCacheKey "http://a.test/") =
            some (⟨"http://a.test/", 0, respW⟩ : CacheEntry) := rfl
        rw [this] at he
        exact (Option.some_injective _ he).symm
      rw [this]
      norm_num [cmOld])
  exact ⟨h1.1, h2.1⟩

/-- With the cache disabled and every attempt failing, `_make_request`
makes `retry_count - retry + 1` attempts from retry level `retry`, sleeps
`retry_delay * i` before attempt `i`, and returns the last error. -/
theorem makeRequest_exhaust (retry_count : ℕ) (retry_delay : ℚ)
    (attempt : ℕ → RequestOutcome) (err : ℕ → String) (url : String)
    (now : ℚ) (cm : CacheManager)
    (hfail : ∀ i, attempt i = .exn (err i)) :
    ∀ retry, retry ≤ retry_count →
      makeRequest retry_count retry_delay false attempt url now cm retry =
        { response := none, error := some (err retry_count),
          sleeps := (List.range' (retry + 1) (retry_count - retry)).map
            (fun i : ℕ => retry_delay * (i : ℚ)),
          network_calls := retry_count - retry + 1, cache := cm } := by
  suffices H : ∀ n retry, retry_count - retry = n → retry ≤ retry_count →
      makeRequest retry_count retry_delay false attempt url now cm retry =
        { response := none, error := some (err retry_count),
          sleeps := (List.range' (retry + 1) (retry_count - retry)).map
            (fun i : ℕ => retry_delay * (i : ℚ)),
          network_calls := retry_count - retry + 1, cache := cm } by
    exact fun retry h => H _ retry rfl h
  intro n
  induction n with
  | zero =>
    intro retry hn hle
    have heq : retry = retry_count := by omega
    subst heq
    rw [makeRequest]
    rw [hfail retry]
    simp
  | succ n ih =>
    intro retry hn hle
    have hlt : retry < retry_count := by omega
    rw [makeRequest]
    rw [hfail retry]
    simp only [cond_false]
    rw [if_pos hlt]
    rw [ih (retry + 1) (by omega) (by omega)]
    have hr : retry_count - retry = (retry_count - (retry + 1)) + 1 := by omega
    rw [hr, List.range'_succ, List.map_cons]
    simp only [Nat.cast_add, Nat.cast_one]

/-- C6-counterexample: the backoff delays of `_make_request` are
`retry_delay * 1, * 2, * 3, …` — linearly, not exponentially, increasing:
with `retry_delay = 1` and three retries the sleeps are `[1, 2, 3]`, and no
constant factor `f` satisfies both `2 = f * 1` and `3 = f * 2`. -/
theorem C6_counterexample_not_exponential :
    (makeRequest 3 1 false (fun _ => .exn "Connection Error")
      "http://a.test/" 0 (emptyCache 3600) 0).sleeps = [1, 2, 3] ∧
    ¬ ∃ f : ℚ, 2 = f * 1 ∧ 3 = f * 2 := by
  constructor
  · exact (makeRequest_exhaust 3 1 _ (fun _ => "Connection Error")
      "http://a.test/" 0 (emptyCache 3600) (fun _ => rfl) 0 (by omega)).symm ▸
      (by norm_num [List.range'])
  · rintro ⟨f, h1, h2⟩
    rw [mul_one] at h1
    subst h1
    norm_num at h2

/-- C6 (amended): a fetch whose every attempt raises an error is retried
`retryCount` times with *linearly* increasing backoff
(`retry_delay * attempt`), after which `_make_request` reports the error;
`_process_url` then records a result with status `error` (without counting
it against the page budget), and the crawl goes on: after a failing seed,
the next seed is still processed. -/
theorem C6_retry_and_error_result (retry_count : ℕ) (retry_delay : ℚ)
    (attempt : ℕ → RequestOutcome) (err : ℕ → String) (url : String)
    (now : ℚ) (cm : CacheManager)
    (cfg : CrawlConfig) (st : CrawlState) (u : String) (depth : ℕ)
    (msg : String)
    (hfail : ∀ i, attempt i = .exn (err i))
    (hpage : cfg.page u = .err msg) :
    makeRequest retry_count retry_delay false attempt url now cm 0 =
      { response := none, error := some (err retry_count),
        sleeps := (List.range' 1 retry_count).map
          (fun i : ℕ => retry_delay * (i : ℚ)),
        network_calls := retry_count + 1, cache := cm } ∧
    (processUrl cfg st u depth).results =
      st.results ++ [⟨u, depth, "error", []⟩] ∧
    (processUrl cfg st u depth).pages_crawled = st.pages_crawled ∧
    (crawlSeq mixedPageCfg ["http://err.test/", "http://ok.test/"]
        10).results.map (fun r => (r.url, r.status)) =
      [("http://err.test/", "error"), ("http://ok.test/", "success")] := by
  refine ⟨?_, ?_, ?_, ?_⟩
  · have := makeRequest_exhaust retry_count retry_delay attempt err url now cm
      hfail 0 (Nat.zero_le _)
    simpa using this
  · unfold processUrl
    rw [hpage]
  · unfold processUrl
    rw [hpage]
  · rfl

/-- Witness for C6 (amended) at concrete inputs. -/
theorem C6_witness :
    makeRequest 2 3 false (fun _ => .exn "Timeout Error") "http://a.test/" 0
        (emptyCache 3600) 0 =
      { response := none, error := some "Timeout Error",
        sleeps := (List.range' 1 2).map (fun i : ℕ => 3 * (i : ℚ)),
        network_calls := 3, cache := emptyCache 3600 } ∧
    (processUrl mixedPageCfg
        { visited := [], robots_parsers := [], queue := [], results := [],
          pages_crawled := 0 } "http://err.test/" 0).results =
      [] ++ [⟨"http://err.test/", 0, "error", []⟩] ∧
    (processUrl mixedPageCfg
        { visited := [], robots_parsers := [], queue := [], results := [],
          pages_crawled := 0 } "http://err.test/" 0).pages_crawled = 0 ∧
    (crawlSeq mixedPageCfg ["http://err.test/", "http://ok.test/"]
        10).results.map (fun r => (r.url, r.status)) =
      [("http://err.test/", "error"), ("http://ok.test/", "success")] :=
  C6_retry_and_error_result 2 3 (fun _ => .exn "Timeout Error")
    (fun _ => "Timeout Error") "http://a.test/" 0 (emptyCache 3600)
    mixedPageCfg
    { visited := [], robots_parsers := [], queue := [], results := [],
      pages_crawled := 0 } "http://err.test/" 0 "Timeout Error"
    (fun _ => rfl) rfl

theorem isValidUrl_state (cfg : CrawlConfig) (st : CrawlState) (u : String) :
    (isValidUrl cfg st u).2.visited = st.visited ∧
    (isValidUrl cfg st u).2.queue = st.queue ∧
    (isValidUrl cfg st u).2.results = st.results ∧
    (isValidUrl cfg st u).2.pages_crawled = st.pages_crawled := by
  unfold isValidUrl
  split_ifs <;> exact ⟨rfl, rfl, rfl, rfl⟩

theorem isValidUrl_true_not_visited {cfg : CrawlConfig} {st : CrawlState}
    {u : String} (h : (isValidUrl cfg st u).1 = true) :
    st.visited.contains u = false := by
  by_contra hc
  have hc' : st.visited.contains u = true := by
    cases hcv : st.visited.contains u
    · exact absurd hcv hc
    · rfl
  unfold isValidUrl at h
  split_ifs at h

theorem contains_false_not_mem {α : Type} [BEq α] [LawfulBEq α] {l : List α}
    {a : α} (h : l.contains a = false) : a ∉ l := by
  intro hm
  have ht : l.contains a = true := List.elem_eq_true_of_mem hm
  rw [ht] at h
  cases h

theorem appendSuccess_fields (st : CrawlState) (url : String) (depth : ℕ)
    (links : List String) :
    (appendSuccess st url depth links).visited = st.visited ∧
    (appendSuccess st url depth links).queue = st.queue ∧
    (appendSuccess st url depth links).results =
      st.results ++ [⟨url, depth, "success", links⟩] ∧
    (appendSuccess st url depth links).pages_crawled =
      st.pages_crawled + 1 :=
  ⟨rfl, rfl, rfl, rfl⟩

theorem admitLink_state (cfg : CrawlConfig) (depth : ℕ) (s : CrawlState)
    (link : String) :
    ((admitLink cfg depth s link).visited = s.visited ∧
     (admitLink cfg depth s link).results = s.results ∧
     (admitLink cfg depth s link).pages_crawled = s.pages_crawled) ∧
    ((admitLink cfg depth s link).queue = s.queue ∨
     ((admitLink cfg depth s link).queue = s.queue ++ [(link, depth + 1)] ∧
      s.visited.contains link = false)) := by
  obtain ⟨hv, hq, hr, hp⟩ := isValidUrl_state cfg s link
  unfold admitLink
  rcases hres : isValidUrl cfg s link with ⟨b, s2⟩
  rw [hres] at hv hq hr hp
  dsimp only at hv hq hr hp ⊢
  cases b with
  | false =>
    rw [if_neg Bool.false_ne_true]
    exact ⟨⟨hv, hr, hp⟩, Or.inl hq⟩
  | true =>
    rw [if_pos rfl]
    exact ⟨⟨hv, hr, hp⟩,
      Or.inr ⟨by rw [hq], isValidUrl_true_not_visited (by rw [hres])⟩⟩

/-- The child-admission fold of `_process_url`, characterised: it changes
only the queue and the robots cache, and every queue entry is either an old
one or carries a URL that had not been visited. -/
theorem linksFold_state (cfg : CrawlConfig) (depth : ℕ) :
    ∀ (links : List String) (st : CrawlState),
      (links.foldl (admitLink cfg depth) st).visited = st.visited ∧
      (links.foldl (admitLink cfg depth) st).results = st.results ∧
      (links.foldl (admitLink cfg depth) st).pages_crawled =
        st.pages_crawled ∧
      ∀ q ∈ (links.foldl (admitLink cfg depth) st).queue,
        q ∈ st.queue ∨ st.visited.contains q.1 = false := by
  intro links
  induction links with
  | nil => exact fun st => ⟨rfl, rfl, rfl, fun q hq => Or.inl hq⟩
  | cons link rest ih =>
    intro st
    rw [List.foldl_cons]
    obtain ⟨⟨hv, hr, hp⟩, hq⟩ := admitLink_state cfg depth st link
    obtain ⟨ihv, ihr, ihp, ihq⟩ := ih (admitLink cfg depth st link)
    refine ⟨by rw [ihv, hv], by rw [ihr, hr], by rw [ihp, hp], ?_⟩
    intro q hqm
    rcases ihq q hqm with hin | hnv
    · rcases hq with hsame | ⟨happ, hnew⟩
      · exact Or.inl (hsame ▸ hin)
      · rw [happ] at hin
        rcases List.mem_append.mp hin with hin | hin
        · exact Or.inl hin
        · rcases List.mem_singleton.mp hin with rfl
          exact Or.inr hnew
    · rw [hv] at hnv
      exact Or.inr hnv

/-- C2 (amended): `_process_url` marks the processed URL visited at
processing time (claim-on-processing, not claim-before-enqueue), and every
URL it admits to the frontier is *not* in the visited set at admission: the
admission check requires non-membership and does not mark. -/
theorem C2_amended_mark_on_processing (cfg : CrawlConfig) (st : CrawlState)
    (url : String) (depth : ℕ) :
    url ∈ (processUrl cfg st url depth).visited ∧
    ∀ q ∈ (processUrl cfg st url depth).queue,
      q ∈ st.queue ∨ q.1 ∉ (processUrl cfg st url depth).visited := by
  have hvis : ∀ v : List String, url ∈ markVisited v url := by
    intro v
    unfold markVisited
    by_cases h : v.contains url = true
    · rw [if_pos h]
      exact List.mem_of_elem_eq_true h
    · rw [if_neg h]
      simp
  unfold processUrl
  cases hp : cfg.page url with
  | err msg => exact ⟨hvis st.visited, fun q hq => Or.inl hq⟩
  | ok links =>
    dsimp only
    unfold processUrlSuccess
    by_cases hd : depth < cfg.max_depth
    · rw [if_pos hd]
      obtain ⟨hv, _, _, hq⟩ := linksFold_state cfg depth links
        { st with visited := markVisited st.visited url }
      constructor
      · rw [(appendSuccess_fields _ _ _ _).1, hv]
        exact hvis st.visited
      · intro q hqm
        rw [(appendSuccess_fields _ _ _ _).2.1] at hqm
        rcases hq q hqm with hin | hnv
        · exact Or.inl hin
        · refine Or.inr ?_
          rw [(appendSuccess_fields _ _ _ _).1, hv]
          exact contains_false_not_mem hnv
    · rw [if_neg hd]
      constructor
      · rw [(appendSuccess_fields _ _ _ _).1]
        exact hvis st.visited
      · intro q hqm
        rw [(appendSuccess_fields _ _ _ _).2.1] at hqm
        exact Or.inl hqm

/-- Witness for C2 (amended): processing the seed marks it visited, while
the admitted child `http://a.test/x` is enqueued unvisited. -/
theorem C2_amended_witness :
    "http://a.test/" ∈
      (processUrl oneLinkCfg emptyCrawlState "http://a.test/" 0).visited ∧
    (("http://a.test/x", 1) ∈ emptyCrawlState.queue ∨
      "http://a.test/x" ∉
        (processUrl oneLinkCfg emptyCrawlState "http://a.test/" 0).visited) :=
  ⟨(C2_amended_mark_on_processing oneLinkCfg emptyCrawlState
      "http://a.test/" 0).1,
   (C2_amended_mark_on_processing oneLinkCfg emptyCrawlState
      "http://a.test/" 0).2 ("http://a.test/x", 1)
     (by
       rw [show (processUrl oneLinkCfg emptyCrawlState "http://a.test/"
           0).queue = [("http://a.test/x", 1)] from rfl]
       exact List.mem_singleton.mpr rfl)⟩

/-- C2-counterexample: the claim says every URL in the frontier is already
visited.  In the reachable state after the seed of `oneLinkCfg` has been
processed, the frontier holds `http://a.test/x`, which is not visited. -/
theorem C2_counterexample_frontier_url_unvisited :
    ("http://a.test/x", 1) ∈
      (runWorker oneLinkCfg
        { visited := [], robots_parsers := [], queue := [("http://a.test/", 0)],
          results := [], pages_crawled := 0 }
        [("http://a.test/", 0)]).queue ∧
    "http://a.test/x" ∉
      (runWorker oneLinkCfg
        { visited := [], robots_parsers := [], queue := [("http://a.test/", 0)],
          results := [], pages_crawled := 0 }
        [("http://a.test/", 0)]).visited := by
  constructor
  · rw [show (runWorker oneLinkCfg
        { visited := [], robots_parsers := [], queue := [("http://a.test/", 0)],
          results := [], pages_crawled := 0 }
        [("http://a.test/", 0)]).queue =
        [("http://a.test/", 0), ("http://a.test/x", 1)] from rfl]
    exact List.mem_cons_of_mem _ (List.mem_singleton.mpr rfl)
  · rw [show (runWorker oneLinkCfg
        { visited := [], robots_parsers := [], queue := [("http://a.test/", 0)],
          results := [], pages_crawled := 0 }
        [("http://a.test/", 0)]).visited = ["http://a.test/"] from rfl]
    decide

/-- C1-counterexample: with `maxPages = 1` and two seeds whose fetches both
fail, the sequential crawl produces *two* `CrawlResult` entries — error
results are appended to the result list but never increment the page
counter the budget check looks at. -/
theorem C1_counterexample_error_results_exceed_budget :
    errorPageCfg.max_pages = 1 ∧
    (crawlSeq errorPageCfg ["http://a.test/", "http://b.test/"]
        10).results.length = 2 :=
  ⟨rfl, rfl⟩

theorem crawlInv_processUrl {cfg : CrawlConfig} {st : CrawlState}
    {url : String} {depth : ℕ}
    (hnv : st.visited.contains url = false)
    (hlt : st.pages_crawled < cfg.max_pages)
    (hinv : crawlInv cfg st) : crawlInv cfg (processUrl cfg st url depth) := by
  obtain ⟨h1, h2, h3, h4⟩ := hinv
  have hmark : markVisited st.visited url = st.visited ++ [url] := by
    unfold markVisited
    rw [if_neg (by rw [hnv]; exact Bool.false_ne_true)]
  have hnotin : url ∉ st.results.map (fun r => r.url) := by
    intro hmem
    rcases List.mem_map.mp hmem with ⟨r, hr, hru⟩
    have ht : st.visited.contains url = true :=
      List.elem_eq_true_of_mem (hru ▸ h3 r hr)
    rw [ht] at hnv
    cases hnv
  have hnodup : ∀ res : CrawlResult, res.url = url →
      ((st.results ++ [res]).map (fun r => r.url)).Nodup := by
    intro res hres
    rw [List.map_append]
    refine List.Nodup.append h2 (List.nodup_singleton _) ?_
    intro a ha hau
    have hau' : a = url := by simpa [hres] using hau
    exact hnotin (hau' ▸ ha)
  unfold processUrl
  cases hp : cfg.page url with
  | err msg =>
    refine ⟨?_, ?_, ?_, h4⟩
    · show st.pages_crawled =
        (st.results ++ [(⟨url, depth, "error", []⟩ : CrawlResult)]).countP
          (fun r => r.status == "success")
      rw [List.countP_append, h1]
      rfl
    · exact hnodup (⟨url, depth, "error", []⟩ : CrawlResult) rfl
    · intro r hr
      rcases List.mem_append.mp hr with hr | hr
      · show r.url ∈ markVisited st.visited url
        rw [hmark]
        exact List.mem_append_left _ (h3 r hr)
      · rcases List.mem_singleton.mp hr with rfl
        show url ∈ markVisited st.visited url
        rw [hmark]
        exact List.mem_append_right _ (List.mem_singleton.mpr rfl)
  | ok links =>
    dsimp only
    unfold processUrlSuccess
    have hbase : ∀ st2 : CrawlState,
        st2.visited = markVisited st.visited url →
        st2.results = st.results → st2.pages_crawled = st.pages_crawled →
        crawlInv cfg (appendSuccess st2 url depth links) := by
      intro st2 hv hr hp2
      refine ⟨?_, ?_, ?_, ?_⟩
      · rw [(appendSuccess_fields _ _ _ _).2.2.1,
          (appendSuccess_fields _ _ _ _).2.2.2, hr, hp2,
          List.countP_append, h1]
        rfl
      · rw [(appendSuccess_fields _ _ _ _).2.2.1, hr]
        exact hnodup (⟨url, depth, "success", links⟩ : CrawlResult) rfl
      · intro r hr2
        rw [(appendSuccess_fields _ _ _ _).2.2.1, hr] at hr2
        rw [(appendSuccess_fields _ _ _ _).1, hv, hmark]
        rcases List.mem_append.mp hr2 with hr2 | hr2
        · exact List.mem_append_left _ (h3 r hr2)
        · rcases List.mem_singleton.mp hr2 with rfl
          exact List.mem_append_right _ (List.mem_singleton.mpr rfl)
      · rw [(appendSuccess_fields _ _ _ _).2.2.2, hp2]
        omega
    by_cases hd : depth < cfg.max_depth
    · rw [if_pos hd]
      obtain ⟨hv, hr, hp2, _⟩ := linksFold_state cfg depth links
        { st with visited := markVisited st.visited url }
      exact hbase _ hv hr hp2
    · rw [if_neg hd]
      exact hbase _ rfl rfl rfl

theorem crawlInv_runWorker {cfg : CrawlConfig} (batch : List (String × ℕ)) :
    ∀ {st : CrawlState}, crawlInv cfg st →
      crawlInv cfg (runWorker cfg st batch) := by
  induction batch with
  | nil => exact fun hinv => hinv
  | cons q rest ih =>
    intro st hinv
    rcases q with ⟨url, depth⟩
    rw [runWorker]
    by_cases hb : cfg.max_pages ≤ st.pages_crawled
    · rw [if_pos hb]
      exact hinv
    · rw [if_neg hb]
      cases hc : st.visited.contains url with
      | true =>
        rw [if_pos rfl]
        exact ih hinv
      | false =>
        rw [if_neg Bool.false_ne_true]
        exact ih (crawlInv_processUrl hc (by omega) hinv)

theorem crawlInv_crawlLoop {cfg : CrawlConfig} (fuel : ℕ) :
    ∀ {st : CrawlState}, crawlInv cfg st →
      crawlInv cfg (crawlLoop cfg fuel st) := by
  induction fuel with
  | zero => exact fun hinv => hinv
  | succ fuel ih =>
    intro st hinv
    rw [crawlLoop]
    cases hq : st.queue with
    | nil => exact hinv
    | cons q rest =>
      rcases q with ⟨url, depth⟩
      dsimp only
      by_cases hb : st.pages_crawled < cfg.max_pages
      · rw [if_pos hb]
        have hinv' : crawlInv cfg { st with queue := rest } := hinv
        cases hc : st.visited.contains url with
        | true =>
          rw [if_pos rfl]
          exact ih hinv'
        | false =>
          rw [if_neg Bool.false_ne_true]
          exact ih (crawlInv_runWorker _ hinv')
      · rw [if_neg hb]
        exact hinv

/-- C1 (amended): in the sequential execution path of `Crawler.crawl`, the
number of results with status `success` never exceeds `maxPages` and no URL
appears in more than one result entry; results with status `error` are not
counted against the page budget (and can push the *total* number of results
beyond `maxPages`, as the counterexample shows). -/
theorem C1_amended_success_budget_and_unique_urls (cfg : CrawlConfig)
    (start_urls : List String) (fuel : ℕ) :
    (crawlSeq cfg start_urls fuel).results.countP
        (fun r => r.status == "success") ≤ cfg.max_pages ∧
    ((crawlSeq cfg start_urls fuel).results.map (fun r => r.url)).Nodup := by
  have h0 : crawlInv cfg
      { visited := [], robots_parsers := [],
        queue := (start_urls.map normalize_url).map (·, 0), results := [],
        pages_crawled := 0 } :=
    ⟨rfl, List.nodup_nil, fun r hr => absurd hr (List.not_mem_nil r),
      Nat.zero_le _⟩
  have h2 := crawlInv_crawlLoop fuel
    (crawlInv_runWorker ((start_urls.map normalize_url).map (·, 0)) h0)
  have h4 := h2.2.2.2
  rw [h2.1] at h4
  exact ⟨h4, h2.2.1⟩

/-- C9-counterexample: `normalize_url` does not fail with `InvalidURL` on a
non-http(s) scheme — it returns the (already canonical) URL unchanged, and
likewise returns non-parseable junk unchanged. -/
theorem C9_counterexample_no_invalid_url_error :
    normalize_url "ftp://example.com/a" = "ftp://example.com/a" ∧
    normalize_url "not a url" = "not a url" :=
  ⟨rfl, rfl⟩

/-- C9 (amended): `normalize_url` performs no scheme validation and returns
normally on non-http(s) input; rejection of URLs that do not start with
`http://` or `https://` happens instead in `Crawler._is_valid_url`, whose
first check refuses them. -/
theorem C9_amended_scheme_check_in_is_valid_url (cfg : CrawlConfig)
    (st : CrawlState) (u : String)
    (h1 : pyStartsWith u "http://" = false)
    (h2 : pyStartsWith u "https://" = false) :
    isValidUrl cfg st u = (false, st) ∧
    normalize_url "ftp://example.com/a" = "ftp://example.com/a" := by
  refine ⟨?_, rfl⟩
  unfold isValidUrl
  have hc : ¬ (pyStartsWith u "http://" || pyStartsWith u "https://") = true := by
    rw [h1, h2]
    decide
  rw [if_pos hc]

theorem mem_dictKeys_dictSet {κ α : Type} [DecidableEq κ]
    {d : List (κ × α)} {k k' : κ} (v : α)
    (h : k' ∈ dictKeys (dictSet d k v)) : k' ∈ dictKeys d ∨ k' = k := by
  rw [dictKeys_dictSet] at h
  by_cases hm : k ∈ dictKeys d
  · rw [if_pos hm] at h
    exact Or.inl h
  · rw [if_neg hm] at h
    rcases List.mem_append.mp h with h | h
    · exact Or.inl h
    · exact Or.inr (List.mem_singleton.mp h)

theorem not_mem_dictKeys_dictErase_self {κ α : Type} [DecidableEq κ]
    (d : List (κ × α)) (k : κ) : k ∉ dictKeys (dictErase d k) := by
  intro h
  rcases List.mem_map.mp h with ⟨p, hp, hpk⟩
  have hf := List.of_mem_filter hp
  simp only [decide_eq_true_eq] at hf
  exact hf hpk

theorem mem_dictKeys_dictErase {κ α : Type} [DecidableEq κ]
    {d : List (κ × α)} {k k' : κ} (h : k' ∈ dictKeys (dictErase d k)) :
    k' ∈ dictKeys d := by
  rcases List.mem_map.mp h with ⟨p, hp, hpk⟩
  exact hpk ▸ List.mem_map_of_mem _ (List.mem_of_mem_filter hp)

theorem dictKeys_nodup_dictErase {κ α : Type} [DecidableEq κ]
    {d : List (κ × α)} (k : κ) (hn : (dictKeys d).Nodup) :
    (dictKeys (dictErase d k)).Nodup :=
  List.Nodup.sublist (List.Sublist.map _ (List.filter_sublist d)) hn

theorem dictKeys_nodup_filter {κ α : Type} [DecidableEq κ]
    {d : List (κ × α)} (f : κ × α → Bool) (hn : (dictKeys d).Nodup) :
    (dictKeys (d.filter f)).Nodup :=
  List.Nodup.sublist (List.Sublist.map _ (List.filter_sublist d)) hn

theorem mem_dictKeys_filter {κ α : Type} [DecidableEq κ]
    {d : List (κ × α)} {f : κ × α → Bool} {k : κ}
    (h : k ∈ dictKeys (d.filter f)) : k ∈ dictKeys d := by
  rcases List.mem_map.mp h with ⟨p, hp, hpk⟩
  exact hpk ▸ List.mem_map_of_mem _ (List.mem_of_mem_filter hp)

theorem mem_dictKeys_of_dictGet {κ α : Type} [DecidableEq κ]
    {d : List (κ × α)} {k : κ} {v : α} (h : dictGet d k = some v) :
    k ∈ dictKeys d :=
  List.mem_map.mpr ⟨(k, v), mem_of_dictGet h, rfl⟩

theorem dictGet_eq_none_of_not_mem {κ α : Type} [DecidableEq κ]
    {d : List (κ × α)} {k : κ} (h : k ∉ dictKeys d) : dictGet d k = none :=
  dictGet_eq_none_of_forall
    (fun p hp hpk => h (List.mem_map.mpr ⟨p, hp, hpk⟩))

theorem foldl_preserve {α β : Type} {P : α → Prop} {f : α → β → α}
    (hf : ∀ a b, P a → P (f a b)) :
    ∀ (l : List β) (a : α), P a → P (l.foldl f a) := by
  intro l
  induction l with
  | nil => exact fun a h => h
  | cons b t ih => exact fun a h => ih _ (hf a b h)

/-- The failure-count/kill step preserves the pool invariant. -/
theorem pmInv_pmCountFail {pm : ProxyMiddleware} (p : String) (now : ℚ)
    (h : pmInv pm) : pmInv (pmCountFail pm p now) := by
  obtain ⟨h1, h2, h3⟩ := h
  unfold pmCountFail
  by_cases hth : pm.max_failures ≤ fcGet pm p + 1
  · rw [if_pos hth]
    refine ⟨h1.erase p, dictKeys_nodup_dictSet p now h2, ?_⟩
    intro q hq hqd
    have hq' := (List.Nodup.mem_erase_iff h1).mp hq
    rcases mem_dictKeys_dictSet now hqd with hd | hd
    · exact h3 q hq'.2 hd
    · exact hq'.1 hd
  · rw [if_neg hth]
    exact ⟨h1, h2, h3⟩

/-- `report_failure` preserves the pool invariant. -/
theorem pmInv_reportFailure {pm : ProxyMiddleware} (proxy : String)
    (now : ℚ) (h : pmInv pm) : pmInv (pmReportFailure pm proxy now) := by
  unfold pmReportFailure
  by_cases hp : proxy = ""
  · rw [if_pos hp]
    exact h
  · rw [if_neg hp]
    exact pmInv_pmCountFail proxy now h

/-- `report_success` preserves the pool invariant. -/
theorem pmInv_reportSuccess {pm : ProxyMiddleware} (proxy : String)
    (h : pmInv pm) : pmInv (pmReportSuccess pm proxy) := by
  unfold pmReportSuccess
  by_cases hp : proxy = ""
  · rw [if_pos hp]
    exact h
  · rw [if_neg hp]
    cases dictGet pm.failure_counts proxy <;> exact h

/-- A single health-check probe step preserves the pool invariant. -/
theorem pmInv_checkActiveStep {pm : ProxyMiddleware}
    (probe : String → Option ℚ) (now : ℚ) (p : String) (h : pmInv pm) :
    pmInv (checkActiveStep probe now pm p) := by
  unfold checkActiveStep
  cases probe p with
  | none => exact pmInv_pmCountFail p now h
  | some rt => exact h

theorem dictGet_dictSet_ne {κ α : Type} [DecidableEq κ]
    (d : List (κ × α)) (k : κ) (v : α) {k' : κ} (h : ¬ k' = k) :
    dictGet (dictSet d k v) k' = dictGet d k' := by
  have hk : ¬ k = k' := fun hh => h hh.symm
  induction d with
  | nil => simp [dictSet, dictGet, hk]
  | cons p t ih => by_cases hp : p.1 = k <;> simp [dictSet, dictGet, hp, hk, ih]

theorem dictGet_dictErase_ne {κ α : Type} [DecidableEq κ]
    (d : List (κ × α)) (k : κ) {k' : κ} (h : ¬ k' = k) :
    dictGet (dictErase d k) k' = dictGet d k' := by
  induction d with
  | nil => rfl
  | cons p t ih =>
    by_cases hp : p.1 = k
    · have h1 : dictErase (p :: t) k = dictErase t k := by
        simp [dictErase, hp]
      have h2 : dictGet (p :: t) k' = dictGet t k' := by
        have hpk : ¬ p.1 = k' := by rw [hp]; exact fun hh => h hh.symm
        simp [dictGet, hpk]
      rw [h1, ih, h2]
    · have h1 : dictErase (p :: t) k = p :: dictErase t k := by
        simp [dictErase, hp]
      rw [h1]
      by_cases hpk : p.1 = k'
      · simp [dictGet, hpk]
      · simp [dictGet, hpk, ih]

/-- A recovery step never changes the configuration fields. -/
theorem recoverStep_stable (now : ℚ) (probe : String → Option ℚ)
    (pm : ProxyMiddleware) (q : String × ℚ) :
    (recoverStep now probe pm q).retry_delay = pm.retry_delay ∧
    (recoverStep now probe pm q).max_failures = pm.max_failures := by
  unfold recoverStep
  by_cases hcd : pm.retry_delay < now - q.2
  · rw [if_pos hcd]
    cases probe q.1 <;> exact ⟨rfl, rfl⟩
  · rw [if_neg hcd]
    exact ⟨rfl, rfl⟩

/-- Structural facts about one dead-proxy recovery step for an entry whose
key is not currently active: the pool invariant is preserved; a proxy that
is active afterwards was active before, or is the entry's key with its
cool-down elapsed and a successful probe; and a dead entry whose key still
probes alive was already that dead entry before the step. -/
theorem recoverStep_facts {pm : ProxyMiddleware} (now : ℚ)
    (probe : String → Option ℚ) (q : String × ℚ)
    (hq : q.1 ∉ pm.active_proxies) (h : pmInv pm) :
    pmInv (recoverStep now probe pm q) ∧
    (∀ x ∈ (recoverStep now probe pm q).active_proxies,
      x ∈ pm.active_proxies ∨
      (x = q.1 ∧ pm.retry_delay < now - q.2 ∧ probe q.1 ≠ none)) ∧
    (∀ x t, dictGet (recoverStep now probe pm q).dead_proxies x = some t →
      probe x ≠ none → dictGet pm.dead_proxies x = some t) := by
  obtain ⟨h1, h2, h3⟩ := h
  unfold recoverStep
  by_cases hcd : pm.retry_delay < now - q.2
  · rw [if_pos hcd]
    cases hpr : probe q.1 with
    | some rt =>
      refine ⟨⟨?_, dictKeys_nodup_dictErase q.1 h2, ?_⟩, ?_, ?_⟩
      · exact List.Nodup.append h1 (List.nodup_singleton q.1)
          (fun a ha hak => hq ((List.mem_singleton.mp hak) ▸ ha))
      · intro x hx hxd
        rcases List.mem_append.mp hx with hx | hx
        · exact h3 x hx (mem_dictKeys_dictErase hxd)
        · rw [List.mem_singleton] at hx
          subst hx
          exact not_mem_dictKeys_dictErase_self _ _ hxd
      · intro x hx
        rcases List.mem_append.mp hx with hx | hx
        · exact Or.inl hx
        · exact Or.inr ⟨List.mem_singleton.mp hx, hcd, by simp⟩
      · intro x t hx _
        by_cases hxq : x = q.1
        · subst hxq
          rw [dictGet_dictErase_self] at hx
          cases hx
        · rw [dictGet_dictErase_ne _ _ hxq] at hx
          exact hx
    | none =>
      refine ⟨⟨h1, dictKeys_nodup_dictSet q.1 now
        (dictKeys_nodup_dictErase q.1 h2), ?_⟩, ?_, ?_⟩
      · intro x hx hxd
        rcases mem_dictKeys_dictSet now hxd with hd | hd
        · exact h3 x hx (mem_dictKeys_dictErase hd)
        · exact hq (hd ▸ hx)
      · intro x hx
        exact Or.inl hx
      · intro x t hx hpx
        by_cases hxq : x = q.1
        · subst hxq
          exact absurd hpr hpx
        · rw [dictGet_dictSet_ne _ _ _ hxq, dictGet_dictErase_ne _ _ hxq] at hx
          exact hx
  · rw [if_neg hcd]
    exact ⟨⟨h1, h2, h3⟩, fun x hx => Or.inl hx, fun x t hx _ => hx⟩

/-- Folding `recoverStep` over a key-unique list of entries none of whose
keys is active preserves the pool invariant; every newly active proxy has a
list entry with elapsed cool-down and a successful probe; dead entries with
probe-alive keys are original; configuration is stable. -/
theorem recoverFold (now : ℚ) (probe : String → Option ℚ) :
    ∀ (l : List (String × ℚ)) (pm : ProxyMiddleware),
      pmInv pm → (dictKeys l).Nodup →
      (∀ r ∈ l, r.1 ∉ pm.active_proxies) →
      pmInv (l.foldl (recoverStep now probe) pm) ∧
      (∀ x ∈ (l.foldl (recoverStep now probe) pm).active_proxies,
        x ∈ pm.active_proxies ∨
        ∃ t, (x, t) ∈ l ∧ pm.retry_delay < now - t ∧ probe x ≠ none) ∧
      (∀ x t, dictGet (l.foldl (recoverStep now probe) pm).dead_proxies x =
          some t → probe x ≠ none → dictGet pm.dead_proxies x = some t) ∧
      (l.foldl (recoverStep now probe) pm).retry_delay = pm.retry_delay := by
  intro l
  induction l with
  | nil =>
    exact fun pm h _ _ => ⟨h, fun x hx => Or.inl hx, fun x t hx _ => hx, rfl⟩
  | cons r rest ih =>
    intro pm h hnd hact
    have hr : r.1 ∉ pm.active_proxies := hact r (List.mem_cons_self r rest)
    obtain ⟨s1inv, s1act, s1dead⟩ := recoverStep_facts now probe r hr h
    have hstab := recoverStep_stable now probe pm r
    have hnd' := List.nodup_cons.mp hnd
    have hact' : ∀ r' ∈ rest,
        r'.1 ∉ (recoverStep now probe pm r).active_proxies := by
      intro r' hr' hmem
      rcases s1act r'.1 hmem with hx | ⟨hx, _, _⟩
      · exact hact r' (List.mem_cons_of_mem r hr') hx
      · apply hnd'.1
        show r.1 ∈ List.map (fun x => x.1) rest
        rw [← hx]
        exact List.mem_map_of_mem _ hr'
    obtain ⟨f1, f2, f3, f4⟩ :=
      ih (recoverStep now probe pm r) s1inv hnd'.2 hact'
    rw [List.foldl_cons]
    refine ⟨f1, ?_, ?_, f4.trans hstab.1⟩
    · intro x hx
      rcases f2 x hx with hx' | ⟨t, htl, hcd, hpx⟩
      · rcases s1act x hx' with hy | ⟨hy, hcd, hpx⟩
        · exact Or.inl hy
        · refine Or.inr ⟨r.2, ?_, hcd, by rw [hy]; exact hpx⟩
          rw [hy]
          exact List.mem_cons_self r rest
      · refine Or.inr ⟨t, List.mem_cons_of_mem r htl, ?_, hpx⟩
        rw [← hstab.1]
        exact hcd
    · intro x t hx hpx
      exact s1dead x t (f3 x t hx hpx) hpx

/-- `_recover_dead_proxies` preserves the pool invariant; a proxy active
afterwards was active before or is a dead entry whose cool-down elapsed and
whose probe succeeded; a dead entry whose key still probes alive is
original. -/
theorem recoverDead_facts {pm : ProxyMiddleware} (now : ℚ)
    (probe : String → Option ℚ) (h : pmInv pm) :
    pmInv (recoverDeadProxies pm now probe) ∧
    (∀ x ∈ (recoverDeadProxies pm now probe).active_proxies,
      x ∈ pm.active_proxies ∨
      ∃ t, dictGet pm.dead_proxies x = some t ∧
        pm.retry_delay < now - t ∧ probe x ≠ none) ∧
    (∀ x t, dictGet (recoverDeadProxies pm now probe).dead_proxies x =
        some t → probe x ≠ none → dictGet pm.dead_proxies x = some t) ∧
    (recoverDeadProxies pm now probe).retry_delay = pm.retry_delay := by
  obtain ⟨f1, f2, f3, f4⟩ := recoverFold now probe pm.dead_proxies pm h h.2.1
    (fun r hr hra => h.2.2 r.1 hra (List.mem_map_of_mem _ hr))
  refine ⟨f1, ?_, f3, f4⟩
  intro x hx
  rcases f2 x hx with hx' | ⟨t, htl, hcd, hpx⟩
  · exact Or.inl hx'
  · exact Or.inr ⟨t, dictGet_of_mem_nodup h.2.1 htl, hcd, hpx⟩

theorem foldl_min_mem :
    ∀ (t : List (String × ℚ)) (acc : String × ℚ),
      t.foldl (fun acc y => if y.2 < acc.2 then y else acc) acc ∈
        acc :: t := by
  intro t
  induction t with
  | nil => exact fun acc => List.mem_singleton.mpr rfl
  | cons z t ih =>
    intro acc
    rw [List.foldl_cons]
    by_cases hz : z.2 < acc.2
    · rw [if_pos hz]
      exact List.mem_cons_of_mem acc (ih z)
    · rw [if_neg hz]
      rcases List.mem_cons.mp (ih acc) with hx | hx
      · rw [hx]
        exact List.mem_cons_self acc (z :: t)
      · exact List.mem_cons_of_mem acc (List.mem_cons_of_mem z hx)

theorem pyMinBySnd_mem {l : List (String × ℚ)} {x : String × ℚ}
    (h : pyMinBySnd l = some x) : x ∈ l := by
  cases l with
  | nil => cases h
  | cons y t =>
    simp only [pyMinBySnd] at h
    cases h
    exact foldl_min_mem t y

/-- The failure-count/kill step never changes the configuration fields. -/
theorem pmCountFail_stable (pm : ProxyMiddleware) (p : String) (now : ℚ) :
    (pmCountFail pm p now).retry_delay = pm.retry_delay ∧
    (pmCountFail pm p now).max_failures = pm.max_failures := by
  unfold pmCountFail
  by_cases hth : pm.max_failures ≤ fcGet pm p + 1
  · rw [if_pos hth]
    exact ⟨rfl, rfl⟩
  · rw [if_neg hth]
    exact ⟨rfl, rfl⟩

/-- The failure-count/kill step never adds an active proxy. -/
theorem pmCountFail_active_sub {pm : ProxyMiddleware} {p : String}
    {now : ℚ} {x : String}
    (hx : x ∈ (pmCountFail pm p now).active_proxies) :
    x ∈ pm.active_proxies := by
  unfold pmCountFail at hx
  by_cases hth : pm.max_failures ≤ fcGet pm p + 1
  · rw [if_pos hth] at hx
    exact List.mem_of_mem_erase hx
  · rw [if_neg hth] at hx
    exact hx

/-- After the failure-count/kill step on `p`, the dead entry of any other
key is unchanged. -/
theorem pmCountFail_dead_get {pm : ProxyMiddleware} {p : String} {now : ℚ}
    {x : String} {t : ℚ}
    (hx : dictGet (pmCountFail pm p now).dead_proxies x = some t)
    (hne : ¬ x = p) : dictGet pm.dead_proxies x = some t := by
  unfold pmCountFail at hx
  by_cases hth : pm.max_failures ≤ fcGet pm p + 1
  · rw [if_pos hth] at hx
    rw [dictGet_dictSet_ne _ _ _ hne] at hx
    exact hx
  · rw [if_neg hth] at hx
    exact hx

theorem fcGet_eq_of_set {pm' : ProxyMiddleware} {d : List (String × ℕ)}
    {p : String} {n : ℕ} (h : pm'.failure_counts = dictSet d p n) :
    fcGet pm' p = n := by
  unfold fcGet
  rw [h, dictGet_dictSet_self]
  rfl

/-- The failure-count/kill step bumps `p`'s consecutive-failure count. -/
theorem pmCountFail_fcGet_self (pm : ProxyMiddleware) (p : String)
    (now : ℚ) : fcGet (pmCountFail pm p now) p = fcGet pm p + 1 := by
  unfold pmCountFail
  by_cases hth : pm.max_failures ≤ fcGet pm p + 1
  · rw [if_pos hth]
    exact fcGet_eq_of_set rfl
  · rw [if_neg hth]
    exact fcGet_eq_of_set rfl

/-- In a dict with duplicate-free keys, two entries with the same key are
the same entry. -/
theorem keys_nodup_entry_unique {κ α : Type} [DecidableEq κ]
    {d : List (κ × α)} (hn : (dictKeys d).Nodup) {q1 q2 : κ × α}
    (h1 : q1 ∈ d) (h2 : q2 ∈ d) (hk : q1.1 = q2.1) : q1 = q2 := by
  have g1 : dictGet d q1.1 = some q1.2 := dictGet_of_mem_nodup hn h1
  have g2 : dictGet d q2.1 = some q2.2 := dictGet_of_mem_nodup hn h2
  rw [hk, g2] at g1
  exact Prod.ext hk (Option.some_injective _ g1).symm

/-- Strategy dispatch returns an active proxy and only ever touches the
round-robin index. -/
theorem selectProxy_facts {pm : ProxyMiddleware} {strat : Strategy}
    {p : String} {pm2 : ProxyMiddleware}
    (h : selectProxy pm strat = some (p, pm2)) :
    p ∈ pm.active_proxies ∧
    pm2.active_proxies = pm.active_proxies ∧
    pm2.dead_proxies = pm.dead_proxies ∧
    pm2.retry_delay = pm.retry_delay ∧
    pm2.max_failures = pm.max_failures := by
  cases strat with
  | random choice =>
    simp only [selectProxy] at h
    cases hg : pm.active_proxies.get? (choice % pm.active_proxies.length) with
    | none =>
      rw [hg] at h
      cases h
    | some q =>
      rw [hg, Option.map_some'] at h
      cases h
      exact ⟨List.get?_mem hg, rfl, rfl, rfl, rfl⟩
  | fastest =>
    simp only [selectProxy] at h
    by_cases hs : pm.proxy_speeds = []
    · rw [if_pos hs] at h
      cases hg : pm.active_proxies.get? 0 with
      | none =>
        rw [hg] at h
        cases h
      | some q =>
        rw [hg, Option.map_some'] at h
        cases h
        exact ⟨List.get?_mem hg, rfl, rfl, rfl, rfl⟩
    · rw [if_neg hs] at h
      cases hm : pyMinBySnd (pm.proxy_speeds.filter
          (fun q => pm.active_proxies.contains q.1)) with
      | none =>
        rw [hm] at h
        cases h
      | some q =>
        rw [hm, Option.map_some'] at h
        cases h
        have hq := pyMinBySnd_mem hm
        have hc := List.of_mem_filter hq
        exact ⟨List.mem_of_elem_eq_true hc, rfl, rfl, rfl, rfl⟩
  | roundRobin =>
    simp only [selectProxy] at h
    cases hg : pm.active_proxies.get? pm.current_index with
    | none =>
      rw [hg] at h
      cases h
    | some q =>
      rw [hg] at h
      cases h
      exact ⟨List.get?_mem hg, rfl, rfl, rfl, rfl⟩

/-- Facts about the hand-out result of the selection phase. -/
theorem gpHandout_facts {pm pm2 : ProxyMiddleware} {p0 : String}
    (now : ℚ) (h : pmInv pm) (qmem : p0 ∈ pm.active_proxies)
    (e1 : pm2.active_proxies = pm.active_proxies)
    (e2 : pm2.dead_proxies = pm.dead_proxies) :
    pmInv { pm2 with last_used := dictSet pm2.last_used p0 now } ∧
    (∀ pp, (some p0 : Option String) = some pp →
      pp ∈ ({ pm2 with
        last_used := dictSet pm2.last_used p0 now }).active_proxies) ∧
    (∀ x ∈ ({ pm2 with
        last_used := dictSet pm2.last_used p0 now }).active_proxies,
      x ∈ pm.active_proxies) ∧
    (∀ x t, dictGet ({ pm2 with
        last_used := dictSet pm2.last_used p0 now }).dead_proxies x =
        some t → dictGet pm.dead_proxies x = some t) := by
  have h2 : pmInv pm2 := by
    unfold pmInv
    rw [e1, e2]
    exact h
  refine ⟨h2, ?_, ?_, ?_⟩
  · intro pp hpp
    cases hpp
    show p0 ∈ pm2.active_proxies
    rw [e1]
    exact qmem
  · intro x hx
    have hx2 : x ∈ pm2.active_proxies := hx
    rw [e1] at hx2
    exact hx2
  · intro x t hx
    have hx2 : dictGet pm2.dead_proxies x = some t := hx
    rw [e2] at hx2
    exact hx2

/-- Facts about the retry state built after a failed pre-use test. -/
theorem gpRetry_facts {pm pm2 : ProxyMiddleware} {p0 : String}
    (now : ℚ) (probe : String → Option ℚ) (h : pmInv pm)
    (hpr : probe p0 = none)
    (e1 : pm2.active_proxies = pm.active_proxies)
    (e2 : pm2.dead_proxies = pm.dead_proxies)
    (e3 : pm2.retry_delay = pm.retry_delay)
    (e4 : pm2.max_failures = pm.max_failures) :
    pmInv (pmCountFail
      { pm2 with last_used := dictSet pm2.last_used p0 now } p0 now) ∧
    (∀ x ∈ (pmCountFail { pm2 with
        last_used := dictSet pm2.last_used p0 now } p0 now).active_proxies,
      x ∈ pm.active_proxies) ∧
    (∀ x t, dictGet (pmCountFail { pm2 with
        last_used := dictSet pm2.last_used p0 now } p0 now).dead_proxies x =
        some t → probe x ≠ none → dictGet pm.dead_proxies x = some t) ∧
    (pmCountFail { pm2 with
      last_used := dictSet pm2.last_used p0 now } p0 now).retry_delay =
      pm.retry_delay ∧
    (pmCountFail { pm2 with
      last_used := dictSet pm2.last_used p0 now } p0 now).max_failures =
      pm.max_failures := by
  have h2 : pmInv pm2 := by
    unfold pmInv
    rw [e1, e2]
    exact h
  have h3 : pmInv { pm2 with last_used := dictSet pm2.last_used p0 now } := h2
  refine ⟨pmInv_pmCountFail p0 now h3, ?_, ?_, ?_, ?_⟩
  · intro x hx
    have hx2 := pmCountFail_active_sub hx
    have hx3 : x ∈ pm2.active_proxies := hx2
    rw [e1] at hx3
    exact hx3
  · intro x t hx hpx
    have hne : ¬ x = p0 := fun hh => hpx (by rw [hh]; exact hpr)
    have hx2 := pmCountFail_dead_get hx hne
    have hx3 : dictGet pm2.dead_proxies x = some t := hx2
    rw [e2] at hx3
    exact hx3
  · exact (pmCountFail_stable _ p0 now).1.trans e3
  · exact (pmCountFail_stable _ p0 now).2.trans e4

/-- Case analysis of the selection phase of `get_proxy`: a handed-out
proxy is active in the returned pool, the returned pool's active list only
shrinks (modulo the selection bookkeeping), dead entries with probe-alive
keys are original, and on the retry branch the configuration is stable. -/
theorem gpSelectPhase_facts {pm : ProxyMiddleware} (now : ℚ)
    (probe : String → Option ℚ) (strat : Strategy) (h : pmInv pm) :
    (∀ op pmr, gpSelectPhase now probe pm strat = .inl (op, pmr) →
      pmInv pmr ∧
      (∀ p, op = some p → p ∈ pmr.active_proxies) ∧
      (∀ x ∈ pmr.active_proxies, x ∈ pm.active_proxies) ∧
      (∀ x t, dictGet pmr.dead_proxies x = some t →
        dictGet pm.dead_proxies x = some t)) ∧
    (∀ pmr, gpSelectPhase now probe pm strat = .inr pmr →
      pmInv pmr ∧
      (∀ x ∈ pmr.active_proxies, x ∈ pm.active_proxies) ∧
      (∀ x t, dictGet pmr.dead_proxies x = some t → probe x ≠ none →
        dictGet pm.dead_proxies x = some t) ∧
      pmr.retry_delay = pm.retry_delay) := by
  unfold gpSelectPhase
  by_cases hemp : pm.active_proxies = []
  · rw [if_pos hemp]
    constructor
    · intro op pmr hinl
      cases hinl
      exact ⟨h, fun p hp => Option.noConfusion hp,
        fun x hx => hx, fun x t hx => hx⟩
    · intro pmr hinr
      cases hinr
  · rw [if_neg hemp]
    cases hsel : selectProxy pm strat with
    | none =>
      simp only [gpAfterSelect]
      constructor
      · intro op pmr hinl
        cases hinl
        exact ⟨h, fun p hp => Option.noConfusion hp,
          fun x hx => hx, fun x t hx => hx⟩
      · intro pmr hinr
        cases hinr
    | some q =>
      obtain ⟨p0, pm2⟩ := q
      obtain ⟨qmem, e1, e2, e3, e4⟩ := selectProxy_facts hsel
      simp only [gpAfterSelect]
      cases hpr : probe p0 with
      | some rt =>
        simp only [gpTest]
        constructor
        · intro op pmr hinl
          split at hinl
          · cases hinl
            exact gpHandout_facts now h qmem e1 e2
          · cases hinl
            exact gpHandout_facts now h qmem e1 e2
        · intro pmr hinr
          split at hinr
          · cases hinr
          · cases hinr
      | none =>
        simp only [gpTest]
        constructor
        · intro op pmr hinl
          split at hinl
          · cases hinl
          · cases hinl
            exact gpHandout_facts now h qmem e1 e2
        · intro pmr hinr
          split at hinr
          · cases hinr
            obtain ⟨k1, k2, k3, k4, k5⟩ :=
              gpRetry_facts now probe h hpr e1 e2 e3 e4
            exact ⟨k1, k2, k3, k4⟩
          · cases hinr

/-- One full `get_proxy` iteration: invariant preservation, hand-out from
the active list, provenance of the active list relative to the original
pool, dead-entry transfer and configuration stability on the retry
branch. -/
theorem getProxyOnce_facts {pm : ProxyMiddleware} (strat : Strategy)
    (now : ℚ) (probe : String → Option ℚ) (h : pmInv pm) :
    (∀ op pmr, getProxyOnce pm strat now probe = .inl (op, pmr) →
      pmInv pmr ∧
      (∀ p, op = some p → p ∈ pmr.active_proxies) ∧
      (∀ x ∈ pmr.active_proxies, x ∈ pm.active_proxies ∨
        ∃ t, dictGet pm.dead_proxies x = some t ∧
          pm.retry_delay < now - t ∧ probe x ≠ none)) ∧
    (∀ pmr, getProxyOnce pm strat now probe = .inr pmr →
      pmInv pmr ∧
      (∀ x ∈ pmr.active_proxies, x ∈ pm.active_proxies ∨
        ∃ t, dictGet pm.dead_proxies x = some t ∧
          pm.retry_delay < now - t ∧ probe x ≠ none) ∧
      (∀ x t, dictGet pmr.dead_proxies x = some t → probe x ≠ none →
        dictGet pm.dead_proxies x = some t) ∧
      pmr.retry_delay = pm.retry_delay) := by
  unfold getProxyOnce
  by_cases hemp : pm.active_proxies = []
  · rw [if_pos hemp]
    obtain ⟨r1, r2, r3, r4⟩ := recoverDead_facts now probe h
    obtain ⟨g1, g2⟩ := gpSelectPhase_facts now probe strat r1
    constructor
    · intro op pmr hinl
      obtain ⟨k1, k2, k3, k4⟩ := g1 op pmr hinl
      exact ⟨k1, k2, fun x hx => r2 x (k3 x hx)⟩
    · intro pmr hinr
      obtain ⟨k1, k2, k3, k4⟩ := g2 pmr hinr
      refine ⟨k1, fun x hx => r2 x (k2 x hx), ?_, k4.trans r4⟩
      intro x t hx hpx
      exact r3 x t (k3 x t hx hpx) hpx
  · rw [if_neg hemp]
    obtain ⟨g1, g2⟩ := gpSelectPhase_facts now probe strat h
    constructor
    · intro op pmr hinl
      obtain ⟨k1, k2, k3, k4⟩ := g1 op pmr hinl
      exact ⟨k1, k2, fun x hx => Or.inl (k3 x hx)⟩
    · intro pmr hinr
      obtain ⟨k1, k2, k3, k4⟩ := g2 pmr hinr
      exact ⟨k1, fun x hx => Or.inl (k2 x hx), k3, k4⟩

/-- `get_proxy` preserves the pool invariant, hands out only proxies that
are active in the returned pool, and every proxy active in the returned
pool was active at the call or is a dead entry whose cool-down elapsed and
whose probe succeeded. -/
theorem getProxy_facts (strat : Strategy) (now : ℚ)
    (probe : String → Option ℚ) :
    ∀ (fuel : ℕ) (pm : ProxyMiddleware), pmInv pm →
      pmInv (getProxy fuel pm strat now probe).2 ∧
      (∀ p, (getProxy fuel pm strat now probe).1 = some p →
        p ∈ (getProxy fuel pm strat now probe).2.active_proxies) ∧
      (∀ x ∈ (getProxy fuel pm strat now probe).2.active_proxies,
        x ∈ pm.active_proxies ∨
        ∃ t, dictGet pm.dead_proxies x = some t ∧
          pm.retry_delay < now - t ∧ probe x ≠ none) := by
  intro fuel
  induction fuel with
  | zero =>
    exact fun pm h =>
      ⟨h, fun p hp => Option.noConfusion hp, fun x hx => Or.inl hx⟩
  | succ fuel ih =>
    intro pm h
    rw [getProxy]
    obtain ⟨g1, g2⟩ := getProxyOnce_facts strat now probe h
    cases honce : getProxyOnce pm strat now probe with
    | inl res =>
      obtain ⟨k1, k2, k3⟩ := g1 res.1 res.2 honce
      exact ⟨k1, k2, k3⟩
    | inr pm' =>
      obtain ⟨k1, k2, k3, k4⟩ := g2 pm' honce
      obtain ⟨j1, j2, j3⟩ := ih pm' k1
      refine ⟨j1, j2, ?_⟩
      intro x hx
      rcases j3 x hx with hx' | ⟨t, ht, hcd, hpx⟩
      · exact k2 x hx'
      · refine Or.inr ⟨t, k3 x t ht hpx, ?_, hpx⟩
        rw [← k4]
        exact hcd

/-- One dead-retry probe step preserves the pool invariant, for a proxy
that is neither active nor a dead key; new active/dead members are only the
probed proxy itself. -/
theorem retryDeadStep_facts {pm : ProxyMiddleware} (now : ℚ)
    (probe : String → Option ℚ) (p : String)
    (hp1 : p ∉ pm.active_proxies) (hp2 : p ∉ dictKeys pm.dead_proxies)
    (h : pmInv pm) :
    pmInv (retryDeadStep now probe pm p) ∧
    (∀ x ∈ (retryDeadStep now probe pm p).active_proxies,
      x ∈ pm.active_proxies ∨ x = p) ∧
    (∀ x ∈ dictKeys (retryDeadStep now probe pm p).dead_proxies,
      x ∈ dictKeys pm.dead_proxies ∨ x = p) := by
  obtain ⟨h1, h2, h3⟩ := h
  unfold retryDeadStep
  cases hpr : probe p with
  | some rt =>
    refine ⟨⟨?_, h2, ?_⟩, ?_, fun x hx => Or.inl hx⟩
    · exact List.Nodup.append h1 (List.nodup_singleton p)
        (fun a ha hak => hp1 ((List.mem_singleton.mp hak) ▸ ha))
    · intro x hx hxd
      rcases List.mem_append.mp hx with hx | hx
      · exact h3 x hx hxd
      · exact hp2 ((List.mem_singleton.mp hx) ▸ hxd)
    · intro x hx
      rcases List.mem_append.mp hx with hx | hx
      · exact Or.inl hx
      · exact Or.inr (List.mem_singleton.mp hx)
  | none =>
    refine ⟨⟨h1, dictKeys_nodup_dictSet p now h2, ?_⟩,
      fun x hx => Or.inl hx, ?_⟩
    · intro x hx hxd
      rcases mem_dictKeys_dictSet now hxd with hd | hd
      · exact h3 x hx hd
      · exact hp1 (hd ▸ hx)
    · intro x hx
      exact mem_dictKeys_dictSet now hx

/-- Folding the dead-retry probe over a duplicate-free list of proxies,
none of which is active or a dead key, preserves the pool invariant. -/
theorem retryFold (now : ℚ) (probe : String → Option ℚ) :
    ∀ (l : List String) (pm : ProxyMiddleware),
      pmInv pm → l.Nodup →
      (∀ p ∈ l, p ∉ pm.active_proxies ∧ p ∉ dictKeys pm.dead_proxies) →
      pmInv (l.foldl (retryDeadStep now probe) pm) := by
  intro l
  induction l with
  | nil => exact fun pm h _ _ => h
  | cons p rest ih =>
    intro pm h hnd hfr
    have hp := hfr p (List.mem_cons_self p rest)
    have hnd' := List.nodup_cons.mp hnd
    obtain ⟨s1, s2, s3⟩ := retryDeadStep_facts now probe p hp.1 hp.2 h
    rw [List.foldl_cons]
    apply ih _ s1 hnd'.2
    intro r hr
    have hrp : ¬ r = p := fun hh => hnd'.1 (hh ▸ hr)
    have hro := hfr r (List.mem_cons_of_mem p hr)
    constructor
    · intro hmem
      rcases s2 r hmem with hx | hx
      · exact hro.1 hx
      · exact hrp hx
    · intro hmem
      rcases s3 r hmem with hx | hx
      · exact hro.2 hx
      · exact hrp hx

/-- The dead-retry phase of `_check_all_proxies` preserves the pool
invariant. -/
theorem pmInv_checkDeadPhase {pm : ProxyMiddleware} (now : ℚ)
    (probe : String → Option ℚ) (h : pmInv pm) :
    pmInv (checkDeadPhase now probe pm) := by
  obtain ⟨h1, h2, h3⟩ := h
  unfold checkDeadPhase
  apply retryFold
  · refine ⟨h1, dictKeys_nodup_filter _ h2, ?_⟩
    intro x hx hxd
    exact h3 x hx (mem_dictKeys_filter hxd)
  · exact dictKeys_nodup_filter _ h2
  · intro p hp
    rcases List.mem_map.mp hp with ⟨q, hq, hqp⟩
    have hqd := List.mem_of_mem_filter hq
    have hpd : p ∈ dictKeys pm.dead_proxies :=
      List.mem_map.mpr ⟨q, hqd, hqp⟩
    constructor
    · intro hmem
      exact h3 p hmem hpd
    · intro hmem
      rcases List.mem_map.mp hmem with ⟨q2, hq2, hq2p⟩
      have hq2d := List.mem_of_mem_filter hq2
      have heq : q = q2 :=
        keys_nodup_entry_unique h2 hqd hq2d (by rw [hqp, hq2p])
      have hc1 := List.of_mem_filter hq
      have hc2 := List.of_mem_filter hq2
      rw [← heq] at hc2
      simp only [decide_eq_true_eq, Bool.not_eq_true', decide_eq_false_iff_not]
        at hc1 hc2
      exact hc2 hc1

/-- C10 component: the health check `_check_all_proxies` preserves the
pool invariant. -/
theorem pmInv_checkAllProxies {pm : ProxyMiddleware}
    (probe : String → Option ℚ) (now : ℚ) (h : pmInv pm) :
    pmInv (checkAllProxies pm probe now) := by
  unfold checkAllProxies
  exact pmInv_checkDeadPhase now probe
    (foldl_preserve (fun a b => pmInv_checkActiveStep probe now b)
      pm.active_proxies pm h)

/-- `add_proxy` preserves the pool invariant. -/
theorem pmInv_addProxy {pm : ProxyMiddleware} (proxy : String)
    (probeResult : Option ℚ) (h : pmInv pm) :
    pmInv (addProxy pm proxy probeResult).2 := by
  obtain ⟨h1, h2, h3⟩ := h
  unfold addProxy
  by_cases hc : (pm.active_proxies.contains proxy
      || (dictKeys pm.dead_proxies).contains proxy) = true
  · rw [if_pos hc]
    exact ⟨h1, h2, h3⟩
  · rw [if_neg hc]
    simp only [Bool.or_eq_true, not_or] at hc
    have hna : proxy ∉ pm.active_proxies :=
      fun hm => hc.1 (List.elem_eq_true_of_mem hm)
    have hnd : proxy ∉ dictKeys pm.dead_proxies :=
      fun hm => hc.2 (List.elem_eq_true_of_mem hm)
    cases probeResult with
    | none => exact ⟨h1, h2, h3⟩
    | some rt =>
      refine ⟨?_, h2, ?_⟩
      · exact List.Nodup.append h1 (List.nodup_singleton proxy)
          (fun a ha hak => hna ((List.mem_singleton.mp hak) ▸ ha))
      · intro x hx hxd
        rcases List.mem_append.mp hx with hx | hx
        · exact h3 x hx hxd
        · exact hnd ((List.mem_singleton.mp hx) ▸ hxd)

/-- `remove_proxy` preserves the pool invariant. -/
theorem pmInv_removeProxy {pm : ProxyMiddleware} (proxy : String)
    (h : pmInv pm) : pmInv (removeProxy pm proxy).2 := by
  obtain ⟨h1, h2, h3⟩ := h
  unfold removeProxy
  by_cases hc : pm.proxies.contains proxy = true
  · rw [if_pos hc]
    refine ⟨h1.erase proxy, dictKeys_nodup_dictErase proxy h2, ?_⟩
    intro x hx hxd
    exact h3 x (List.mem_of_mem_erase hx) (mem_dictKeys_dictErase hxd)
  · rw [if_neg hc]
    exact ⟨h1, h2, h3⟩

/-- Iterating the failure-count step below the threshold: the count rises
by one per step, the proxy stays active, and the pool invariant holds. -/
theorem pmCountFail_iter_facts (p : String) (now : ℚ) :
    ∀ (j : ℕ) (pm : ProxyMiddleware), pmInv pm → p ∈ pm.active_proxies →
      fcGet pm p = 0 → j < pm.max_failures →
      pmInv ((fun q => pmCountFail q p now)^[j] pm) ∧
      ((fun q => pmCountFail q p now)^[j] pm).max_failures =
        pm.max_failures ∧
      fcGet ((fun q => pmCountFail q p now)^[j] pm) p = j ∧
      p ∈ ((fun q => pmCountFail q p now)^[j] pm).active_proxies := by
  intro j
  induction j with
  | zero =>
    intro pm h hp hfc _
    rw [Function.iterate_zero_apply]
    exact ⟨h, rfl, hfc, hp⟩
  | succ j ih =>
    intro pm h hp hfc hj
    obtain ⟨i1, i2, i3, i4⟩ := ih pm h hp hfc (Nat.lt_of_succ_lt hj)
    simp only [Function.iterate_succ_apply']
    set s := (fun q => pmCountFail q p now)^[j] pm with hs
    have hth : ¬ s.max_failures ≤ fcGet s p + 1 := by
      rw [i2, i3]
      omega
    refine ⟨pmInv_pmCountFail p now i1,
      (pmCountFail_stable s p now).2.trans i2, ?_, ?_⟩
    · rw [pmCountFail_fcGet_self, i3]
    · unfold pmCountFail
      rw [if_neg hth]
      exact i4

/-- At the `max_failures`-th consecutive failure the proxy is removed from
the active list and recorded dead. -/
theorem pmCountFail_kill_at_max (p : String) (now : ℚ)
    (pm : ProxyMiddleware) (h : pmInv pm) (hp : p ∈ pm.active_proxies)
    (hfc : fcGet pm p = 0) (hpos : 1 ≤ pm.max_failures) :
    p ∉ ((fun q => pmCountFail q p now)^[pm.max_failures]
      pm).active_proxies ∧
    p ∈ dictKeys ((fun q => pmCountFail q p now)^[pm.max_failures]
      pm).dead_proxies := by
  obtain ⟨mf, hmf⟩ : ∃ mf, pm.max_failures = mf + 1 :=
    ⟨pm.max_failures - 1, by omega⟩
  rw [hmf]
  obtain ⟨i1, i2, i3, i4⟩ :=
    pmCountFail_iter_facts p now mf pm h hp hfc (by omega)
  simp only [Function.iterate_succ_apply']
  set s := (fun q => pmCountFail q p now)^[mf] pm with hs
  have hth : s.max_failures ≤ fcGet s p + 1 := by
    rw [i2, i3]
    omega
  constructor
  · unfold pmCountFail
    rw [if_pos hth]
    intro hmem
    exact ((i1.1.mem_erase_iff).mp hmem).1 rfl
  · unfold pmCountFail
    rw [if_pos hth]
    exact mem_dictKeys_of_dictGet (dictGet_dictSet_self _ _ _)

/-- C5: in a well-formed pool whose active proxy `p` has no recorded
consecutive failures, `max_failures` consecutive failed health probes of
`p` — each probe running `checkActiveStep`, the shared failure-count/kill
step of `report_failure` and `_check_all_proxies` — move `p` out of the
active list and into the dead dict; and whenever `get_proxy` returns a
proxy that was in the dead dict at the call, that proxy's cool-down
(`retry_delay`) had elapsed at the call and a health probe of it
succeeded. -/
theorem C5_kill_threshold_and_no_dead_handout (pm : ProxyMiddleware)
    (p : String) (now : ℚ) (probe : String → Option ℚ) (strat : Strategy)
    (fuel : ℕ) (q : String) (death : ℚ) (h : pmInv pm) :
    (probe p = none → p ∈ pm.active_proxies → fcGet pm p = 0 →
      1 ≤ pm.max_failures →
      p ∉ ((fun s => checkActiveStep probe now s p)^[pm.max_failures]
        pm).active_proxies ∧
      p ∈ dictKeys ((fun s => checkActiveStep probe now s p)^[
        pm.max_failures] pm).dead_proxies) ∧
    ((getProxy fuel pm strat now probe).1 = some q →
      dictGet pm.dead_proxies q = some death →
      pm.retry_delay < now - death ∧ probe q ≠ none) := by
  constructor
  · intro hpr hp hfc hpos
    have hfe : (fun s => checkActiveStep probe now s p) =
        (fun s => pmCountFail s p now) := by
      funext s
      unfold checkActiveStep
      rw [hpr]
    rw [hfe]
    exact pmCountFail_kill_at_max p now pm h hp hfc hpos
  · intro hq hdead
    obtain ⟨j1, j2, j3⟩ := getProxy_facts strat now probe fuel pm h
    have hmem := j2 q hq
    rcases j3 q hmem with hx | ⟨t, ht, hcd, hpx⟩
    · exact absurd (mem_dictKeys_of_dictGet hdead) (h.2.2 q hx)
    · rw [ht] at hdead
      cases hdead
      exact ⟨hcd, hpx⟩

/-- Witness for C5 at a concrete pool with an empty active list and one
cooled-down dead proxy: `get_proxy` recovers and returns it, and the
theorem certifies the elapsed cool-down and the successful probe. -/
theorem C5_witness :
    pmInv pmW2 ∧
    ((getProxy 1 pmW2 Strategy.roundRobin 100 (fun _ => some 1)).1 =
        some "http://p2:8080" →
      dictGet pmW2.dead_proxies "http://p2:8080" = some 0 →
      pmW2.retry_delay < 100 - 0 ∧
        (fun _ : String => (some 1 : Option ℚ)) "http://p2:8080" ≠ none) :=
  ⟨by unfold pmInv; decide,
   (C5_kill_threshold_and_no_dead_handout pmW2 "http://p2:8080" 100
     (fun _ => some 1) Strategy.roundRobin 1 "http://p2:8080" 0
     (by unfold pmInv; decide)).2⟩

/-- C10: from a pool satisfying `pmInv` (duplicate-free active list and
dead keys, active and dead disjoint), every `ProxyMiddleware` operation —
`report_failure`, `report_success`, `get_proxy`, `add_proxy`,
`remove_proxy`, the health check `_check_all_proxies` and the recovery
pass `_recover_dead_proxies` — yields a pool in which no proxy is
simultaneously in the active list and the dead dict. -/
theorem C10_active_dead_disjoint (pm : ProxyMiddleware) (proxy : String)
    (now : ℚ) (probe : String → Option ℚ) (strat : Strategy) (fuel : ℕ)
    (probeResult : Option ℚ) (h : pmInv pm) :
    pmDisjoint (pmReportFailure pm proxy now) ∧
    pmDisjoint (pmReportSuccess pm proxy) ∧
    pmDisjoint (getProxy fuel pm strat now probe).2 ∧
    pmDisjoint (addProxy pm proxy probeResult).2 ∧
    pmDisjoint (removeProxy pm proxy).2 ∧
    pmDisjoint (checkAllProxies pm probe now) ∧
    pmDisjoint (recoverDeadProxies pm now probe) :=
  ⟨(pmInv_reportFailure proxy now h).2.2,
   (pmInv_reportSuccess proxy h).2.2,
   ((getProxy_facts strat now probe fuel pm h).1).2.2,
   (pmInv_addProxy proxy probeResult h).2.2,
   (pmInv_removeProxy proxy h).2.2,
   (pmInv_checkAllProxies probe now h).2.2,
   ((recoverDead_facts now probe h).1).2.2⟩

/-- Witness for C10 at a concrete pool: the failure report that kills the
only active proxy still leaves active and dead disjoint. -/
theorem C10_witness :
    pmInv pmW ∧ pmDisjoint (pmReportFailure pmW "http://p1:8080" 100) :=
  ⟨by unfold pmInv; decide,
   (C10_active_dead_disjoint pmW "http://p1:8080" 100 (fun _ => none)
     Strategy.roundRobin 1 none (by unfold pmInv; decide)).1⟩

theorem toNat_ofNat_valid (n : ℕ) (hv : n.isValidChar) :
    (Char.ofNat n).toNat = n := by
  rw [Char.ofNat, dif_pos hv]
  show (BitVec.ofNatLt n _).toNat = n
  exact BitVec.toNat_ofNatLt _ _

theorem toLower_fix {c : Char} (h : ¬ (c.toNat ≥ 65 ∧ c.toNat ≤ 90)) :
    c.toLower = c := by
  unfold Char.toLower
  rw [if_neg h]

theorem toLower_idem (c : Char) : c.toLower.toLower = c.toLower := by
  by_cases h : c.toNat ≥ 65 ∧ c.toNat ≤ 90
  · have h1 : c.toLower = Char.ofNat (c.toNat + 32) := by
      unfold Char.toLower
      rw [if_pos h]
    have ht : (Char.ofNat (c.toNat + 32)).toNat = c.toNat + 32 :=
      toNat_ofNat_valid _ (Or.inl (by omega))
    rw [h1]
    apply toLower_fix
    rw [ht]
    omega
  · rw [toLower_fix h, toLower_fix h]

theorem pyLower_idem (l : List Char) : pyLower (pyLower l) = pyLower l := by
  unfold pyLower
  rw [List.map_map]
  exact List.map_congr_left (fun c _ => toLower_idem c)

theorem pyLower_take (l : List Char) (i : ℕ) :
    pyLower (l.take i) = (pyLower l).take i := by
  unfold pyLower
  rw [List.map_take]

theorem listLeB_refl : ∀ a : List Char, listLeB a a = true := by
  intro a
  induction a with
  | nil => rfl
  | cons x xs ih => simp [listLeB, lt_irrefl, ih]

theorem listLeB_total : ∀ a b : List Char,
    listLeB a b = true ∨ listLeB b a = true := by
  intro a
  induction a with
  | nil => exact fun b => Or.inl rfl
  | cons x xs ih =>
    intro b
    cases b with
    | nil => exact Or.inr rfl
    | cons y ys =>
      by_cases hxy : x < y
      · left
        simp [listLeB, hxy]
      · by_cases hyx : y < x
        · right
          simp [listLeB, hyx]
        · have hxe : x = y := le_antisymm (not_lt.mp hyx) (not_lt.mp hxy)
          subst hxe
          rcases ih ys with h | h
          · left
            simp [listLeB, lt_irrefl, h]
          · right
            simp [listLeB, lt_irrefl, h]

theorem listLeB_trans : ∀ {a b c : List Char}, listLeB a b = true →
    listLeB b c = true → listLeB a c = true := by
  intro a
  induction a with
  | nil => exact fun _ _ => rfl
  | cons x xs ih =>
    intro b c hab hbc
    cases b with
    | nil => simp [listLeB] at hab
    | cons y ys =>
      cases c with
      | nil => simp [listLeB] at hbc
      | cons z zs =>
        by_cases hxy : x < y
        · by_cases hyz : y < z
          · simp [listLeB, lt_trans hxy hyz]
          · by_cases hye : y = z
            · subst hye
              simp [listLeB, hxy]
            · simp [listLeB, hyz, hye] at hbc
        · by_cases hxe : x = y
          · subst hxe
            simp only [listLeB, lt_irrefl, if_false, if_pos rfl] at hab
            by_cases hxz : x < z
            · simp [listLeB, hxz]
            · by_cases hxez : x = z
              · subst hxez
                simp only [listLeB, lt_irrefl, if_false, if_pos rfl] at hbc
                simp [listLeB, lt_irrefl, ih hab hbc]
              · simp [listLeB, hxz, hxez] at hbc
          · simp [listLeB, hxy, hxe] at hab

instance : IsTotal (List Char) (fun a b => listLeB a b = true) :=
  ⟨listLeB_total⟩

instance : IsTrans (List Char) (fun a b => listLeB a b = true) :=
  ⟨fun _ _ _ => listLeB_trans⟩

instance : IsTotal (List Char × List (List Char))
    (fun a b => listLeB a.1 b.1 = true) :=
  ⟨fun a b => listLeB_total a.1 b.1⟩

instance : IsTrans (List Char × List (List Char))
    (fun a b => listLeB a.1 b.1 = true) :=
  ⟨fun _ _ _ => listLeB_trans⟩

theorem findChar_eq_none {c : Char} : ∀ {l : List Char}, c ∉ l →
    findChar c l = none := by
  intro l
  induction l with
  | nil => intro _; rfl
  | cons a t ih =>
    intro h
    have ha : ¬ a = c := fun hh => h (hh ▸ List.mem_cons_self a t)
    simp only [findChar, if_neg ha,
      ih (fun hm => h (List.mem_cons_of_mem a hm))]
    rfl

theorem findChar_append_not_mem {c : Char} : ∀ {l : List Char}, c ∉ l →
    ∀ r, findChar c (l ++ c :: r) = some l.length := by
  intro l
  induction l with
  | nil =>
    intro _ r
    simp [findChar]
  | cons a t ih =>
    intro h r
    have ha : ¬ a = c := fun hh => h (hh ▸ List.mem_cons_self a t)
    show findChar c (a :: (t ++ c :: r)) = some (a :: t).length
    simp only [findChar, if_neg ha]
    rw [ih (fun hm => h (List.mem_cons_of_mem a hm)) r]
    rfl

theorem findChar_take {c : Char} : ∀ {l : List Char} {i : ℕ},
    findChar c l = some i → c ∉ l.take i := by
  intro l
  induction l with
  | nil =>
    intro i h
    simp [findChar] at h
  | cons a t ih =>
    intro i h
    by_cases ha : a = c
    · simp only [findChar, if_pos ha] at h
      cases h
      simp
    · simp only [findChar, if_neg ha] at h
      cases hf : findChar c t with
      | none =>
        rw [hf] at h
        cases h
      | some j =>
        rw [hf, Option.map_some'] at h
        cases h
        intro hmem
        rcases List.mem_cons.mp hmem with hx | hx
        · exact ha hx.symm
        · exact ih hf hx

theorem splitOnceChar_none {c : Char} {l : List Char} (h : c ∉ l) :
    splitOnceChar c l = none := by
  unfold splitOnceChar
  rw [findChar_eq_none h]
  rfl

theorem splitOnceChar_append {c : Char} {l : List Char} (h : c ∉ l)
    (r : List Char) : splitOnceChar c (l ++ c :: r) = some (l, r) := by
  unfold splitOnceChar
  rw [findChar_append_not_mem h, Option.map_some']
  congr 1
  refine Prod.ext ?_ ?_
  · show (l ++ c :: r).take l.length = l
    exact List.take_left l (c :: r)
  · show (l ++ c :: r).drop (l.length + 1) = r
    have he : l ++ c :: r = (l ++ [c]) ++ r := by simp
    have hl : l.length + 1 = (l ++ [c]).length := by simp
    rw [he, hl]
    exact List.drop_left (l ++ [c]) r

theorem findIdx?_all_false {p : Char → Bool} :
    ∀ {l : List Char}, (∀ x ∈ l, p x = false) →
      ∀ i, List.findIdx? p l i = none := by
  intro l
  induction l with
  | nil => intro _ i; rfl
  | cons a t ih =>
    intro h i
    have ha := h a (List.mem_cons_self a t)
    simp only [List.findIdx?, ha, Bool.false_eq_true, if_false]
    exact ih (fun x hx => h x (List.mem_cons_of_mem a hx)) (i + 1)

theorem findIdx?_append_head {p : Char → Bool} {a : Char}
    (hpa : p a = true) :
    ∀ {n : List Char}, (∀ x ∈ n, p x = false) →
    ∀ (r : List Char) (i : ℕ),
      List.findIdx? p (n ++ a :: r) i = some (i + n.length) := by
  intro n
  induction n with
  | nil =>
    intro _ r i
    simp [List.findIdx?, hpa]
  | cons b t ih =>
    intro h r i
    have hb := h b (List.mem_cons_self b t)
    show List.findIdx? p (b :: (t ++ a :: r)) i = some (i + (b :: t).length)
    simp only [List.findIdx?, hb, Bool.false_eq_true, if_false]
    rw [ih (fun x hx => h x (List.mem_cons_of_mem b hx)) r (i + 1)]
    congr 1
    simp only [List.length_cons]
    omega

theorem splitNetloc_recover {n : List Char}
    (hn : ∀ x ∈ n, ¬ (x = '/' ∨ x = '?' ∨ x = '#')) :
    ∀ {p : List Char}, (p = [] ∨ p.head? = some '/') →
      splitNetloc (n ++ p) = (n, p) := by
  intro p hp
  unfold splitNetloc
  have hnf : ∀ x ∈ n, (decide (x = '/' ∨ x = '?' ∨ x = '#')) = false := by
    intro x hx
    simp only [decide_eq_false_iff_not]
    exact hn x hx
  rcases hp with hp | hp
  · subst hp
    rw [List.append_nil, findIdx?_all_false hnf 0]
  · cases p with
    | nil => cases hp
    | cons c0 pr =>
      have hc0 : c0 = '/' := by
        simp only [List.head?] at hp
        exact Option.some_injective _ hp
      subst hc0
      have hpa :
          (decide (('/' : Char) = '/' ∨ ('/' : Char) = '?'
            ∨ ('/' : Char) = '#')) = true := by decide
      rw [findIdx?_append_head hpa hnf pr 0]
      show ((n ++ '/' :: pr).take (0 + n.length),
        (n ++ '/' :: pr).drop (0 + n.length)) = (n, '/' :: pr)
      rw [Nat.zero_add, List.take_left, List.drop_left]

theorem intercalate_single (s a : List Char) :
    List.intercalate s [a] = a := by
  simp [List.intercalate, List.intersperse]

theorem intercalate_cons2 (s a b : List Char) (t : List (List Char)) :
    List.intercalate s (a :: b :: t) =
      a ++ s ++ List.intercalate s (b :: t) := by
  simp [List.intercalate, List.intersperse]

theorem splitAllChar_no_sep {c : Char} : ∀ {l : List Char}, c ∉ l →
    splitAllChar c l = [l] := by
  intro l
  induction l with
  | nil => intro _; rfl
  | cons a t ih =>
    intro h
    have ha : ¬ a = c := fun hh => h (hh ▸ List.mem_cons_self a t)
    have ht := ih (fun hm => h (List.mem_cons_of_mem a hm))
    simp only [splitAllChar, if_neg ha, ht]

theorem splitAllChar_append_sep {c : Char} : ∀ {l : List Char}, c ∉ l →
    ∀ r, splitAllChar c (l ++ c :: r) = l :: splitAllChar c r := by
  intro l
  induction l with
  | nil =>
    intro _ r
    simp [splitAllChar]
  | cons a t ih =>
    intro h r
    have ha : ¬ a = c := fun hh => h (hh ▸ List.mem_cons_self a t)
    show splitAllChar c (a :: (t ++ c :: r)) = (a :: t) :: splitAllChar c r
    simp only [splitAllChar, if_neg ha]
    rw [ih (fun hm => h (List.mem_cons_of_mem a hm)) r]

theorem splitAllChar_intercalate {c : Char} :
    ∀ {parts : List (List Char)}, parts ≠ [] →
      (∀ ch ∈ parts, c ∉ ch) →
      splitAllChar c (List.intercalate [c] parts) = parts := by
  intro parts
  induction parts with
  | nil => intro h _; cases h rfl
  | cons p ps ih =>
    intro _ hf
    cases ps with
    | nil =>
      rw [intercalate_single]
      exact splitAllChar_no_sep (hf p (List.mem_cons_self p []))
    | cons p2 ps2 =>
      rw [intercalate_cons2, List.append_assoc, List.singleton_append]
      rw [splitAllChar_append_sep (hf p (List.mem_cons_self p _)) _]
      rw [ih (by simp) (fun ch hch => hf ch (List.mem_cons_of_mem p hch))]

theorem splitAllChar_chars {c : Char} :
    ∀ {l : List Char} {ch : List Char}, ch ∈ splitAllChar c l →
      ∀ x ∈ ch, x ∈ l := by
  intro l
  induction l with
  | nil =>
    intro ch hch x hx
    simp only [splitAllChar] at hch
    rw [List.mem_singleton] at hch
    subst hch
    cases hx
  | cons a t ih =>
    intro ch hch x hx
    by_cases ha : a = c
    · simp only [splitAllChar, if_pos ha] at hch
      rcases List.mem_cons.mp hch with h1 | h1
      · subst h1
        cases hx
      · exact List.mem_cons_of_mem a (ih h1 x hx)
    · simp only [splitAllChar, if_neg ha] at hch
      cases hs : splitAllChar c t with
      | nil =>
        rw [hs] at hch
        rw [List.mem_singleton] at hch
        subst hch
        rw [List.mem_singleton] at hx
        rw [hx]
        exact List.mem_cons_self a t
      | cons h0 r0 =>
        rw [hs] at hch
        rcases List.mem_cons.mp hch with h1 | h1
        · subst h1
          rcases List.mem_cons.mp hx with h2 | h2
          · rw [h2]
            exact List.mem_cons_self a t
          · refine List.mem_cons_of_mem a (ih ?_ x h2)
            rw [hs]
            exact List.mem_cons_self h0 r0
        · refine List.mem_cons_of_mem a (ih ?_ x hx)
          rw [hs]
          exact List.mem_cons_of_mem h0 h1

theorem dropWhile_head?_false {p : Char → Bool} :
    ∀ {l : List Char} {a : Char}, (l.dropWhile p).head? = some a →
      p a = false := by
  intro l
  induction l with
  | nil => intro a h; cases h
  | cons x t ih =>
    intro a h
    rw [List.dropWhile_cons] at h
    by_cases hx : p x = true
    · rw [if_pos hx] at h
      exact ih h
    · rw [if_neg hx] at h
      cases h
      exact Bool.eq_false_iff.mpr hx

theorem rstripSlash_ends_false (l : List Char) :
    endsWithSlash (rstripSlash l) = false := by
  unfold endsWithSlash
  cases hg : (rstripSlash l).getLast? with
  | none => rfl
  | some c =>
    have hh : (l.reverse.dropWhile (fun c => decide (c = '/'))).head? =
        some c := by
      rw [← List.getLast?_reverse]
      exact hg
    have hc := dropWhile_head?_false hh
    simp only [decide_eq_false_iff_not] at hc
    simp [hc]

theorem rstripSlash_of_ends_false {l : List Char}
    (h : endsWithSlash l = false) : rstripSlash l = l := by
  unfold rstripSlash
  cases hl : l.reverse with
  | nil =>
    rw [List.reverse_eq_nil_iff] at hl
    subst hl
    rfl
  | cons a t =>
    have ha : l.getLast? = some a := by
      rw [← List.head?_reverse, hl]
      rfl
    have ha' : ¬ a = '/' := by
      unfold endsWithSlash at h
      rw [ha] at h
      simpa using h
    have hd : List.dropWhile (fun x => decide (x = '/')) (a :: t) =
        a :: t := by
      rw [List.dropWhile_cons]
      simp [ha']
    have hl' : l = (a :: t).reverse := by
      rw [← hl, List.reverse_reverse]
    rw [hd]
    exact hl'.symm

theorem rstripSlash_head {l : List Char} (hne : rstripSlash l ≠ [])
    (hh : l.head? = some '/') : (rstripSlash l).head? = some '/' := by
  unfold rstripSlash at hne ⊢
  rw [List.head?_reverse]
  obtain ⟨t, ht⟩ :=
    List.dropWhile_suffix (l := l.reverse) (p := fun c => decide (c = '/'))
  have hm : (l.reverse.dropWhile (fun c => decide (c = '/'))) ≠ [] := by
    intro hmm
    exact hne (by rw [hmm]; rfl)
  have h1 : (l.reverse.dropWhile (fun c => decide (c = '/'))).getLast? =
      (t ++ l.reverse.dropWhile (fun c => decide (c = '/'))).getLast? :=
    (List.getLast?_append_of_ne_nil _ hm).symm
  rw [h1, ht, List.getLast?_reverse]
  exact hh

theorem normPath_eq (p : List Char) : normPath p =
    if (if ¬ p = ['/'] ∧ endsWithSlash p then rstripSlash p else p) = []
    then ['/']
    else (if ¬ p = ['/'] ∧ endsWithSlash p then rstripSlash p else p) := rfl

theorem normPath_ne_nil (p : List Char) : normPath p ≠ [] := by
  rw [normPath_eq]
  by_cases h :
      (if ¬ p = ['/'] ∧ endsWithSlash p then rstripSlash p else p) = []
  · rw [if_pos h]
    simp
  · rw [if_neg h]
    exact h

theorem endsWithSlash_normPath (p : List Char) :
    normPath p = ['/'] ∨ endsWithSlash (normPath p) = false := by
  rw [normPath_eq]
  by_cases hcond : ¬ p = ['/'] ∧ endsWithSlash p = true
  · rw [if_pos hcond]
    by_cases h0 : rstripSlash p = []
    · rw [if_pos h0]
      exact Or.inl rfl
    · rw [if_neg h0]
      exact Or.inr (rstripSlash_ends_false p)
  · rw [if_neg hcond]
    by_cases h0 : p = []
    · rw [if_pos h0]
      exact Or.inl rfl
    · rw [if_neg h0]
      rcases not_and_or.mp hcond with h1 | h1
      · exact Or.inl (not_not.mp h1)
      · exact Or.inr (Bool.eq_false_iff.mpr h1)

theorem normPath_idem (p : List Char) :
    normPath (normPath p) = normPath p := by
  rcases endsWithSlash_normPath p with h | h
  · rw [h]
    rfl
  · rw [normPath_eq (normPath p)]
    have hc : ¬ (¬ normPath p = ['/'] ∧ endsWithSlash (normPath p) = true) := by
      intro hcc
      rw [h] at hcc
      cases hcc.2
    rw [if_neg hc, if_neg (normPath_ne_nil p)]

theorem normPath_head {p : List Char} (hp : p = [] ∨ p.head? = some '/') :
    (normPath p).head? = some '/' := by
  rcases hp with hp | hp
  · subst hp
    rfl
  · rw [normPath_eq]
    by_cases hcond : ¬ p = ['/'] ∧ endsWithSlash p = true
    · rw [if_pos hcond]
      by_cases h0 : rstripSlash p = []
      · rw [if_pos h0]
        rfl
      · rw [if_neg h0]
        exact rstripSlash_head h0 hp
    · rw [if_neg hcond]
      have hpn : ¬ p = [] := by
        intro h0
        subst h0
        cases hp
      rw [if_neg hpn]
      exact hp

theorem stripDefaultPort_eq_some {sc n : List Char} {i : ℕ}
    (hc : ':' ∈ n) (hf : findChar ':' n = some i) :
    stripDefaultPort sc n =
      if (sc = ("http").data ∧ n.drop (i + 1) = ("80").data)
         ∨ (sc = ("https").data ∧ n.drop (i + 1) = ("443").data)
      then n.take i else n := by
  unfold stripDefaultPort splitOnceChar
  rw [if_pos hc, hf, Option.map_some']

theorem stripDefaultPort_cases (sc n : List Char) :
    stripDefaultPort sc n = n ∨
    (∃ i, findChar ':' n = some i ∧ stripDefaultPort sc n = n.take i) := by
  by_cases hc : ':' ∈ n
  · cases hf : findChar ':' n with
    | none =>
      unfold stripDefaultPort splitOnceChar
      rw [if_pos hc, hf]
      exact Or.inl rfl
    | some i =>
      rw [stripDefaultPort_eq_some hc hf]
      by_cases hd : (sc = ("http").data ∧ n.drop (i + 1) = ("80").data)
          ∨ (sc = ("https").data ∧ n.drop (i + 1) = ("443").data)
      · rw [if_pos hd]
        exact Or.inr ⟨i, rfl, rfl⟩
      · rw [if_neg hd]
        exact Or.inl rfl
  · unfold stripDefaultPort
    rw [if_neg hc]
    exact Or.inl rfl

theorem stripDefaultPort_idem (sc n : List Char) :
    stripDefaultPort sc (stripDefaultPort sc n) = stripDefaultPort sc n := by
  rcases stripDefaultPort_cases sc n with h | ⟨i, hf, h⟩
  · rw [h]
    exact h
  · rw [h]
    have hni : ':' ∉ n.take i := findChar_take hf
    unfold stripDefaultPort
    rw [if_neg hni]

theorem stripDefaultPort_lowered {sc n : List Char} (hn : pyLower n = n) :
    pyLower (stripDefaultPort sc n) = stripDefaultPort sc n := by
  rcases stripDefaultPort_cases sc n with h | ⟨i, hf, h⟩
  · rw [h, hn]
  · rw [h, pyLower_take, hn]

theorem hexDigitUpper_toNat {n : ℕ} (h : n < 16) :
    (hexDigitUpper n).toNat = if n < 10 then 48 + n else 55 + n := by
  unfold hexDigitUpper
  by_cases h10 : n < 10
  · rw [if_pos h10, if_pos h10]
    exact toNat_ofNat_valid _ (Or.inl (by omega))
  · rw [if_neg h10, if_neg h10]
    exact toNat_ofNat_valid _ (Or.inl (by omega))

theorem hexDigitUpper_toNat_mem {n : ℕ} (h : n < 16) :
    (48 ≤ (hexDigitUpper n).toNat ∧ (hexDigitUpper n).toNat ≤ 57) ∨
    (65 ≤ (hexDigitUpper n).toNat ∧ (hexDigitUpper n).toNat ≤ 70) := by
  rw [hexDigitUpper_toNat h]
  by_cases h10 : n < 10
  · rw [if_pos h10]
    left
    omega
  · rw [if_neg h10]
    right
    omega

theorem quotePlusChar_classify {c c' : Char} (hc' : c' ∈ quotePlusChar c) :
    isAlwaysSafe c' = true ∨ c' = '+' ∨ c' = '%' ∨
    (∃ n, n < 16 ∧ c' = hexDigitUpper n) := by
  unfold quotePlusChar at hc'
  by_cases hs : isAlwaysSafe c = true
  · rw [if_pos hs] at hc'
    rw [List.mem_singleton] at hc'
    subst hc'
    exact Or.inl hs
  · rw [if_neg hs] at hc'
    by_cases hsp : c = ' '
    · rw [if_pos hsp] at hc'
      rw [List.mem_singleton] at hc'
      exact Or.inr (Or.inl hc')
    · rw [if_neg hsp] at hc'
      rcases List.mem_cons.mp hc' with h1 | h1
      · exact Or.inr (Or.inr (Or.inl h1))
      · rcases List.mem_cons.mp h1 with h2 | h2
        · exact Or.inr (Or.inr (Or.inr
            ⟨c.toNat / 16 % 16, Nat.mod_lt _ (by omega), h2⟩))
        · rw [List.mem_singleton] at h2
          exact Or.inr (Or.inr (Or.inr
            ⟨c.toNat % 16, Nat.mod_lt _ (by omega), h2⟩))

/-- The characters `quote_plus` emits are never URL delimiters. -/
theorem quotePlus_chars_ok {x : List Char} {c' : Char}
    (h : c' ∈ quotePlusL x) :
    ¬ (c' = '&' ∨ c' = '=' ∨ c' = '?' ∨ c' = '#' ∨ c' = ';' ∨ c' = '/' ∨
       c' = '\t' ∨ c' = '\r' ∨ c' = '\n') := by
  unfold quotePlusL at h
  rw [List.mem_flatten] at h
  obtain ⟨blk, hblk, hcb⟩ := h
  rw [List.mem_map] at hblk
  obtain ⟨c, _, hb⟩ := hblk
  subst hb
  rcases quotePlusChar_classify hcb with hs | h1 | h1 | ⟨n, hn, h1⟩
  · intro hbad
    rcases hbad with h | h | h | h | h | h | h | h | h <;>
      (subst h; exact absurd hs (by decide))
  · subst h1
    intro hbad
    rcases hbad with h | h | h | h | h | h | h | h | h <;>
      exact absurd h (by decide)
  · subst h1
    intro hbad
    rcases hbad with h | h | h | h | h | h | h | h | h <;>
      exact absurd h (by decide)
  · subst h1
    intro hbad
    have hm := hexDigitUpper_toNat_mem hn
    rcases hbad with h | h | h | h | h | h | h | h | h <;>
      (rw [h] at hm; revert hm; decide)

theorem quotePlusChar_ne_nil (c : Char) : quotePlusChar c ≠ [] := by
  unfold quotePlusChar
  by_cases hs : isAlwaysSafe c = true
  · rw [if_pos hs]
    simp
  · rw [if_neg hs]
    by_cases hsp : c = ' '
    · rw [if_pos hsp]
      simp
    · rw [if_neg hsp]
      simp

theorem quotePlusL_ne_nil {x : List Char} (h : x ≠ []) :
    quotePlusL x ≠ [] := by
  cases x with
  | nil => cases h rfl
  | cons c t =>
    unfold quotePlusL
    simp only [List.map_cons, List.flatten_cons]
    intro hh
    rcases List.append_eq_nil.mp hh with ⟨h1, _⟩
    exact quotePlusChar_ne_nil c h1

theorem unquoteL_cons_ne {c : Char} (hc : ¬ c = '%') (l : List Char) :
    unquoteL (c :: l) = c :: unquoteL l := by
  rw [unquoteL.eq_def]
  split
  · rename_i heq
    cases heq
  · rename_i c1 c2 rest2 heq
    injection heq with h1 _
    exact absurd h1 hc
  · rename_i c' rest heq hne
    injection hne with h1 h2
    rw [h1, h2]

theorem unquoteL_no_pct : ∀ {l : List Char}, '%' ∉ l → unquoteL l = l := by
  intro l
  induction l with
  | nil => intro _; rfl
  | cons c t ih =>
    intro h
    have hc : ¬ c = '%' := fun hh =>
      h (by rw [hh]; exact List.mem_cons_self _ _)
    rw [unquoteL_cons_ne hc, ih (fun hm => h (List.mem_cons_of_mem c hm))]

theorem char_le_iff (a b : Char) : a ≤ b ↔ a.toNat ≤ b.toNat := by
  rw [Char.le_def, UInt32.le_def, BitVec.le_def]
  rfl

theorem hexVal_hexDigitUpper {n : ℕ} (h : n < 16) :
    hexVal (hexDigitUpper n) = some n := by
  have ht := hexDigitUpper_toNat h
  have c0 : ('0' : Char).toNat = 48 := rfl
  have c9 : ('9' : Char).toNat = 57 := rfl
  have ca : ('a' : Char).toNat = 97 := rfl
  have cf : ('f' : Char).toNat = 102 := rfl
  have cA : ('A' : Char).toNat = 65 := rfl
  have cF : ('F' : Char).toNat = 70 := rfl
  unfold hexVal
  by_cases h10 : n < 10
  · rw [if_pos h10] at ht
    have hcond : '0' ≤ hexDigitUpper n ∧ hexDigitUpper n ≤ '9' := by
      rw [char_le_iff, char_le_iff, ht, c0, c9]
      omega
    rw [if_pos hcond, ht]
    congr 1
    omega
  · rw [if_neg h10] at ht
    have hcond1 : ¬ ('0' ≤ hexDigitUpper n ∧ hexDigitUpper n ≤ '9') := by
      rw [char_le_iff, char_le_iff, ht, c0, c9]
      omega
    have hcond2 : ¬ ('a' ≤ hexDigitUpper n ∧ hexDigitUpper n ≤ 'f') := by
      rw [char_le_iff, char_le_iff, ht, ca, cf]
      omega
    have hcond3 : 'A' ≤ hexDigitUpper n ∧ hexDigitUpper n ≤ 'F' := by
      rw [char_le_iff, char_le_iff, ht, cA, cF]
      omega
    rw [if_neg hcond1, if_neg hcond2, if_pos hcond3, ht]
    congr 1
    omega

theorem hexDigitUpper_ne_plus {n : ℕ} (h : n < 16) :
    ¬ hexDigitUpper n = '+' := by
  intro hh
  have hm := hexDigitUpper_toNat_mem h
  rw [hh] at hm
  revert hm
  decide

theorem unquotePlus_quotePlus_cons {c : Char} (hc : c.toNat < 128)
    (x : List Char) :
    unquoteL (plusToSpace (quotePlusChar c ++ x)) =
      c :: unquoteL (plusToSpace x) := by
  unfold quotePlusChar
  by_cases hs : isAlwaysSafe c = true
  · rw [if_pos hs]
    show unquoteL (plusToSpace (c :: x)) = c :: unquoteL (plusToSpace x)
    unfold plusToSpace
    rw [List.map_cons]
    have hplus : ¬ c = '+' := fun h => by
      subst h
      exact absurd hs (by decide)
    have hpct : ¬ c = '%' := fun h => by
      subst h
      exact absurd hs (by decide)
    rw [if_neg hplus]
    exact unquoteL_cons_ne hpct _
  · rw [if_neg hs]
    by_cases hsp : c = ' '
    · rw [if_pos hsp]
      show unquoteL (plusToSpace ('+' :: x)) = c :: unquoteL (plusToSpace x)
      unfold plusToSpace
      rw [List.map_cons, if_pos rfl,
        unquoteL_cons_ne (by decide : ¬ (' ' : Char) = '%') _, hsp]
    · rw [if_neg hsp]
      show unquoteL (plusToSpace ('%' :: hexDigitUpper (c.toNat / 16 % 16) ::
        hexDigitUpper (c.toNat % 16) :: x)) = c :: unquoteL (plusToSpace x)
      unfold plusToSpace
      simp only [List.map_cons]
      rw [if_neg (by decide : ¬ ('%' : Char) = '+'),
        if_neg (hexDigitUpper_ne_plus (Nat.mod_lt _ (by omega))),
        if_neg (hexDigitUpper_ne_plus (Nat.mod_lt _ (by omega)))]
      simp only [unquoteL]
      rw [hexVal_hexDigitUpper (Nat.mod_lt _ (by omega)),
        hexVal_hexDigitUpper (Nat.mod_lt _ (by omega))]
      have harith : 16 * (c.toNat / 16 % 16) + c.toNat % 16 = c.toNat := by
        omega
      show Char.ofNat (16 * (c.toNat / 16 % 16) + c.toNat % 16) ::
          unquoteL (List.map (fun a => if a = '+' then ' ' else a) x) =
        c :: unquoteL (List.map (fun a => if a = '+' then ' ' else a) x)
      rw [harith, Char.ofNat_toNat]

theorem unquotePlus_quotePlus : ∀ {x : List Char},
    (∀ c ∈ x, c.toNat < 128) → unquotePlusL (quotePlusL x) = x := by
  intro x
  induction x with
  | nil => intro _; rfl
  | cons c t ih =>
    intro hx
    show unquoteL (plusToSpace (quotePlusL (c :: t))) = c :: t
    have hq : quotePlusL (c :: t) = quotePlusChar c ++ quotePlusL t := by
      unfold quotePlusL
      rw [List.map_cons, List.flatten_cons]
    rw [hq, unquotePlus_quotePlus_cons (hx c (List.mem_cons_self c t))]
    have ih' : unquoteL (plusToSpace (quotePlusL t)) = t :=
      ih (fun a ha => hx a (List.mem_cons_of_mem c ha))
    rw [ih']

theorem parseQslL_eq (qs : List Char) : parseQslL qs =
    (if qs = [] then [] else splitAllChar '&' qs).foldr
      (fun chunk acc =>
        if chunk = [] then acc
        else match splitOnceChar '=' chunk with
          | none => acc
          | some nv =>
            if nv.2 = [] then acc
            else (unquotePlusL nv.1, unquotePlusL nv.2) :: acc) [] := rfl

theorem normQuery_eq (q : List Char) : normQuery q =
    if q = [] then []
    else List.intercalate ['&']
      ((sortedParamsOf q).map
        (fun p => p.2.map
          (fun v => quotePlusL p.1 ++ '=' :: quotePlusL v))).flatten := rfl

theorem dictGet_append_right {κ α : Type} [DecidableEq κ] :
    ∀ {acc : List (κ × α)} {k : κ}, k ∉ dictKeys acc →
      ∀ (tail : List (κ × α)), dictGet (acc ++ tail) k = dictGet tail k := by
  intro acc
  induction acc with
  | nil => intro k _ tail; rfl
  | cons p t ih =>
    intro k h tail
    have hp : ¬ p.1 = k := fun hh =>
      h (by rw [← hh]; exact List.mem_map_of_mem _ (List.mem_cons_self p t))
    show dictGet (p :: (t ++ tail)) k = dictGet tail k
    simp only [dictGet, if_neg hp]
    exact ih (fun hm => h (List.mem_cons_of_mem _ hm)) tail

theorem dictSet_append_last {κ α : Type} [DecidableEq κ] :
    ∀ {acc : List (κ × α)} {k : κ}, k ∉ dictKeys acc →
      ∀ (v v' : α), dictSet (acc ++ [(k, v)]) k v' = acc ++ [(k, v')] := by
  intro acc
  induction acc with
  | nil =>
    intro k _ v v'
    simp [dictSet]
  | cons p t ih =>
    intro k h v v'
    have hp : ¬ p.1 = k := fun hh =>
      h (by rw [← hh]; exact List.mem_map_of_mem _ (List.mem_cons_self p t))
    show dictSet (p :: (t ++ [(k, v)])) k v' = p :: (t ++ [(k, v')])
    simp only [dictSet, if_neg hp]
    rw [ih (fun hm => h (List.mem_cons_of_mem _ hm)) v v']

theorem dictGet_none_not_mem_keys {κ α : Type} [DecidableEq κ] :
    ∀ {d : List (κ × α)} {k : κ}, dictGet d k = none → k ∉ dictKeys d := by
  intro d
  induction d with
  | nil => intro k _ hm; cases hm
  | cons p t ih =>
    intro k h hm
    by_cases hp : p.1 = k
    · simp only [dictGet, if_pos hp] at h
      cases h
    · simp only [dictGet, if_neg hp] at h
      rcases List.mem_cons.mp hm with h1 | h1
      · exact hp h1.symm
      · exact ih h h1

theorem mem_dictSet {κ α : Type} [DecidableEq κ] :
    ∀ {d : List (κ × α)} {k : κ} {v : α} {g : κ × α},
      g ∈ dictSet d k v → g ∈ d ∨ g = (k, v) := by
  intro d
  induction d with
  | nil =>
    intro k v g hg
    simp only [dictSet] at hg
    rw [List.mem_singleton] at hg
    exact Or.inr hg
  | cons p t ih =>
    intro k v g hg
    by_cases hp : p.1 = k
    · simp only [dictSet, if_pos hp] at hg
      rcases List.mem_cons.mp hg with h1 | h1
      · exact Or.inr h1
      · exact Or.inl (List.mem_cons_of_mem p h1)
    · simp only [dictSet, if_neg hp] at hg
      rcases List.mem_cons.mp hg with h1 | h1
      · exact Or.inl (by rw [h1]; exact List.mem_cons_self p t)
      · rcases ih h1 with h2 | h2
        · exact Or.inl (List.mem_cons_of_mem p h2)
        · exact Or.inr h2

theorem map_id_of_mem {α : Type} {f : α → α} :
    ∀ {l : List α}, (∀ x ∈ l, f x = x) → l.map f = l := by
  intro l
  induction l with
  | nil => intro _; rfl
  | cons a t ih =>
    intro h
    rw [List.map_cons, h a (List.mem_cons_self a t),
      ih (fun x hx => h x (List.mem_cons_of_mem a hx))]

theorem intercalate_ne_nil {s : List Char} {parts : List (List Char)}
    (h1 : parts ≠ []) (h2 : ∀ ch ∈ parts, ch ≠ []) :
    List.intercalate s parts ≠ [] := by
  cases parts with
  | nil => cases h1 rfl
  | cons p t =>
    cases t with
    | nil =>
      rw [intercalate_single]
      exact h2 p (List.mem_cons_self p [])
    | cons p2 t2 =>
      rw [intercalate_cons2]
      intro hh
      rcases List.append_eq_nil.mp (List.append_eq_nil.mp hh).1 with ⟨hp, _⟩
      exact h2 p (List.mem_cons_self p _) hp

theorem unquotePlusL_ascii {l : List Char}
    (h : ∀ c ∈ l, c.toNat < 128 ∧ ¬ c = '%') :
    ∀ c ∈ unquotePlusL l, c.toNat < 128 := by
  unfold unquotePlusL
  have hps : '%' ∉ plusToSpace l := by
    intro hm
    unfold plusToSpace at hm
    rw [List.mem_map] at hm
    obtain ⟨a, ha, hae⟩ := hm
    by_cases hap : a = '+'
    · rw [if_pos hap] at hae
      exact absurd hae (by decide)
    · rw [if_neg hap] at hae
      exact (h a ha).2 hae
  rw [unquoteL_no_pct hps]
  intro c hc
  unfold plusToSpace at hc
  rw [List.mem_map] at hc
  obtain ⟨a, ha, hae⟩ := hc
  by_cases hap : a = '+'
  · rw [if_pos hap] at hae
    rw [← hae]
    decide
  · rw [if_neg hap] at hae
    rw [← hae]
    exact (h a ha).1

theorem unquotePlusL_ne_nil {l : List Char} (h : l ≠ [])
    (hp : ∀ c ∈ l, ¬ c = '%') : unquotePlusL l ≠ [] := by
  unfold unquotePlusL
  have hps : '%' ∉ plusToSpace l := by
    intro hm
    unfold plusToSpace at hm
    rw [List.mem_map] at hm
    obtain ⟨a, ha, hae⟩ := hm
    by_cases hap : a = '+'
    · rw [if_pos hap] at hae
      exact absurd hae (by decide)
    · rw [if_neg hap] at hae
      exact hp a ha hae
  rw [unquoteL_no_pct hps]
  unfold plusToSpace
  cases l with
  | nil => cases h rfl
  | cons a t =>
    rw [List.map_cons]
    exact List.cons_ne_nil _ _

/-- Every pair produced by `parse_qsl` on an ASCII, percent-free query has
ASCII components and a nonempty value. -/
theorem parseQslL_ok {q : List Char}
    (hq : ∀ c ∈ q, c.toNat < 128 ∧ ¬ c = '%') :
    ∀ nv ∈ parseQslL q, (∀ c ∈ nv.1, c.toNat < 128) ∧
      (∀ c ∈ nv.2, c.toNat < 128) ∧ nv.2 ≠ [] := by
  rw [parseQslL_eq]
  by_cases h0 : q = []
  · rw [if_pos h0]
    intro nv hnv
    cases hnv
  · rw [if_neg h0]
    have hch : ∀ ch ∈ splitAllChar '&' q, ∀ x ∈ ch, x ∈ q :=
      fun ch hc x hx => splitAllChar_chars hc x hx
    revert hch
    generalize splitAllChar '&' q = chunks
    induction chunks with
    | nil =>
      intro _ nv hnv
      cases hnv
    | cons ch rest ih =>
      intro hch nv hnv
      rw [List.foldr_cons] at hnv
      by_cases hce : ch = []
      · rw [if_pos hce] at hnv
        exact ih (fun c hc => hch c (List.mem_cons_of_mem ch hc)) nv hnv
      · rw [if_neg hce] at hnv
        cases hsp : splitOnceChar '=' ch with
        | none =>
          rw [hsp] at hnv
          exact ih (fun c hc => hch c (List.mem_cons_of_mem ch hc)) nv hnv
        | some p =>
          rw [hsp] at hnv
          dsimp only at hnv
          by_cases hv0 : p.2 = []
          · rw [if_pos hv0] at hnv
            exact ih (fun c hc => hch c (List.mem_cons_of_mem ch hc)) nv hnv
          · rw [if_neg hv0] at hnv
            rcases List.mem_cons.mp hnv with h1 | h1
            · subst h1
              obtain ⟨i, hfi, hp⟩ : ∃ i, findChar '=' ch = some i ∧
                  p = (ch.take i, ch.drop (i + 1)) := by
                unfold splitOnceChar at hsp
                cases hf : findChar '=' ch with
                | none =>
                  rw [hf] at hsp
                  cases hsp
                | some i =>
                  rw [hf, Option.map_some'] at hsp
                  cases hsp
                  exact ⟨i, rfl, rfl⟩
              have hchq := hch ch (List.mem_cons_self ch rest)
              have h1q : ∀ x ∈ p.1, x.toNat < 128 ∧ ¬ x = '%' := by
                rw [hp]
                exact fun x hx => hq x (hchq x (List.mem_of_mem_take hx))
              have h2q : ∀ x ∈ p.2, x.toNat < 128 ∧ ¬ x = '%' := by
                rw [hp]
                exact fun x hx => hq x (hchq x (List.mem_of_mem_drop hx))
              exact ⟨unquotePlusL_ascii h1q, unquotePlusL_ascii h2q,
                unquotePlusL_ne_nil hv0 (fun c hc => (h2q c hc).2)⟩
            · exact ih (fun c hc => hch c (List.mem_cons_of_mem ch hc)) nv h1

theorem qsStep_some {d : List (List Char × List (List Char))}
    {nv : List Char × List Char} {vs : List (List Char)}
    (h : dictGet d nv.1 = some vs) :
    qsStep d nv = dictSet d nv.1 (vs ++ [nv.2]) := by
  unfold qsStep
  rw [h]

theorem qsStep_none {d : List (List Char × List (List Char))}
    {nv : List Char × List Char} (h : dictGet d nv.1 = none) :
    qsStep d nv = d ++ [(nv.1, [nv.2])] := by
  unfold qsStep
  rw [h]

theorem groupFold_values {k : List Char} :
    ∀ (vs : List (List Char)) (acc : List (List Char × List (List Char)))
      (l0 : List (List Char)), k ∉ dictKeys acc →
      (vs.map (fun v => (k, v))).foldl qsStep (acc ++ [(k, l0)]) =
      acc ++ [(k, l0 ++ vs)] := by
  intro vs
  induction vs with
  | nil =>
    intro acc l0 _
    simp
  | cons v t ih =>
    intro acc l0 hk
    rw [List.map_cons, List.foldl_cons]
    have hget : dictGet (acc ++ [(k, l0)]) k = some l0 := by
      rw [dictGet_append_right hk]
      simp [dictGet]
    rw [qsStep_some hget, dictSet_append_last hk, ih acc (l0 ++ [v]) hk]
    simp [List.append_assoc]

theorem groupFold_groups :
    ∀ (groups acc : List (List Char × List (List Char))),
      (dictKeys (acc ++ groups)).Nodup →
      (∀ g ∈ groups, g.2 ≠ []) →
      ((groups.map (fun g => g.2.map (fun v => (g.1, v)))).flatten).foldl
        qsStep acc = acc ++ groups := by
  intro groups
  induction groups with
  | nil =>
    intro acc _ _
    simp
  | cons g gs ih =>
    intro acc hnd hvs
    rw [List.map_cons, List.flatten_cons, List.foldl_append]
    obtain ⟨v0, vt, hg2⟩ : ∃ v0 vt, g.2 = v0 :: vt := by
      cases hgg : g.2 with
      | nil => exact absurd hgg (hvs g (List.mem_cons_self g gs))
      | cons a b => exact ⟨a, b, rfl⟩
    have hkdisj : g.1 ∉ dictKeys acc := by
      have hsplit : dictKeys (acc ++ g :: gs) =
          dictKeys acc ++ dictKeys (g :: gs) := by
        unfold dictKeys
        rw [List.map_append]
      rw [hsplit] at hnd
      have hdis := (List.nodup_append.mp hnd).2.2
      intro hmem
      exact hdis hmem (List.mem_map_of_mem _ (List.mem_cons_self g gs))
    rw [hg2, List.map_cons, List.foldl_cons,
      qsStep_none (dictGet_eq_none_of_not_mem hkdisj),
      groupFold_values vt acc [v0] hkdisj]
    have hgeq : (g.1, ([v0] ++ vt : List (List Char))) = g := by
      rw [show ([v0] ++ vt : List (List Char)) = v0 :: vt from rfl, ← hg2]
    rw [hgeq]
    have hnd' : (dictKeys ((acc ++ [g]) ++ gs)).Nodup := by
      rw [List.append_assoc]
      exact hnd
    rw [ih (acc ++ [g]) hnd'
      (fun g' hg' => hvs g' (List.mem_cons_of_mem g hg'))]
    rw [List.append_assoc]
    rfl

theorem qsStep_keys_nodup {d : List (List Char × List (List Char))}
    (h : (dictKeys d).Nodup) (nv : List Char × List Char) :
    (dictKeys (qsStep d nv)).Nodup := by
  unfold qsStep
  cases hg : dictGet d nv.1 with
  | some vs => exact dictKeys_nodup_dictSet _ _ h
  | none =>
    have hk := dictGet_none_not_mem_keys hg
    have hsplit : dictKeys (d ++ [(nv.1, [nv.2])]) =
        dictKeys d ++ [nv.1] := by
      unfold dictKeys
      rw [List.map_append]
      rfl
    rw [hsplit]
    exact List.Nodup.append h (List.nodup_singleton _)
      (fun a ha hak => hk ((List.mem_singleton.mp hak) ▸ ha))

theorem parseQsL_keys_nodup (q : List Char) :
    (dictKeys (parseQsL q)).Nodup := by
  show (dictKeys ((parseQslL q).foldl qsStep [])).Nodup
  exact foldl_preserve (P := fun d => (dictKeys d).Nodup)
    (fun d nv hd => qsStep_keys_nodup hd nv) _ _ List.nodup_nil

theorem qsStep_ok {d : List (List Char × List (List Char))}
    {nv : List Char × List Char}
    (hd : ∀ g ∈ d, (∀ c ∈ g.1, c.toNat < 128) ∧
      (∀ v ∈ g.2, (∀ c ∈ v, c.toNat < 128) ∧ v ≠ []) ∧ g.2 ≠ [])
    (hnv : (∀ c ∈ nv.1, c.toNat < 128) ∧
      (∀ c ∈ nv.2, c.toNat < 128) ∧ nv.2 ≠ []) :
    ∀ g ∈ qsStep d nv, (∀ c ∈ g.1, c.toNat < 128) ∧
      (∀ v ∈ g.2, (∀ c ∈ v, c.toNat < 128) ∧ v ≠ []) ∧ g.2 ≠ [] := by
  unfold qsStep
  cases hg : dictGet d nv.1 with
  | some vs =>
    intro g hgm
    rcases mem_dictSet hgm with h1 | h1
    · exact hd g h1
    · subst h1
      refine ⟨(hd _ (mem_of_dictGet hg)).1, ?_, by simp⟩
      intro v hv
      rcases List.mem_append.mp hv with h2 | h2
      · exact (hd _ (mem_of_dictGet hg)).2.1 v h2
      · rw [List.mem_singleton] at h2
        subst h2
        exact ⟨hnv.2.1, hnv.2.2⟩
  | none =>
    intro g hgm
    rcases List.mem_append.mp hgm with h1 | h1
    · exact hd g h1
    · rw [List.mem_singleton] at h1
      subst h1
      refine ⟨hnv.1, ?_, by simp⟩
      intro v hv
      rw [List.mem_singleton] at hv
      subst hv
      exact ⟨hnv.2.1, hnv.2.2⟩

theorem parseQsL_ok {q : List Char}
    (hq : ∀ c ∈ q, c.toNat < 128 ∧ ¬ c = '%') :
    ∀ g ∈ parseQsL q, (∀ c ∈ g.1, c.toNat < 128) ∧
      (∀ v ∈ g.2, (∀ c ∈ v, c.toNat < 128) ∧ v ≠ []) ∧ g.2 ≠ [] := by
  show ∀ g ∈ (parseQslL q).foldl qsStep [], _
  have hpairs := parseQslL_ok hq
  revert hpairs
  generalize parseQslL q = pairs
  intro hpairs
  have hgen : ∀ (ps : List (List Char × List Char))
      (acc : List (List Char × List (List Char))),
      (∀ nv ∈ ps, (∀ c ∈ nv.1, c.toNat < 128) ∧
        (∀ c ∈ nv.2, c.toNat < 128) ∧ nv.2 ≠ []) →
      (∀ g ∈ acc, (∀ c ∈ g.1, c.toNat < 128) ∧
        (∀ v ∈ g.2, (∀ c ∈ v, c.toNat < 128) ∧ v ≠ []) ∧ g.2 ≠ []) →
      ∀ g ∈ ps.foldl qsStep acc, (∀ c ∈ g.1, c.toNat < 128) ∧
        (∀ v ∈ g.2, (∀ c ∈ v, c.toNat < 128) ∧ v ≠ []) ∧ g.2 ≠ [] := by
    intro ps
    induction ps with
    | nil => exact fun acc _ hacc => hacc
    | cons nv t ih =>
      intro acc hps hacc
      rw [List.foldl_cons]
      exact ih _ (fun a ha => hps a (List.mem_cons_of_mem nv ha))
        (qsStep_ok hacc (hps nv (List.mem_cons_self nv t)))
  exact hgen pairs [] hpairs (fun g hg => absurd hg (List.not_mem_nil g))

theorem parts_eq_flatMap (sp : List (List Char × List (List Char))) :
    (sp.map (fun p => p.2.map
      (fun v => quotePlusL p.1 ++ '=' :: quotePlusL v))).flatten =
    ((sp.map (fun g => g.2.map (fun v => (g.1, v)))).flatten).map
      (fun nv => quotePlusL nv.1 ++ '=' :: quotePlusL nv.2) := by
  induction sp with
  | nil => rfl
  | cons p t ih =>
    simp only [List.map_cons, List.flatten_cons, List.map_append]
    rw [ih, List.map_map]
    congr 1

theorem foldr_encoded :
    ∀ {fp : List (List Char × List Char)},
      (∀ nv ∈ fp, (∀ c ∈ nv.1, c.toNat < 128) ∧
        (∀ c ∈ nv.2, c.toNat < 128) ∧ nv.2 ≠ []) →
      (fp.map (fun nv => quotePlusL nv.1 ++ '=' :: quotePlusL nv.2)).foldr
        (fun chunk acc =>
          if chunk = [] then acc
          else match splitOnceChar '=' chunk with
            | none => acc
            | some nv =>
              if nv.2 = [] then acc
              else (unquotePlusL nv.1, unquotePlusL nv.2) :: acc) [] = fp := by
  intro fp
  induction fp with
  | nil => intro _; rfl
  | cons nv t ih =>
    intro hok
    rw [List.map_cons, List.foldr_cons]
    have hne : quotePlusL nv.1 ++ '=' :: quotePlusL nv.2 ≠ [] := by
      intro hh
      rcases List.append_eq_nil.mp hh with ⟨_, h2⟩
      cases h2
    rw [if_neg hne]
    have hnomem : '=' ∉ quotePlusL nv.1 :=
      fun hm => quotePlus_chars_ok hm (Or.inr (Or.inl rfl))
    rw [splitOnceChar_append hnomem]
    dsimp only
    have hv : quotePlusL nv.2 ≠ [] :=
      quotePlusL_ne_nil (hok nv (List.mem_cons_self nv t)).2.2
    rw [if_neg hv]
    have hk := unquotePlus_quotePlus (hok nv (List.mem_cons_self nv t)).1
    have hv2 := unquotePlus_quotePlus (hok nv (List.mem_cons_self nv t)).2.1
    rw [hk, hv2, ih (fun a ha => hok a (List.mem_cons_of_mem nv ha))]

theorem parseQslL_intercalate_encoded
    {fp : List (List Char × List Char)} (hne : ¬ fp = [])
    (hok : ∀ nv ∈ fp, (∀ c ∈ nv.1, c.toNat < 128) ∧
      (∀ c ∈ nv.2, c.toNat < 128) ∧ nv.2 ≠ []) :
    parseQslL (List.intercalate ['&']
      (fp.map (fun nv => quotePlusL nv.1 ++ '=' :: quotePlusL nv.2))) =
      fp := by
  have hchunksne : fp.map
      (fun nv => quotePlusL nv.1 ++ '=' :: quotePlusL nv.2) ≠ [] := by
    intro hh
    exact hne (List.map_eq_nil_iff.mp hh)
  have hchunkne : ∀ ch ∈ fp.map
      (fun nv => quotePlusL nv.1 ++ '=' :: quotePlusL nv.2), ch ≠ [] := by
    intro ch hch
    rcases List.mem_map.mp hch with ⟨nv, _, hnv⟩
    rw [← hnv]
    intro hh
    rcases List.append_eq_nil.mp hh with ⟨_, h2⟩
    cases h2
  have hampfree : ∀ ch ∈ fp.map
      (fun nv => quotePlusL nv.1 ++ '=' :: quotePlusL nv.2),
      '&' ∉ ch := by
    intro ch hch hmem
    rcases List.mem_map.mp hch with ⟨nv, _, hnv⟩
    rw [← hnv] at hmem
    rcases List.mem_append.mp hmem with h1 | h1
    · exact quotePlus_chars_ok h1 (Or.inl rfl)
    · rcases List.mem_cons.mp h1 with h2 | h2
      · exact absurd h2 (by decide)
      · exact quotePlus_chars_ok h2 (Or.inl rfl)
  rw [parseQslL_eq, if_neg (intercalate_ne_nil hchunksne hchunkne),
    splitAllChar_intercalate hchunksne hampfree]
  exact foldr_encoded hok

theorem sortedParamsOf_ok {q : List Char}
    (hq : ∀ c ∈ q, c.toNat < 128 ∧ ¬ c = '%') :
    ∀ g ∈ sortedParamsOf q, (∀ c ∈ g.1, c.toNat < 128) ∧
      (∀ v ∈ g.2, (∀ c ∈ v, c.toNat < 128) ∧ v ≠ []) ∧ g.2 ≠ [] := by
  intro g hg
  unfold sortedParamsOf at hg
  rcases List.mem_map.mp hg with ⟨p0, hp0, hg0⟩
  have hok := parseQsL_ok hq p0 ((List.mem_insertionSort _).mp hp0)
  subst hg0
  refine ⟨hok.1, ?_, ?_⟩
  · intro v hv
    have hv' : v ∈ List.insertionSort (fun a b => listLeB a b = true)
        p0.2 := hv
    exact hok.2.1 v ((List.mem_insertionSort _).mp hv')
  · intro hnil
    have hnil' : List.insertionSort (fun a b => listLeB a b = true)
        p0.2 = [] := hnil
    have hperm :=
      List.perm_insertionSort (fun a b => listLeB a b = true) p0.2
    rw [hnil'] at hperm
    exact hok.2.2 hperm.symm.eq_nil

theorem sortedParamsOf_keys_nodup (q : List Char) :
    (dictKeys (sortedParamsOf q)).Nodup := by
  unfold sortedParamsOf
  have hkeys : dictKeys
      ((List.insertionSort (fun a b => listLeB a.1 b.1 = true)
        (parseQsL q)).map
       (fun p => (p.1,
         List.insertionSort (fun a b => listLeB a b = true) p.2))) =
      dictKeys (List.insertionSort (fun a b => listLeB a.1 b.1 = true)
        (parseQsL q)) := by
    unfold dictKeys
    rw [List.map_map]
    exact List.map_congr_left (fun p _ => rfl)
  rw [hkeys]
  have hperm := (List.perm_insertionSort
    (fun a b => listLeB a.1 b.1 = true) (parseQsL q)).map (fun p => p.1)
  exact (hperm.nodup_iff).mpr (parseQsL_keys_nodup q)

theorem sortedParamsOf_sorted (q : List Char) :
    List.Sorted (fun a b => listLeB a.1 b.1 = true) (sortedParamsOf q) := by
  unfold sortedParamsOf
  exact List.Pairwise.map _
    (fun a b (hab : listLeB a.1 b.1 = true) => hab)
    (List.sorted_insertionSort _ (parseQsL q))

theorem mem_intercalate {s : List Char} {c : Char} :
    ∀ {parts : List (List Char)}, c ∈ List.intercalate s parts →
      c ∈ s ∨ ∃ ch ∈ parts, c ∈ ch := by
  intro parts
  induction parts with
  | nil =>
    intro h
    simp [List.intercalate, List.intersperse] at h
  | cons p t ih =>
    intro h
    cases t with
    | nil =>
      rw [intercalate_single] at h
      exact Or.inr ⟨p, List.mem_cons_self p [], h⟩
    | cons p2 t2 =>
      rw [intercalate_cons2] at h
      rcases List.mem_append.mp h with h1 | h1
      · rcases List.mem_append.mp h1 with h2 | h2
        · exact Or.inr ⟨p, List.mem_cons_self p _, h2⟩
        · exact Or.inl h2
      · rcases ih h1 with h2 | ⟨ch, hch, hc⟩
        · exact Or.inl h2
        · exact Or.inr ⟨ch, List.mem_cons_of_mem p hch, hc⟩

/-- The characters of a `normQuery` output are never URL delimiters other
than `&` and `=`. -/
theorem normQuery_chars {q : List Char} {c : Char} (h : c ∈ normQuery q) :
    ¬ (c = '?' ∨ c = '#' ∨ c = ';' ∨ c = '\t' ∨ c = '\r' ∨ c = '\n') := by
  rw [normQuery_eq] at h
  by_cases h0 : q = []
  · rw [if_pos h0] at h
    cases h
  · rw [if_neg h0] at h
    rcases mem_intercalate h with h1 | ⟨ch, hch, hc⟩
    · rw [List.mem_singleton] at h1
      subst h1
      decide
    · rw [List.mem_flatten] at hch
      obtain ⟨blk, hblk, hchm⟩ := hch
      rw [List.mem_map] at hblk
      obtain ⟨g, _, hge⟩ := hblk
      subst hge
      rw [List.mem_map] at hchm
      obtain ⟨v, _, hve⟩ := hchm
      subst hve
      rcases List.mem_append.mp hc with h2 | h2
      · intro hbad
        apply quotePlus_chars_ok h2
        rcases hbad with h | h | h | h | h | h <;> (subst h; simp)
      · rcases List.mem_cons.mp h2 with h3 | h3
        · subst h3
          decide
        · intro hbad
          apply quotePlus_chars_ok h3
          rcases hbad with h | h | h | h | h | h <;> (subst h; simp)

theorem flatPairs_ok {SP : List (List Char × List (List Char))}
    (hOK : ∀ g ∈ SP, (∀ c ∈ g.1, c.toNat < 128) ∧
      (∀ v ∈ g.2, (∀ c ∈ v, c.toNat < 128) ∧ v ≠ []) ∧ g.2 ≠ []) :
    ∀ nv ∈ (SP.map (fun g => g.2.map (fun v => (g.1, v)))).flatten,
      (∀ c ∈ nv.1, c.toNat < 128) ∧
      (∀ c ∈ nv.2, c.toNat < 128) ∧ nv.2 ≠ [] := by
  intro nv hnv
  rw [List.mem_flatten] at hnv
  obtain ⟨blk, hblk, hnvm⟩ := hnv
  rw [List.mem_map] at hblk
  obtain ⟨g, hg, hge⟩ := hblk
  subst hge
  rw [List.mem_map] at hnvm
  obtain ⟨v, hv, hnve⟩ := hnvm
  subst hnve
  exact ⟨(hOK g hg).1, ((hOK g hg).2.1 v hv).1, ((hOK g hg).2.1 v hv).2⟩

/-- The query rewrite of `normalize_url` is idempotent on ASCII,
percent-free query strings. -/
theorem normQuery_idem {q : List Char}
    (hq : ∀ c ∈ q, c.toNat < 128 ∧ ¬ c = '%') :
    normQuery (normQuery q) = normQuery q := by
  by_cases h0 : q = []
  · subst h0
    rfl
  rw [normQuery_eq q, if_neg h0, parts_eq_flatMap (sortedParamsOf q)]
  by_cases hfp0 : ((sortedParamsOf q).map
      (fun g => g.2.map (fun v => (g.1, v)))).flatten = []
  · rw [hfp0]
    rfl
  · set SP := sortedParamsOf q with hSPdef
    set fp := (SP.map (fun g => g.2.map (fun v => (g.1, v)))).flatten
      with hfpdef
    set Q := List.intercalate ['&']
      (fp.map (fun nv => quotePlusL nv.1 ++ '=' :: quotePlusL nv.2))
      with hQdef
    have hOK := sortedParamsOf_ok hq
    have hfpok := flatPairs_ok hOK
    have hQne : Q ≠ [] := by
      rw [hQdef]
      apply intercalate_ne_nil
      · intro hh
        exact hfp0 (List.map_eq_nil_iff.mp hh)
      · intro ch hch
        rcases List.mem_map.mp hch with ⟨nv, _, hnv⟩
        rw [← hnv]
        intro hh
        rcases List.append_eq_nil.mp hh with ⟨_, h2⟩
        cases h2
    have hQsl : parseQslL Q = fp := by
      rw [hQdef]
      exact parseQslL_intercalate_encoded hfp0 hfpok
    have hQs : parseQsL Q = SP := by
      show (parseQslL Q).foldl qsStep [] = SP
      rw [hQsl, hfpdef]
      have hg := groupFold_groups SP [] (sortedParamsOf_keys_nodup q)
        (fun g hg => (hOK g hg).2.2)
      simpa using hg
    have hSPQ : sortedParamsOf Q = SP := by
      unfold sortedParamsOf
      rw [hQs]
      rw [List.Sorted.insertionSort_eq (sortedParamsOf_sorted q)]
      apply map_id_of_mem
      intro p hp
      unfold sortedParamsOf at hp
      rcases List.mem_map.mp hp with ⟨p0, _, hp0⟩
      rw [← hp0]
      show (p0.1, List.insertionSort (fun a b => listLeB a b = true)
          (List.insertionSort (fun a b => listLeB a b = true) p0.2)) =
        (p0.1, List.insertionSort (fun a b => listLeB a b = true) p0.2)
      rw [List.Sorted.insertionSort_eq
        (List.sorted_insertionSort (fun a b => listLeB a b = true) p0.2)]
    rw [normQuery_eq Q, if_neg hQne, hSPQ, parts_eq_flatMap SP, ← hfpdef,
      ← hQdef]

theorem filter_clean {u : List Char}
    (h : ∀ c ∈ u, ¬ (c = '\t' ∨ c = '\r' ∨ c = '\n')) :
    u.filter (fun c => ¬ (c = '\t' ∨ c = '\r' ∨ c = '\n')) = u := by
  rw [List.filter_eq_self]
  intro a ha
  exact decide_eq_true (h a ha)

theorem head?_append_left {p : List Char} (h : p ≠ []) (x : List Char) :
    (p ++ x).head? = p.head? := by
  cases p with
  | nil => cases h rfl
  | cons a t => rfl

theorem drop_length_succ_append (l : List Char) (c : Char) (r : List Char) :
    (l ++ c :: r).drop (l.length + 1) = r := by
  have he : l ++ c :: r = (l ++ [c]) ++ r := by simp
  have hl : l.length + 1 = (l ++ [c]).length := by simp
  rw [he, hl]
  exact List.drop_left (l ++ [c]) r

/-- The scheme split recognises a well-formed scheme prefix. -/
theorem splitScheme_recover {c0 : Char} {sct : List Char} (r : List Char)
    (hcolon : ':' ∉ c0 :: sct) (hal : isAsciiAlpha c0 = true)
    (hall : sct.all isSchemeChar = true) :
    splitScheme ((c0 :: sct) ++ ':' :: r) = (pyLower (c0 :: sct), r) := by
  unfold splitScheme
  rw [findChar_append_not_mem hcolon]
  dsimp only
  have hcond : (decide (0 < (c0 :: sct).length) &&
      (match ((c0 :: sct) ++ ':' :: r).head? with
       | some c => isAsciiAlpha c
       | none => false) &&
      ((((c0 :: sct) ++ ':' :: r).take (c0 :: sct).length).drop 1).all
        isSchemeChar) = true := by
    rw [List.take_left]
    have h0 : decide (0 < (c0 :: sct).length) = true := by
      rw [decide_eq_true_eq]
      simp
    show (decide (0 < (c0 :: sct).length) && isAsciiAlpha c0 &&
      sct.all isSchemeChar) = true
    rw [h0, hal, hall]
    rfl
  rw [if_pos hcond, List.take_left, drop_length_succ_append]

/-- `urlsplitCore` on a composed `//netloc + path + query` rest. -/
theorem urlsplitCore_recover {n p qy : List Char} (scheme : List Char)
    (hn : ∀ c ∈ n, ¬ (c = '/' ∨ c = '?' ∨ c = '#'))
    (hpne : p ≠ []) (hph : p.head? = some '/')
    (hpq : '?' ∉ p) (hpf : '#' ∉ p) (hqf : '#' ∉ qy) :
    urlsplitCore scheme ('/' :: '/' :: (n ++ p ++
      (if qy = [] then [] else '?' :: qy))) =
    ⟨scheme, n, p, qy, []⟩ := by
  by_cases h0 : qy = []
  · subst h0
    show urlsplitCore scheme ('/' :: '/' :: (n ++ p ++ ([] : List Char))) =
      ⟨scheme, n, p, [], []⟩
    rw [List.append_nil]
    unfold urlsplitCore
    rw [if_pos (show ('/' :: '/' :: (n ++ p)).take 2 = ['/', '/'] from rfl),
      show ('/' :: '/' :: (n ++ p)).drop 2 = n ++ p from rfl,
      splitNetloc_recover hn (Or.inr hph)]
    dsimp only
    have hfrag : splitFragmentQ p = (p, []) := by
      unfold splitFragmentQ
      rw [splitOnceChar_none hpf]
    rw [hfrag]
    dsimp only
    have hquery : splitQueryQ p = (p, []) := by
      unfold splitQueryQ
      rw [splitOnceChar_none hpq]
    rw [hquery]
  · show urlsplitCore scheme ('/' :: '/' :: (n ++ p ++
      (if qy = [] then [] else '?' :: qy))) = ⟨scheme, n, p, qy, []⟩
    rw [if_neg h0]
    unfold urlsplitCore
    rw [if_pos (show ('/' :: '/' :: (n ++ p ++ '?' :: qy)).take 2 =
        ['/', '/'] from rfl),
      show ('/' :: '/' :: (n ++ p ++ '?' :: qy)).drop 2 =
        n ++ p ++ '?' :: qy from rfl,
      List.append_assoc]
    have hhead : (p ++ '?' :: qy).head? = some '/' := by
      rw [head?_append_left hpne]
      exact hph
    rw [splitNetloc_recover hn (Or.inr hhead)]
    dsimp only
    have hfq : '#' ∉ p ++ '?' :: qy := by
      intro hm
      rcases List.mem_append.mp hm with h1 | h1
      · exact hpf h1
      · rcases List.mem_cons.mp h1 with h2 | h2
        · exact absurd h2 (by decide)
        · exact hqf h2
    have hfrag : splitFragmentQ (p ++ '?' :: qy) =
        (p ++ '?' :: qy, []) := by
      unfold splitFragmentQ
      rw [splitOnceChar_none hfq]
    rw [hfrag]
    dsimp only
    have hquery : splitQueryQ (p ++ '?' :: qy) = (p, qy) := by
      unfold splitQueryQ
      rw [splitOnceChar_append hpq]
    rw [hquery]

/-- `urlsplit` of a composed absolute http(s)-style URL recovers its
components. -/
theorem urlsplitL_recover {c0 : Char} {sct n p qy : List Char}
    (hcolon : ':' ∉ c0 :: sct) (hal : isAsciiAlpha c0 = true)
    (hall : sct.all isSchemeChar = true)
    (hlow : pyLower (c0 :: sct) = c0 :: sct)
    (hsc_clean : ∀ c ∈ c0 :: sct, ¬ (c = '\t' ∨ c = '\r' ∨ c = '\n'))
    (hn : ∀ c ∈ n, ¬ (c = '/' ∨ c = '?' ∨ c = '#' ∨ c = '\t' ∨ c = '\r'
      ∨ c = '\n'))
    (hpne : p ≠ []) (hph : p.head? = some '/')
    (hp : ∀ c ∈ p, ¬ (c = '?' ∨ c = '#' ∨ c = '\t' ∨ c = '\r' ∨ c = '\n'))
    (hq : ∀ c ∈ qy, ¬ (c = '#' ∨ c = '\t' ∨ c = '\r' ∨ c = '\n')) :
    urlsplitL ((c0 :: sct) ++ ':' :: '/' :: '/' :: (n ++ p ++
      (if qy = [] then [] else '?' :: qy))) =
    ⟨c0 :: sct, n, p, qy, []⟩ := by
  have hclean : ∀ c ∈ (c0 :: sct) ++ ':' :: '/' :: '/' :: (n ++ p ++
      (if qy = [] then [] else '?' :: qy)),
      ¬ (c = '\t' ∨ c = '\r' ∨ c = '\n') := by
    intro c hc
    rcases List.mem_append.mp hc with h1 | h1
    · exact hsc_clean c h1
    · rcases List.mem_cons.mp h1 with h2 | h2
      · subst h2
        decide
      · rcases List.mem_cons.mp h2 with h3 | h3
        · subst h3
          decide
        · rcases List.mem_cons.mp h3 with h4 | h4
          · subst h4
            decide
          · rcases List.mem_append.mp h4 with h5 | h5
            · rcases List.mem_append.mp h5 with h6 | h6
              · intro hbad
                rcases hbad with h | h | h <;>
                  exact hn c h6 (by rw [h]; simp)
              · intro hbad
                rcases hbad with h | h | h <;>
                  exact hp c h6 (by rw [h]; simp)
            · by_cases h0 : qy = []
              · rw [if_pos h0] at h5
                cases h5
              · rw [if_neg h0] at h5
                rcases List.mem_cons.mp h5 with h6 | h6
                · subst h6
                  decide
                · intro hbad
                  rcases hbad with h | h | h <;>
                    exact hq c h6 (by rw [h]; simp)
  unfold urlsplitL
  rw [filter_clean hclean, splitScheme_recover _ hcolon hal hall, hlow]
  exact urlsplitCore_recover (c0 :: sct)
    (fun c hc hbad => by
      rcases hbad with h | h | h <;> exact hn c hc (by rw [h]; simp))
    hpne hph
    (fun hm => hp '?' hm (by simp))
    (fun hm => hp '#' hm (by simp))
    (fun hm => hq '#' hm (by simp))

theorem urlparseL_no_params {u : List Char}
    (h : ';' ∉ (urlsplitL u).path) :
    urlparseL u = ⟨(urlsplitL u).scheme, (urlsplitL u).netloc,
      (urlsplitL u).path, [], (urlsplitL u).query,
      (urlsplitL u).fragment⟩ := by
  unfold urlparseL
  rw [if_neg (fun hc => h hc.2)]

/-- `urlunparse` of an absolute http(s)-style parse with no params or
fragment. -/
theorem urlunparseL_abs {sc n p qy : List Char}
    (hsc : ¬ sc = []) (hn : ¬ n = []) (hph : p.head? = some '/') :
    urlunparseL ⟨sc, n, p, [], qy, []⟩ =
      sc ++ ':' :: '/' :: '/' :: (n ++ p ++
        (if qy = [] then [] else '?' :: qy)) := by
  have hbase : unparseBase ⟨sc, n, p, [], qy, []⟩ = p := by
    unfold unparseBase
    rw [if_pos rfl]
  have hnet : unparseWithNetloc ⟨sc, n, p, [], qy, []⟩ =
      '/' :: '/' :: (n ++ p) := by
    unfold unparseWithNetloc
    rw [hbase]
    rw [if_pos (Or.inl hn), if_neg (fun hc => hc.2 hph)]
  have hsch : unparseWithScheme ⟨sc, n, p, [], qy, []⟩ =
      sc ++ ':' :: '/' :: '/' :: (n ++ p) := by
    unfold unparseWithScheme
    rw [if_neg hsc, hnet]
  unfold urlunparseL unparseWithQuery
  rw [if_pos rfl]
  by_cases hq0 : qy = []
  · rw [if_pos hq0, if_pos hq0, hsch, List.append_nil]
  · rw [if_neg hq0, if_neg hq0, hsch]
    simp

/-- `normalize_url` is idempotent on URLs whose split has a well-formed,
already-lowercase scheme, an absolute or empty path free of `;`, a nonempty
rewritten netloc free of URL delimiters, a rewritten path free of
delimiters, and an ASCII percent-free query. -/
theorem normalizeUrlL_idem_core {u : List Char} {c0 : Char} {sct : List Char}
    (hS : (urlsplitL u).scheme = c0 :: sct)
    (hcolon : ':' ∉ c0 :: sct) (hal : isAsciiAlpha c0 = true)
    (hall : sct.all isSchemeChar = true)
    (hlow : pyLower (c0 :: sct) = c0 :: sct)
    (hclean : ∀ c ∈ c0 :: sct, ¬ (c = '\t' ∨ c = '\r' ∨ c = '\n'))
    (hP0 : (urlsplitL u).path = [] ∨ (urlsplitL u).path.head? = some '/')
    (hSemi : ';' ∉ (urlsplitL u).path)
    (hN : stripDefaultPort (c0 :: sct) (pyLower (urlsplitL u).netloc) ≠ [])
    (hNf : ∀ c ∈ stripDefaultPort (c0 :: sct) (pyLower (urlsplitL u).netloc),
      ¬ (c = '/' ∨ c = '?' ∨ c = '#' ∨ c = '\t' ∨ c = '\r' ∨ c = '\n'))
    (hPf : ∀ c ∈ normPath (urlsplitL u).path,
      ¬ (c = '?' ∨ c = '#' ∨ c = ';' ∨ c = '\t' ∨ c = '\r' ∨ c = '\n'))
    (hQ : ∀ c ∈ (urlsplitL u).query, c.toNat < 128 ∧ ¬ c = '%') :
    normalizeUrlL (normalizeUrlL u) = normalizeUrlL u := by
  have hph2 : (normPath (urlsplitL u).path).head? = some '/' :=
    normPath_head hP0
  have h0 : normalizeUrlL u =
      urlunparseL ⟨pyLower (urlparseL u).scheme,
        stripDefaultPort (pyLower (urlparseL u).scheme)
          (pyLower (urlparseL u).netloc),
        normPath (urlparseL u).path, (urlparseL u).params,
        normQuery (urlparseL u).query, []⟩ := rfl
  rw [urlparseL_no_params hSemi] at h0
  dsimp only at h0
  rw [hS, hlow] at h0
  have h1 : normalizeUrlL u = (c0 :: sct) ++ ':' :: '/' :: '/' ::
      (stripDefaultPort (c0 :: sct) (pyLower (urlsplitL u).netloc) ++
       normPath (urlsplitL u).path ++
       (if normQuery (urlsplitL u).query = [] then []
        else '?' :: normQuery (urlsplitL u).query)) := by
    rw [h0]
    exact urlunparseL_abs (by simp) hN hph2
  have hp5 : ∀ c ∈ normPath (urlsplitL u).path,
      ¬ (c = '?' ∨ c = '#' ∨ c = '\t' ∨ c = '\r' ∨ c = '\n') := by
    intro c hc hbad
    apply hPf c hc
    rcases hbad with h | h | h | h | h
    · exact Or.inl h
    · exact Or.inr (Or.inl h)
    · exact Or.inr (Or.inr (Or.inr (Or.inl h)))
    · exact Or.inr (Or.inr (Or.inr (Or.inr (Or.inl h))))
    · exact Or.inr (Or.inr (Or.inr (Or.inr (Or.inr h))))
  have hq4 : ∀ c ∈ normQuery (urlsplitL u).query,
      ¬ (c = '#' ∨ c = '\t' ∨ c = '\r' ∨ c = '\n') := by
    intro c hc hbad
    apply normQuery_chars hc
    rcases hbad with h | h | h | h
    · exact Or.inr (Or.inl h)
    · exact Or.inr (Or.inr (Or.inr (Or.inl h)))
    · exact Or.inr (Or.inr (Or.inr (Or.inr (Or.inl h))))
    · exact Or.inr (Or.inr (Or.inr (Or.inr (Or.inr h))))
  have h2 : urlsplitL (normalizeUrlL u) =
      ⟨c0 :: sct,
       stripDefaultPort (c0 :: sct) (pyLower (urlsplitL u).netloc),
       normPath (urlsplitL u).path,
       normQuery (urlsplitL u).query, []⟩ := by
    rw [h1]
    exact @urlsplitL_recover c0 sct
      (stripDefaultPort (c0 :: sct) (pyLower (urlsplitL u).netloc))
      (normPath (urlsplitL u).path)
      (normQuery (urlsplitL u).query)
      hcolon hal hall hlow hclean hNf (normPath_ne_nil _) hph2 hp5 hq4
  have hsemi2 : ';' ∉ (urlsplitL (normalizeUrlL u)).path := by
    rw [h2]
    show ';' ∉ normPath (urlsplitL u).path
    exact fun hm => hPf ';' hm (Or.inr (Or.inr (Or.inl rfl)))
  have h4 : normalizeUrlL (normalizeUrlL u) =
      urlunparseL ⟨pyLower (urlparseL (normalizeUrlL u)).scheme,
        stripDefaultPort (pyLower (urlparseL (normalizeUrlL u)).scheme)
          (pyLower (urlparseL (normalizeUrlL u)).netloc),
        normPath (urlparseL (normalizeUrlL u)).path,
        (urlparseL (normalizeUrlL u)).params,
        normQuery (urlparseL (normalizeUrlL u)).query, []⟩ := rfl
  rw [urlparseL_no_params hsemi2] at h4
  dsimp only at h4
  rw [h2] at h4
  dsimp only at h4
  rw [hlow, stripDefaultPort_lowered (pyLower_idem _),
    stripDefaultPort_idem, normPath_idem, normQuery_idem hQ] at h4
  rw [h4, h0]

/-- Witness for C9 (amended) at a concrete ftp URL. -/
theorem C9_witness :
    isValidUrl oneLinkCfg emptyCrawlState "ftp://example.com/a" =
      (false, emptyCrawlState) ∧
    normalize_url "ftp://example.com/a" = "ftp://example.com/a" :=
  C9_amended_scheme_check_in_is_valid_url oneLinkCfg emptyCrawlState
    "ftp://example.com/a" rfl rfl

/-- C8: `normalize_url` is NOT idempotent: on `"http://h/x/;a//"` the first
pass strips the trailing slashes, exposing a `;` after the last `/` of the
path, so the second pass splits it off as urlparse params and re-attaches it
to the shortened path, giving a different string. -/
theorem C8_counterexample_not_idempotent :
    normalize_url (normalize_url "http://h/x/;a//") ≠
      normalize_url "http://h/x/;a//" ∧
    normalize_url "http://h/x/;a//" = "http://h/x/;a" ∧
    normalize_url "http://h/x/;a" = "http://h/x;a" :=
  ⟨by decide, by decide, by decide⟩

/-- C8 (amended): `normalize_url` is idempotent for absolute http(s) URLs
whose path contains no `;` (so urlparse's params split cannot trigger),
whose rewritten netloc is nonempty and free of URL delimiters, whose
rewritten path is free of delimiters, and whose query is ASCII without `%`;
and it maps `"http://Example.com:80/a?b=2&a=1"` and
`"http://example.com/a?a=1&b=2"` to the same output. -/
theorem C8_amended_idempotent_on_clean_urls (u : String)
    (hS : (urlsplitL u.data).scheme = ("http").data ∨
          (urlsplitL u.data).scheme = ("https").data)
    (hP0 : (urlsplitL u.data).path = [] ∨
      (urlsplitL u.data).path.head? = some '/')
    (hSemi : ';' ∉ (urlsplitL u.data).path)
    (hN : stripDefaultPort (pyLower (urlsplitL u.data).scheme)
      (pyLower (urlsplitL u.data).netloc) ≠ [])
    (hNf : ∀ c ∈ stripDefaultPort (pyLower (urlsplitL u.data).scheme)
      (pyLower (urlsplitL u.data).netloc),
      ¬ (c = '/' ∨ c = '?' ∨ c = '#' ∨ c = '\t' ∨ c = '\r' ∨ c = '\n'))
    (hPf : ∀ c ∈ normPath (urlsplitL u.data).path,
      ¬ (c = '?' ∨ c = '#' ∨ c = ';' ∨ c = '\t' ∨ c = '\r' ∨ c = '\n'))
    (hQ : ∀ c ∈ (urlsplitL u.data).query, c.toNat < 128 ∧ ¬ c = '%') :
    normalize_url (normalize_url u) = normalize_url u ∧
    normalize_url "http://Example.com:80/a?b=2&a=1" =
      normalize_url "http://example.com/a?a=1&b=2" := by
  constructor
  · show (⟨normalizeUrlL (normalizeUrlL u.data)⟩ : String) =
      ⟨normalizeUrlL u.data⟩
    have hcore : normalizeUrlL (normalizeUrlL u.data) =
        normalizeUrlL u.data := by
      rcases hS with hS | hS
      · have hl : pyLower (urlsplitL u.data).scheme =
            'h' :: ("ttp").data :=
          (congrArg pyLower hS).trans (by decide)
        rw [hl] at hN hNf
        exact normalizeUrlL_idem_core (hS.trans (by decide)) (by decide)
          (by decide) (by decide) (by decide) (by decide) hP0 hSemi hN hNf
          hPf hQ
      · have hl : pyLower (urlsplitL u.data).scheme =
            'h' :: ("ttps").data :=
          (congrArg pyLower hS).trans (by decide)
        rw [hl] at hN hNf
        exact normalizeUrlL_idem_core (hS.trans (by decide)) (by decide)
          (by decide) (by decide) (by decide) (by decide) hP0 hSemi hN hNf
          hPf hQ
    exact congrArg (fun l => (⟨l⟩ : String)) hcore
  · decide

/-- Witness for C8 (amended) at the spec's own example URL. -/
theorem C8_witness :
    normalize_url (normalize_url "http://Example.com:80/a?b=2&a=1") =
      normalize_url "http://Example.com:80/a?b=2&a=1" ∧
    normalize_url "http://Example.com:80/a?b=2&a=1" =
      normalize_url "http://example.com/a?a=1&b=2" :=
  C8_amended_idempotent_on_clean_urls "http://Example.com:80/a?b=2&a=1"
    (by decide) (by decide) (by decide) (by decide) (by decide) (by decide)
    (by decide)

end ScraperAgent
